import Mathlib

/-!
# Formal model of `sync_sd_card.py`

A shallow embedding of the SD-card reconciliation script.  File names and
file contents are Lean `String`s; a platform directory is its list of
regular files, an optional `images/` subdirectory (itself a list of files)
and an optional `filelist.csv`; the SD card state bundles the platform
directories with the three `cubegm` metadata files.  Python string
primitives used by the script (`Path.suffix`, `Path.stem`, `str.strip`,
`str.lower`, `str.split`, `in`, `re.findall(r'[a-z0-9]{2,}', …)`) are
re-implemented character-by-character below (ASCII model of
`lower`/`upper`).  The reconciliation itself is `syncSdCard`, which
returns the new state together with the list of reported/performed
actions, mirroring the source's interleaving of decisions and (dry-run
guarded) mutations.
-/

namespace SyncSd

/-- The character list underlying a string. -/
def chars (s : String) : List Char := s.data

/-- Rebuild a string from its character list. -/
def str (cs : List Char) : String := ⟨cs⟩

/-- Characters removed at both ends by Python's `str.strip()` (ASCII part). -/
def isPyWs (c : Char) : Bool :=
  c = ' ' || c = '\t' || c = '\n' || c = '\r' || c = '\x0b' || c = '\x0c'

/-- `str.strip()` on character lists: drop whitespace at both ends. -/
def stripC (cs : List Char) : List Char :=
  ((cs.dropWhile isPyWs).reverse.dropWhile isPyWs).reverse

/-- Python `str.strip()`. -/
def pyStrip (s : String) : String := str (stripC (chars s))

/-- ASCII model of Python `str.lower`. -/
def asciiLower (c : Char) : Char :=
  if 'A' ≤ c && c ≤ 'Z' then Char.ofNat (c.toNat + 32) else c

/-- ASCII model of Python `str.upper`. -/
def asciiUpper (c : Char) : Char :=
  if 'a' ≤ c && c ≤ 'z' then Char.ofNat (c.toNat - 32) else c

/-- Python `str.lower()`. -/
def lowerStr (s : String) : String := str ((chars s).map asciiLower)

/-- Python `str.upper()`. -/
def upperStr (s : String) : String := str ((chars s).map asciiUpper)

/-- Code-point lexicographic comparison, as Python compares `str`s. -/
def lexLe : List Char → List Char → Bool
  | [], _ => true
  | _ :: _, [] => false
  | a :: as, b :: bs =>
    if a.toNat < b.toNat then true
    else if b.toNat < a.toNat then false
    else lexLe as bs

/-- Does `pat` start the list `l`?  (Python substring machinery.) -/
def chStartsWith : List Char → List Char → Bool
  | [], _ => true
  | _ :: _, [] => false
  | a :: as, b :: bs => a = b && chStartsWith as bs

/-- Contiguous-substring test: Python's `pat in s` for strings. -/
def chContains (pat : List Char) : List Char → Bool
  | [] => pat.isEmpty
  | c :: rest => chStartsWith pat (c :: rest) || chContains pat rest

/-- Index of the last `'.'` in a name, Python's `name.rfind('.')`. -/
def rfindDot (cs : List Char) : Option Nat :=
  match cs.reverse.findIdx? (· = '.') with
  | none => none
  | some j => some (cs.length - 1 - j)

/-- Python `PurePath.suffix` on a file name: the part from the last dot,
provided that dot is neither the first nor the last character. -/
def pySuffixC (cs : List Char) : List Char :=
  match rfindDot cs with
  | none => []
  | some i => if 0 < i && i < cs.length - 1 then cs.drop i else []

/-- Python `PurePath.stem`: the name with its suffix removed. -/
def pyStemC (cs : List Char) : List Char :=
  cs.take (cs.length - (pySuffixC cs).length)

/-- `Path.suffix` on strings. -/
def pySuffix (s : String) : String := str (pySuffixC (chars s))

/-- `Path.stem` on strings. -/
def pyStem (s : String) : String := str (pyStemC (chars s))

/-- `name.replace(',', '')`. -/
def stripCommas (s : String) : String := str ((chars s).filter (fun c => c ≠ ','))

/-- `',' in name`. -/
def hasComma (s : String) : Bool := (chars s).any (· = ',')

/-! ## Static configuration: ROM_EXT_MAP and IMG_EXTENSIONS -/

/-- The platform identifiers, in Python's `sorted(ROM_EXT_MAP.keys())` order. -/
def PLATFORMS : List String :=
  ["ATARI", "FC", "GB", "GBA", "GBC", "GG", "MAME", "MD", "NGPC", "PCE", "PS", "SFC"]

/-- `ROM_EXT_MAP`: the recognized (lower-case) extension set of each platform. -/
def romExtMap : String → List String
  | "ATARI" => [".a26", ".a78", ".bin", ".zip", ".7z"]
  | "FC" => [".nes", ".fds", ".zip", ".7z"]
  | "GB" => [".gb", ".zip", ".7z"]
  | "GBA" => [".gba", ".zip", ".7z"]
  | "GBC" => [".gbc", ".zip", ".7z"]
  | "GG" => [".gg", ".sms", ".zip", ".7z"]
  | "MAME" => [".fba", ".zip", ".7z"]
  | "MD" => [".md", ".gen", ".bin", ".zip", ".7z", ".smd"]
  | "NGPC" => [".ngp", ".ngc", ".zip", ".7z"]
  | "PCE" => [".pce", ".zip", ".7z"]
  | "PS" => [".img", ".iso", ".bin", ".cue", ".pbp", ".chd", ".zip", ".7z"]
  | "SFC" => [".sfc", ".smc", ".zip", ".7z"]
  | _ => []

/-- `IMG_EXTENSIONS`. -/
def IMG_EXTENSIONS : List String := [".jpg", ".jpeg", ".png", ".bmp", ".gif"]

/-! ## Filesystem model -/

/-- A regular file: its name and (opaque) content. -/
structure FsFile where
  name : String
  content : String
deriving DecidableEq

/-- A platform directory: its regular files other than `filelist.csv`
(game files, loose images, anything else), the `images/` subdirectory when
it exists (modelled as the list of its regular files), and the
`filelist.csv` content when that file exists.  `filelist.csv` is kept
apart because its `.csv` suffix never matches a ROM or image extension,
so the script only ever touches it through its own read/write sites. -/
structure PlatformDir where
  files : List FsFile
  images : Option (List FsFile)
  filelist : Option String
deriving DecidableEq

/-- The SD card: the platform directories that exist (keyed by platform
identifier) and the three `cubegm` metadata files. -/
structure SdState where
  dirs : List (String × PlatformDir)
  allfiles : Option String
  favorites : Option String
  recent : Option String
deriving DecidableEq

/-- `f.suffix.lower() in extensions`: is `name` a GameFile name for `exts`? -/
def isRomName (exts : List String) (name : String) : Bool :=
  exts.contains (str ((pySuffixC (chars name)).map asciiLower))

/-- `f.suffix.lower() in IMG_EXTENSIONS`. -/
def isImgName (name : String) : Bool :=
  IMG_EXTENSIONS.contains (str ((pySuffixC (chars name)).map asciiLower))

/-- `get_roms`: the files whose extension (case-insensitively) belongs to
`exts`, sorted by file name (code-point order, as Python's `sorted`). -/
def getRoms (pd : PlatformDir) (exts : List String) : List FsFile :=
  List.insertionSort (fun a b => lexLe (chars a.name) (chars b.name) = true)
    (pd.files.filter (fun f => isRomName exts f.name))

/-- `get_images`: the image files directly in the platform directory, in
directory order. -/
def getImages (pd : PlatformDir) : List FsFile :=
  pd.files.filter (fun f => isImgName f.name)

/-! ## Name matcher (`match_score`) -/

/-- Is the character a lower-case ASCII letter or digit (`[a-z0-9]`)? -/
def isAlnumLower (c : Char) : Bool :=
  ('a' ≤ c && c ≤ 'z') || ('0' ≤ c && c ≤ '9')

/-- Maximal `[a-z0-9]` runs of a character list (helper for the
`re.findall(r'[a-z0-9]{2,}', …)` tokenizer); `acc` holds the current run
reversed. -/
def runsAux : List Char → List Char → List (List Char)
  | [], acc => if acc.isEmpty then [] else [acc.reverse]
  | c :: cs, acc =>
    if isAlnumLower c then runsAux cs (c :: acc)
    else if acc.isEmpty then runsAux cs []
    else acc.reverse :: runsAux cs []

/-- The token set of a name: maximal lower-case alphanumeric runs of
length at least 2 of the lowered name, without duplicates (Python builds a
`set`). -/
def tokensOf (s : String) : List (List Char) :=
  ((runsAux ((chars s).map asciiLower) []).filter (fun r => 2 ≤ r.length)).dedup

/-- The inner loop of `match_score`: does some token of `iws` equal `rw`,
contain it, or be contained in it?  (`rw == iw or rw in iw or iw in rw`,
with the `break` at the first hit.) -/
def scoreHit (rw : List Char) (iws : List (List Char)) : Bool :=
  iws.any (fun iw => rw = iw || chContains rw iw || chContains iw rw)

/-- `match_score(rom_name, img_name)`. -/
def matchScore (romName imgName : String) : Nat :=
  let rws := tokensOf romName
  let iws := tokensOf imgName
  if rws.isEmpty || iws.isEmpty then 0
  else rws.foldl (fun sc rw => if scoreHit rw iws then sc + 1 else sc) 0

/-! ## Reading and writing text files -/

/-- Python text-mode universal newlines: `\r\n` and lone `\r` become `\n`. -/
def normNl : List Char → List Char
  | [] => []
  | [c] => [if c = '\r' then '\n' else c]
  | c :: c2 :: rest =>
    if c = '\r' then
      if c2 = '\n' then '\n' :: normNl rest
      else '\n' :: normNl (c2 :: rest)
    else c :: normNl (c2 :: rest)

/-- Split a character list at each occurrence of `sep` (always at least
one piece, like Python `str.split(sep)`). -/
def splitCh (sep : Char) : List Char → List (List Char)
  | [] => [[]]
  | c :: rest =>
    if c = sep then [] :: splitCh sep rest
    else
      match splitCh sep rest with
      | [] => [[c]]
      | p :: ps => (c :: p) :: ps

/-- The lines a Python `for line in f` loop sees (before any `strip`):
universal-newline translation, then split at `\n`. -/
def readLines (content : String) : List String :=
  (splitCh '\n' (normNl (chars content))).map str

/-- `parts[0]` of `line.split('|')`. -/
def pipeKey (line : String) : String :=
  str ((splitCh '|' (chars line)).headI)

/-- Join lines with `\n` (Python `'\n'.join`). -/
def intercalNl : List String → String
  | [] => ""
  | [l] => l
  | l :: rest => l ++ "\n" ++ intercalNl rest

/-- `'\n'.join(lines) + '\n'`: the written form of every regenerated file. -/
def joinNl (ls : List String) : String := intercalNl ls ++ "\n"

/-! ## The tabular store (`load_csv` and the pipe-keyed variant) -/

/-- Set `k` to `v` in an association list, overwriting an existing binding
(later lines win, as in a Python dict built by repeated assignment). -/
def updateA (d : List (String × String)) (k v : String) : List (String × String) :=
  if d.any (fun p => p.1 = k) then d.map (fun p => if p.1 = k then (k, v) else p)
  else d ++ [(k, v)]

/-- Dict lookup. -/
def lookupA (d : List (String × String)) (k : String) : Option String :=
  (d.find? (fun p => p.1 = k)).map (fun p => p.2)

/-- `k in d`. -/
def memA (d : List (String × String)) (k : String) : Bool :=
  d.any (fun p => p.1 = k)

/-- One line of `load_csv` (for each stripped non-blank line with a comma
at a positive index, map the stripped key — the text before the first
comma — to the rest of the line). -/
def csvLineStep (data : List (String × String)) (l : String) : List (String × String) :=
  let line := pyStrip l
  if line = "" then data
  else
    match (chars line).findIdx? (· = ',') with
    | none => data
    | some idx =>
      if 0 < idx then
        updateA data (pyStrip (str ((chars line).take idx))) (str ((chars line).drop (idx + 1)))
      else data

def loadCsvContent (content : String) : List (String × String) :=
  (readLines content).foldl csvLineStep []

/-- `load_csv(csv_path)`: empty dict when the file does not exist. -/
def loadCsv : Option String → List (String × String)
  | none => []
  | some c => loadCsvContent c

/-- One line of the `allfiles.lst` load: each stripped non-blank line is
keyed by its first pipe field and mapped to the whole stripped line. -/
def pipeLineStep (d : List (String × String)) (l : String) : List (String × String) :=
  let line := pyStrip l
  if line = "" then d else updateA d (pipeKey line) line

def loadPipeKeyed (content : String) : List (String × String) :=
  (readLines content).foldl pipeLineStep []

/-! ## Elementary filesystem operations -/

/-- Find a file by name. -/
def findFile (fs : List FsFile) (n : String) : Option FsFile :=
  fs.find? (fun f => f.name = n)

/-- Delete a file by name (`unlink`). -/
def removeFile (fs : List FsFile) (n : String) : List FsFile :=
  fs.filter (fun f => ¬ f.name = n)

/-- Write a file: overwrite the file of that name in place, or append a
new directory entry. -/
def setFile (fs : List FsFile) (n c : String) : List FsFile :=
  if fs.any (fun f => f.name = n) then
    fs.map (fun f => if f.name = n then ⟨n, c⟩ else f)
  else fs ++ [⟨n, c⟩]

/-- `Path.rename` with POSIX overwrite-on-collision semantics (the spec's
"last write wins"); no-op when the source does not exist. -/
def renameFile (fs : List FsFile) (old new : String) : List FsFile :=
  match findFile fs old with
  | none => fs
  | some f => setFile (removeFile fs old) new f.content

/-! ## Reported/performed actions -/

/-- The destructive operations the script decides on; both modes report
them, execute mode also performs them. -/
inductive SdAct
  | renameRom (platform old new : String)
  | renameImg (platform old new : String)
  | mkImagesDir (platform : String)
  | moveImage (platform img target : String) (score : Nat)
  | deleteDup (platform name : String)
  | deleteOrphan (platform name : String)
  | writeCsv (platform : String) (lines : List String)
  | truncateCsv (platform : String)
  | writeAllfiles (lines : List String)
  | writeList (name : String) (kept : List String)
deriving DecidableEq

/-! ## Step 1: comma renames -/

/-- One renaming pass over a directory snapshot: every snapshot entry
whose name satisfies `pred` is renamed to its comma-stripped name (in
execute mode) and reported (in both modes). -/
def renamePass (pred : String → Bool) (dry : Bool) (mk : String → String → SdAct) :
    List String → List FsFile → List FsFile × List SdAct
  | [], fs => (fs, [])
  | n :: rest, fs =>
    if pred n then
      let n' := stripCommas n
      let fs' := if dry then fs else renameFile fs n n'
      let (fs'', log) := renamePass pred dry mk rest fs'
      (fs'', mk n n' :: log)
    else renamePass pred dry mk rest fs

/-- Step 1 for one platform directory: rename comma-containing GameFiles
at the root and comma-containing files inside `images/`. -/
def step1Dir (platform : String) (pd : PlatformDir) (dry : Bool) :
    PlatformDir × List SdAct :=
  let exts := romExtMap platform
  let (files', log1) :=
    renamePass (fun n => isRomName exts n && hasComma n) dry
      (SdAct.renameRom platform) (pd.files.map (fun f => f.name)) pd.files
  match pd.images with
  | none => ({ pd with files := files' }, log1)
  | some imgs =>
    let (imgs', log2) :=
      renamePass hasComma dry (SdAct.renameImg platform) (imgs.map (fun f => f.name)) imgs
    ({ pd with files := files', images := some imgs' }, log1 ++ log2)

/-! ## Step 2: image association, duplicate pruning, orphan pruning, CSV -/

/-- The inner candidate scan of the association loop: the first ROM (in
sorted order) attaining the maximal positive score against the image stem,
skipping ROMs already claimed in this pass.  Mirrors the strict
`score > best_score` update. -/
def bestMatch (roms : List FsFile) (used : List String) (imgStem : String) :
    Option FsFile × Nat :=
  roms.foldl
    (fun acc rom =>
      if used.contains rom.name then acc
      else
        let sc := matchScore (pyStem rom.name) imgStem
        if acc.2 < sc then (some rom, sc) else acc)
    (none, 0)

/-- The association decisions: for each direct image in directory order,
the image name, its `images/<rom stem>.png` target and the score, when a
still-unclaimed ROM scores at least 1. -/
def associate (roms : List FsFile) (used : List String) :
    List FsFile → List (String × String × Nat)
  | [] => []
  | img :: rest =>
    match bestMatch roms used (pyStem img.name) with
    | (some rom, bs) =>
      if 1 ≤ bs then
        (img.name, pyStem rom.name ++ ".png", bs) :: associate roms (rom.name :: used) rest
      else associate roms used rest
    | (none, _) => associate roms used rest

/-- Perform one image move: `shutil.copy2` into `images/` under the
target name, then `unlink` the original.  When `images/` does not exist
the copy raises, the exception is caught and the original is kept. -/
def applyMove (pd : PlatformDir) (imgName target : String) : PlatformDir :=
  match findFile pd.files imgName, pd.images with
  | some f, some imgs =>
    { pd with
      files := removeFile pd.files imgName
      images := some (setFile imgs target f.content) }
  | _, _ => pd

/-- The duplicate-pruning targets: GameFiles whose suffix is not exactly
`.zip` but whose stem is also the stem of a `.zip` GameFile of the same
listing. -/
def dupTargets (romFiles : List FsFile) : List FsFile :=
  let zipStems := (romFiles.filter (fun f => pySuffix f.name = ".zip")).map (fun f => pyStem f.name)
  romFiles.filter (fun r => ¬ pySuffix r.name = ".zip" && zipStems.contains (pyStem r.name))

/-- Orphan-image pruning for one platform, acting on the state left by
the duplicate-pruning step. -/
def orphanPrune (platform : String) (exts : List String) (pd : PlatformDir) (dry : Bool) :
    PlatformDir × List SdAct :=
  match pd.images with
  | none => (pd, [])
  | some imgs =>
    let currentRoms := getRoms pd exts
    let validStems := currentRoms.map (fun f => pyStem f.name)
    if ¬ currentRoms.isEmpty then
      let dels := imgs.filter (fun f => ¬ validStems.contains (pyStem f.name))
      ((if dry then pd
        else { pd with images := some (imgs.filter (fun f => validStems.contains (pyStem f.name))) }),
       dels.map (fun f => SdAct.deleteOrphan platform f.name))
    else if ¬ imgs.isEmpty then
      ((if dry then pd else { pd with images := some [] }),
       imgs.map (fun f => SdAct.deleteOrphan platform f.name))
    else (pd, [])

/-- CSV regeneration for one platform, acting on the state left by the
orphan-pruning step. -/
def csvStep (platform : String) (exts : List String) (pd : PlatformDir) (dry : Bool) :
    PlatformDir × List SdAct :=
  let currentRoms := getRoms pd exts
  let oldCsv := loadCsv pd.filelist
  if ¬ currentRoms.isEmpty then
    let lines := currentRoms.map (fun rom =>
      match lookupA oldCsv rom.name with
      | some rest => rom.name ++ "," ++ rest
      | none => rom.name ++ "," ++ pyStem rom.name ++ "," ++ pyStem rom.name)
    ((if dry then pd else { pd with filelist := some (joinNl lines) }),
     [SdAct.writeCsv platform lines])
  else
    match pd.filelist with
    | some _ => ((if dry then pd else { pd with filelist := some "" }), [SdAct.truncateCsv platform])
    | none => (pd, [])

/-- The whole per-platform step-2 chunk: discovery, `images/` creation,
image association and moves, duplicate pruning, orphan pruning, CSV. -/
def step2Dir (platform : String) (pd : PlatformDir) (dry : Bool) :
    PlatformDir × List SdAct :=
  let exts := romExtMap platform
  let romFiles := getRoms pd exts
  let directImages := getImages pd
  let needMk := pd.images.isNone && !romFiles.isEmpty
  let pd1 := if needMk && !dry then { pd with images := some [] } else pd
  let logMk := if needMk then [SdAct.mkImagesDir platform] else []
  let mv := if !directImages.isEmpty && !romFiles.isEmpty then associate romFiles [] directImages else []
  let pd2 := if dry then pd1 else mv.foldl (fun p m => applyMove p m.1 m.2.1) pd1
  let logMv := mv.map (fun m => SdAct.moveImage platform m.1 m.2.1 m.2.2)
  let dups := dupTargets romFiles
  let pd3 := if dry then pd2 else { pd2 with files := dups.foldl (fun fs d => removeFile fs d.name) pd2.files }
  let logDup := dups.map (fun d => SdAct.deleteDup platform d.name)
  let (pd4, logOr) := orphanPrune platform exts pd3 dry
  let (pd5, logCsv) := csvStep platform exts pd4 dry
  (pd5, logMk ++ logMv ++ logDup ++ logOr ++ logCsv)

/-! ## The global pipeline -/

/-- `(root / platform).exists()` and its listing. -/
def getDir (s : SdState) (p : String) : Option PlatformDir :=
  (s.dirs.find? (fun q => q.1 = p)).map (fun q => q.2)

/-- Replace the first directory entry stored for platform `p`. -/
def setEntries (p : String) (pd : PlatformDir) :
    List (String × PlatformDir) → List (String × PlatformDir)
  | [] => []
  | q :: qs => if q.1 = p then (p, pd) :: qs else q :: setEntries p pd qs

/-- Replace the directory stored for platform `p`. -/
def setDir (s : SdState) (p : String) (pd : PlatformDir) : SdState :=
  { s with dirs := setEntries p pd s.dirs }

/-- Phase 1 (`ETAPE 1`): comma renames over every existing platform
directory, in `PLATFORMS` order. -/
def phase1 (dry : Bool) : List String → SdState → SdState × List SdAct
  | [], s => (s, [])
  | p :: ps, s =>
    match getDir s p with
    | none => phase1 dry ps s
    | some pd =>
      let (pd', log) := step1Dir p pd dry
      let (s', log') := phase1 dry ps (setDir s p pd')
      (s', log ++ log')

/-- Phase 2 (`ETAPE 2`): the per-platform reconciliation chunks, in
`PLATFORMS` order; each chunk reads the state left by the previous one. -/
def phase2 (dry : Bool) : List String → SdState → SdState × List SdAct
  | [], s => (s, [])
  | p :: ps, s =>
    match getDir s p with
    | none => phase2 dry ps s
    | some pd =>
      let (pd', log) := step2Dir p pd dry
      let (s', log') := phase2 dry ps (setDir s p pd')
      (s', log ++ log')

/-- The current GameFiles of one platform (empty when the directory does
not exist). -/
def romsOfPlatform (s : SdState) (p : String) : List FsFile :=
  match getDir s p with
  | none => []
  | some pd => getRoms pd (romExtMap p)

/-- The regenerated `allfiles.lst` lines: one line per current GameFile
over sorted platforms then sorted names, keeping the loaded line of a
known key verbatim and synthesizing `key|stem|STEM|stem|stem` otherwise. -/
def allfilesLines (s : SdState) (old : List (String × String)) : List String :=
  (PLATFORMS.map (fun p =>
    (romsOfPlatform s p).map (fun rom =>
      let key := p ++ "/" ++ rom.name
      match lookupA old key with
      | some line => line
      | none =>
        let dn := pyStem rom.name
        key ++ "|" ++ dn ++ "|" ++ upperStr dn ++ "|" ++ dn ++ "|" ++ dn))).flatten

/-- Phase 3 (`ETAPE 3`): synchronize `allfiles.lst`.  The whole step is
skipped when the file does not exist. -/
def phase3 (s : SdState) (dry : Bool) : SdState × List SdAct :=
  match s.allfiles with
  | none => (s, [])
  | some content =>
    let newLines := allfilesLines s (loadPipeKeyed content)
    ((if dry then s else { s with allfiles := some (joinNl newLines) }),
     [SdAct.writeAllfiles newLines])

/-- The set (as a list) of valid `"<platform>/<filename>"` keys. -/
def validRomKeys (s : SdState) : List String :=
  (PLATFORMS.map (fun p => (romsOfPlatform s p).map (fun rom => p ++ "/" ++ rom.name))).flatten

/-- The kept lines of a favorites/recents file: stripped non-blank lines
whose first pipe field is a valid key, in original order. -/
def keptLines (content : String) (valid : List String) : List String :=
  (((readLines content).map pyStrip).filter (fun l => ¬ l = "")).filter
    (fun line => valid.contains (pipeKey line))

/-- `'\n'.join(kept) + '\n' if kept else ''`. -/
def listOutput (kept : List String) : String :=
  if kept.isEmpty then "" else joinNl kept

/-- Phase 4 (`ETAPE 4`): filter `favorites.lst` and `recent.lst` against
the valid keys; files that do not exist are skipped. -/
def phase4 (s : SdState) (dry : Bool) : SdState × List SdAct :=
  let valid := validRomKeys s
  let (fav, logF) :=
    match s.favorites with
    | none => (s.favorites, ([] : List SdAct))
    | some c =>
      let kept := keptLines c valid
      ((if dry then some c else some (listOutput kept)), [SdAct.writeList "favorites.lst" kept])
  let (rec', logR) :=
    match s.recent with
    | none => (s.recent, ([] : List SdAct))
    | some c =>
      let kept := keptLines c valid
      ((if dry then some c else some (listOutput kept)), [SdAct.writeList "recent.lst" kept])
  ({ s with favorites := fav, recent := rec' }, logF ++ logR)

/-- `sync_sd_card(root, dry_run)`: the final filesystem state and the
list of reported (dry-run) / performed (execute) actions. -/
def syncSdCard (s : SdState) (dry : Bool) : SdState × List SdAct :=
  let (s1, l1) := phase1 dry PLATFORMS s
  let (s2, l2) := phase2 dry PLATFORMS s1
  let (s3, l3) := phase3 s2 dry
  let (s4, l4) := phase4 s3 dry
  (s4, l1 ++ l2 ++ l3 ++ l4)

/-! ## The console summary (`RESUME`) -/

/-- The status tag of a platform summary line. -/
def statusOf (romCount csvCount imgCount : Nat) : String :=
  if romCount = 0 && imgCount = 0 then "VIDE"
  else if romCount = 0 then "PAS DE ROMS"
  else if romCount = csvCount && csvCount = imgCount then "OK"
  else "MISMATCH"

/-- The per-platform summary rows printed at the end of a run, computed
from a filesystem state: platform, ROM count, CSV record count (non-blank
lines), image file count, status tag. -/
def summaryOf (s : SdState) : List (String × Nat × Nat × Nat × String) :=
  PLATFORMS.filterMap (fun p =>
    match getDir s p with
    | none => none
    | some pd =>
      let romCount := (getRoms pd (romExtMap p)).length
      let imgCount := (pd.images.getD []).length
      let csvCount :=
        match pd.filelist with
        | none => 0
        | some c => ((readLines c).filter (fun l => ¬ pyStrip l = "")).length
      some (p, romCount, csvCount, imgCount, statusOf romCount csvCount imgCount))

/-! ## Dry-run is the identity on the filesystem state (claim C1) -/

theorem renamePass_dry (pred : String → Bool) (mk : String → String → SdAct)
    (snap : List String) (fs : List FsFile) :
    (renamePass pred true mk snap fs).1 = fs := by
  induction snap generalizing fs with
  | nil => rfl
  | cons n rest ih =>
    simp only [renamePass]
    split
    · have h := ih fs
      rcases hr : renamePass pred true mk rest fs with ⟨a, b⟩
      rw [hr] at h
      simpa [hr] using h
    · exact ih fs

theorem step1Dir_dry (p : String) (pd : PlatformDir) : (step1Dir p pd true).1 = pd := by
  simp only [step1Dir]
  rcases h1 : renamePass (fun n => isRomName (romExtMap p) n && hasComma n) true
      (SdAct.renameRom p) (pd.files.map (fun f => f.name)) pd.files with ⟨files', l1⟩
  have hf : files' = pd.files := by
    have := renamePass_dry (fun n => isRomName (romExtMap p) n && hasComma n)
      (SdAct.renameRom p) (pd.files.map (fun f => f.name)) pd.files
    rw [h1] at this; exact this
  cases him : pd.images with
  | none =>
    rw [h1]
    dsimp only
    simp only [hf]
    rw [← him]
  | some imgs =>
    rcases h2 : renamePass hasComma true (SdAct.renameImg p) (imgs.map (fun f => f.name)) imgs
      with ⟨imgs', l2⟩
    have hg : imgs' = imgs := by
      have := renamePass_dry hasComma (SdAct.renameImg p) (imgs.map (fun f => f.name)) imgs
      rw [h2] at this; exact this
    rw [h1]
    dsimp only
    rw [h2]
    dsimp only
    simp only [hf, hg]
    rw [← him]

theorem orphanPrune_dry (p : String) (exts : List String) (pd : PlatformDir) :
    (orphanPrune p exts pd true).1 = pd := by
  simp only [orphanPrune]
  cases pd.images with
  | none => rfl
  | some imgs =>
    dsimp only
    split
    · simp
    · split <;> simp

theorem csvStep_dry (p : String) (exts : List String) (pd : PlatformDir) :
    (csvStep p exts pd true).1 = pd := by
  simp only [csvStep]
  split
  · simp
  · cases pd.filelist <;> simp

theorem step2Dir_dry (p : String) (pd : PlatformDir) : (step2Dir p pd true).1 = pd := by
  simp [step2Dir, orphanPrune_dry, csvStep_dry]

theorem setEntries_self (p : String) (pd : PlatformDir) (l : List (String × PlatformDir))
    (h : (l.find? (fun q => q.1 = p)).map (fun q => q.2) = some pd) :
    setEntries p pd l = l := by
  induction l with
  | nil => simp [List.find?] at h
  | cons q qs ih =>
    by_cases hq : q.1 = p
    · rw [List.find?_cons_of_pos _ (by simp [hq])] at h
      simp only [Option.map] at h
      injection h with h
      have hqe : q = (p, pd) := by
        rcases q with ⟨q1, q2⟩
        simp only at hq h
        rw [hq, h]
      simp [setEntries, hq, hqe]
    · rw [List.find?_cons_of_neg _ (by simp [hq])] at h
      simp [setEntries, hq, ih h]

theorem setDir_self (s : SdState) (p : String) (pd : PlatformDir)
    (h : getDir s p = some pd) : setDir s p pd = s := by
  have hd : setEntries p pd s.dirs = s.dirs :=
    setEntries_self p pd s.dirs (by simpa [getDir] using h)
  simp [setDir, hd]

theorem phase1_dry (ps : List String) (s : SdState) : (phase1 true ps s).1 = s := by
  induction ps generalizing s with
  | nil => rfl
  | cons p rest ih =>
    simp only [phase1]
    cases hg : getDir s p with
    | none => exact ih s
    | some pd =>
      dsimp only
      rw [step1Dir_dry p pd, setDir_self s p pd hg]
      exact ih s

theorem phase2_dry (ps : List String) (s : SdState) : (phase2 true ps s).1 = s := by
  induction ps generalizing s with
  | nil => rfl
  | cons p rest ih =>
    simp only [phase2]
    cases hg : getDir s p with
    | none => exact ih s
    | some pd =>
      dsimp only
      rw [step2Dir_dry p pd, setDir_self s p pd hg]
      exact ih s

theorem phase3_dry (s : SdState) : (phase3 s true).1 = s := by
  simp only [phase3]
  cases s.allfiles with
  | none => rfl
  | some c => simp

theorem phase4_dry (s : SdState) : (phase4 s true).1 = s := by
  rcases s with ⟨dirs, af, fav, rec'⟩
  simp only [phase4]
  cases fav <;> cases rec' <;> simp

/-- C1.  Running the reconciliation in dry-run mode (the default) performs
no filesystem mutation whatsoever: the filesystem state returned by
`syncSdCard s true` is the starting state `s` — no file or directory is
created, renamed, moved, deleted, truncated, or written. -/
theorem dry_run_preserves_state (s : SdState) : (syncSdCard s true).1 = s := by
  simp only [syncSdCard]
  rw [phase1_dry, phase2_dry, phase3_dry, phase4_dry]

/-! ## Claim C4: the name matcher -/

theorem runsAux_all_alnum (cs : List Char) (acc : List Char)
    (hacc : acc.all isAlnumLower = true) :
    ∀ t ∈ runsAux cs acc, t.all isAlnumLower = true := by
  induction cs generalizing acc with
  | nil =>
    intro t ht
    simp only [runsAux] at ht
    split at ht
    · simp at ht
    · simp only [List.mem_singleton] at ht
      subst ht
      simpa using hacc
  | cons c rest ih =>
    intro t ht
    simp only [runsAux] at ht
    split at ht
    · exact ih (c :: acc) (by simp_all) t ht
    · split at ht
      · exact ih [] (by simp) t ht
      · rcases List.mem_cons.mp ht with h | h
        · subst h
          simpa using hacc
        · exact ih [] (by simp) t h

theorem foldl_scoreHit_count (iws : List (List Char)) (rws : List (List Char)) (n : Nat) :
    rws.foldl (fun sc rw => if scoreHit rw iws then sc + 1 else sc) n
      = n + (rws.filter (fun rw => scoreHit rw iws)).length := by
  induction rws generalizing n with
  | nil => simp
  | cons rw rest ih =>
    by_cases h : scoreHit rw iws = true
    · simp [List.foldl_cons, h, ih]
      omega
    · simp [List.foldl_cons, h, ih]

/-- C4.  `match_score` tokenizes each name into the set of lower-case
alphanumeric runs of length at least 2 (tokens are such runs, without
duplicates), and returns the number of first-name tokens for which some
second-name token is equal to it, a substring of it, or a superstring of
it — the per-token scan stops at its first qualifying hit and there is no
cross-token reuse accounting, so the result is exactly that count; a run
with an empty token set on either side scores 0 (that is the `filter` of
an empty list, or an always-false predicate).  In particular
`match_score("super_mario_bros", "Super Mario Bros (E)") = 3`. -/
theorem match_score_spec :
    (∀ r i, matchScore r i =
      ((tokensOf r).filter (fun rw =>
        (tokensOf i).any (fun iw => rw = iw || chContains rw iw || chContains iw rw))).length)
    ∧ (∀ r, (tokensOf r).all (fun t => 2 ≤ t.length && t.all isAlnumLower) = true)
    ∧ (∀ r, (tokensOf r).Nodup)
    ∧ matchScore "super_mario_bros" "Super Mario Bros (E)" = 3 := by
  refine ⟨?_, ?_, ?_, by decide⟩
  · intro r i
    show matchScore r i = ((tokensOf r).filter (fun rw => scoreHit rw (tokensOf i))).length
    by_cases h1 : (tokensOf r).isEmpty = true
    · rw [List.isEmpty_iff] at h1
      simp [matchScore, h1]
    · by_cases h2 : (tokensOf i).isEmpty = true
      · rw [List.isEmpty_iff] at h2
        simp [matchScore, h1, h2, scoreHit, List.isEmpty_iff]
      · have : matchScore r i =
            (tokensOf r).foldl (fun sc rw => if scoreHit rw (tokensOf i) then sc + 1 else sc) 0 := by
          simp [matchScore, h1, h2, List.isEmpty_iff]
        rw [this, foldl_scoreHit_count]
        omega
  · intro r
    simp only [List.all_eq_true]
    intro t ht
    have ht' := List.mem_dedup.mp ht
    have hlen := List.of_mem_filter ht'
    have halnum := runsAux_all_alnum ((chars r).map asciiLower) [] (by simp) t
      (List.mem_of_mem_filter ht')
    simp only [Bool.and_eq_true]
    exact ⟨by simpa using hlen, halnum⟩
  · intro r
    exact List.nodup_dedup _

/-! ## Claim C5: duplicate pruning -/

/-- Concrete input for the duplicate-pruning example: a `GB` platform
directory holding both `zelda.gb` and `zelda.zip`. -/
def zeldaDupState : SdState :=
  { dirs := [("GB",
      { files := [⟨"zelda.gb", "GB-DATA"⟩, ⟨"zelda.zip", "ZIP-DATA"⟩],
        images := none, filelist := none })],
    allfiles := none, favorites := none, recent := none }

/-- C5.  Duplicate pruning deletes exactly the GameFiles whose suffix is
not `.zip` but whose stem is also the stem of a `.zip` GameFile of the
same directory; files with suffix `.zip` are never targeted.  In
particular, starting from `zelda.gb` plus `zelda.zip` in `GB`, an execute
run leaves `zelda.zip` as the only GameFile (the run also creates
`images/` and writes the regenerated `filelist.csv`). -/
theorem duplicate_pruning_spec :
    (∀ (romFiles : List FsFile) (r : FsFile), r ∈ romFiles →
      (r ∈ dupTargets romFiles ↔
        (¬ pySuffix r.name = ".zip" ∧
          ∃ z ∈ romFiles, pySuffix z.name = ".zip" ∧ pyStem z.name = pyStem r.name)))
    ∧ (∀ (romFiles : List FsFile) (r : FsFile),
        pySuffix r.name = ".zip" → r ∉ dupTargets romFiles)
    ∧ getDir (syncSdCard zeldaDupState false).1 "GB" =
        some { files := [⟨"zelda.zip", "ZIP-DATA"⟩],
               images := some [],
               filelist := some "zelda.zip,zelda,zelda\n" } := by
  refine ⟨?_, ?_, by decide⟩
  · intro romFiles r hr
    simp only [dupTargets, List.mem_filter, Bool.and_eq_true, decide_eq_true_eq,
      List.contains_iff_exists_mem_beq, List.mem_map, List.mem_filter, beq_iff_eq]
    constructor
    · rintro ⟨-, hns, x, ⟨z, ⟨hz, hzip⟩, rfl⟩, hst⟩
      exact ⟨hns, z, hz, by simpa using hzip, hst.symm⟩
    · rintro ⟨hns, z, hz, hzip, hst⟩
      exact ⟨hr, hns, pyStem z.name, ⟨z, ⟨hz, by simpa using hzip⟩, rfl⟩, hst.symm⟩
  · intro romFiles r hzip hmem
    have := List.of_mem_filter hmem
    simp only [Bool.and_eq_true, decide_eq_true_eq] at this
    exact this.1 hzip

/-- Witness for C5 at a concrete input: `zelda.gb` is a duplicate target
next to `zelda.zip`, and `zelda.zip` itself is not. -/
theorem duplicate_pruning_witness :
    (⟨"zelda.gb", "a"⟩ : FsFile) ∈ dupTargets [⟨"zelda.gb", "a"⟩, ⟨"zelda.zip", "b"⟩]
    ∧ (⟨"zelda.zip", "b"⟩ : FsFile) ∉ dupTargets [⟨"zelda.gb", "a"⟩, ⟨"zelda.zip", "b"⟩] :=
  ⟨(duplicate_pruning_spec.1 [⟨"zelda.gb", "a"⟩, ⟨"zelda.zip", "b"⟩] ⟨"zelda.gb", "a"⟩
      (by decide)).mpr
    ⟨by decide, ⟨"zelda.zip", "b"⟩, by decide, by decide, by decide⟩,
   duplicate_pruning_spec.2.1 [⟨"zelda.gb", "a"⟩, ⟨"zelda.zip", "b"⟩] ⟨"zelda.zip", "b"⟩
    (by decide)⟩

/-! ## Claim C6: orphan-image pruning -/

/-- Concrete input for the orphan-image example: `GB` holds `mario.zip`
and `images/` holds `mario.png` and `ghost.png`. -/
def orphanState : SdState :=
  { dirs := [("GB",
      { files := [⟨"mario.zip", "ROM"⟩],
        images := some [⟨"mario.png", "A"⟩, ⟨"ghost.png", "B"⟩],
        filelist := none })],
    allfiles := none, favorites := none, recent := none }

/-- C6.  Orphan-image pruning, acting on the state the duplicate-pruning
step left behind: when at least one GameFile exists, exactly the
`images/` files whose stem is among the current GameFile stems are kept
and the others are deleted (and reported, in that listing order); when no
GameFile exists and `images/` is non-empty, every file in `images/` is
deleted.  In particular, with GameFile `mario.zip` and images
`mario.png`, `ghost.png`, reconciliation keeps `images/mario.png` and
removes `images/ghost.png`. -/
theorem orphan_pruning_spec :
    (∀ (p : String) (exts : List String) (pd : PlatformDir) (imgs : List FsFile),
      pd.images = some imgs → ¬ (getRoms pd exts).isEmpty = true →
      (orphanPrune p exts pd false).1.images =
        some (imgs.filter (fun f =>
          ((getRoms pd exts).map (fun r => pyStem r.name)).contains (pyStem f.name)))
      ∧ (orphanPrune p exts pd false).2 =
        (imgs.filter (fun f =>
          ¬ ((getRoms pd exts).map (fun r => pyStem r.name)).contains (pyStem f.name))).map
          (fun f => SdAct.deleteOrphan p f.name))
    ∧ (∀ (p : String) (exts : List String) (pd : PlatformDir) (imgs : List FsFile),
        pd.images = some imgs → (getRoms pd exts).isEmpty = true → ¬ imgs.isEmpty = true →
        (orphanPrune p exts pd false).1.images = some []
        ∧ (orphanPrune p exts pd false).2 = imgs.map (fun f => SdAct.deleteOrphan p f.name))
    ∧ getDir (syncSdCard orphanState false).1 "GB" =
        some { files := [⟨"mario.zip", "ROM"⟩],
               images := some [⟨"mario.png", "A"⟩],
               filelist := some "mario.zip,mario,mario\n" } := by
  refine ⟨?_, ?_, by decide⟩
  · intro p exts pd imgs him hne
    rw [orphanPrune, him]
    simp only [hne, if_true, if_false]
    exact ⟨rfl, rfl⟩
  · intro p exts pd imgs him he hne
    rw [orphanPrune, him]
    simp only [he, hne, if_true, if_false]
    simp

/-- Witness for C6: both branches of the orphan-pruning contract at
concrete directories. -/
theorem orphan_pruning_witness :
    ((orphanPrune "GB" [".gb", ".zip", ".7z"]
        { files := [⟨"mario.zip", "R"⟩],
          images := some [⟨"mario.png", "A"⟩, ⟨"ghost.png", "B"⟩],
          filelist := none } false).1.images = some [⟨"mario.png", "A"⟩])
    ∧ ((orphanPrune "GB" [".gb", ".zip", ".7z"]
        { files := [], images := some [⟨"ghost.png", "B"⟩], filelist := none } false).1.images
        = some []) := by
  constructor
  · have h := (orphan_pruning_spec.1 "GB" [".gb", ".zip", ".7z"]
      { files := [⟨"mario.zip", "R"⟩],
        images := some [⟨"mario.png", "A"⟩, ⟨"ghost.png", "B"⟩],
        filelist := none } [⟨"mario.png", "A"⟩, ⟨"ghost.png", "B"⟩] (by decide) (by decide)).1
    rw [h]
    decide
  · have h := (orphan_pruning_spec.2.1 "GB" [".gb", ".zip", ".7z"]
      { files := [], images := some [⟨"ghost.png", "B"⟩], filelist := none }
      [⟨"ghost.png", "B"⟩] (by decide) (by decide) (by decide)).1
    rw [h]

/-! ## Claim C7: per-platform metadata regeneration -/

theorem lexLe_total (a b : List Char) : lexLe a b = true ∨ lexLe b a = true := by
  induction a generalizing b with
  | nil => left; rfl
  | cons x xs ih =>
    cases b with
    | nil => right; rfl
    | cons y ys =>
      simp only [lexLe]
      rcases Nat.lt_trichotomy x.toNat y.toNat with h | h | h
      · left; simp [h]
      · have hxy : ¬ x.toNat < y.toNat := by omega
        have hyx : ¬ y.toNat < x.toNat := by omega
        rcases ih ys with hc | hc
        · left; simp [hxy, hyx, hc]
        · right; simp [hxy, hyx, hc]
      · have hxy : ¬ x.toNat < y.toNat := by omega
        right; simp [h]

theorem lexLe_trans {a b c : List Char} (h1 : lexLe a b = true) (h2 : lexLe b c = true) :
    lexLe a c = true := by
  induction a generalizing b c with
  | nil => rfl
  | cons x xs ih =>
    cases b with
    | nil => simp [lexLe] at h1
    | cons y ys =>
      cases c with
      | nil => simp [lexLe] at h2
      | cons z zs =>
        simp only [lexLe] at h1 h2 ⊢
        split at h1
        · rename_i hxy
          split at h2
          · rename_i hyz
            have : x.toNat < z.toNat := by omega
            simp [this]
          · split at h2
            · exact absurd h2 (by simp)
            · rename_i hyz hzy
              have : x.toNat < z.toNat := by omega
              simp [this]
        · split at h1
          · exact absurd h1 (by simp)
          · rename_i hxy hyx
            split at h2
            · rename_i hyz
              have : x.toNat < z.toNat := by omega
              simp [this]
            · split at h2
              · exact absurd h2 (by simp)
              · rename_i hyz hzy
                have hxz : ¬ x.toNat < z.toNat := by omega
                have hzx : ¬ z.toNat < x.toNat := by omega
                simp [hxz, hzx, ih h1 h2]

/-- The ROM listing produced by `get_roms` really is sorted by file name. -/
theorem getRoms_sorted (pd : PlatformDir) (exts : List String) :
    (getRoms pd exts).Pairwise (fun a b => lexLe (chars a.name) (chars b.name) = true) := by
  haveI : IsTotal FsFile (fun a b => lexLe (chars a.name) (chars b.name) = true) :=
    ⟨fun a b => lexLe_total _ _⟩
  haveI : IsTrans FsFile (fun a b => lexLe (chars a.name) (chars b.name) = true) :=
    ⟨fun _ _ _ => lexLe_trans⟩
  exact List.sorted_insertionSort _ _

/-- Concrete input for the CSV-preservation example. -/
def csvPresState : SdState :=
  { dirs := [("GB",
      { files := [⟨"game.zip", "R"⟩],
        images := none,
        filelist := some "game.zip,Custom Name,CustomRegion\n" })],
    allfiles := none, favorites := none, recent := none }

/-- C7.  Per-platform metadata regeneration: with no remaining GameFile
and an existing `filelist.csv` the file is truncated to empty (it stays
present); with no GameFile and no `filelist.csv` nothing is written; and
otherwise the regenerated file is exactly one line per current GameFile
in `get_roms`' sorted-by-file-name order (the listing is `Pairwise`
ordered), joined with a trailing newline, each line keeping the loaded
remainder verbatim for a known key and defaulting to `stem,stem`
otherwise.  In particular `"Custom Name,CustomRegion"` survives a run
verbatim while `game.zip` exists. -/
theorem csv_regeneration_spec :
    (∀ (p : String) (exts : List String) (pd : PlatformDir),
      ¬ (getRoms pd exts).isEmpty = true →
      (csvStep p exts pd false).1.filelist =
        some (joinNl ((getRoms pd exts).map (fun rom =>
          match lookupA (loadCsv pd.filelist) rom.name with
          | some rest => rom.name ++ "," ++ rest
          | none => rom.name ++ "," ++ pyStem rom.name ++ "," ++ pyStem rom.name))))
    ∧ (∀ (p : String) (exts : List String) (pd : PlatformDir) (c : String),
        (getRoms pd exts).isEmpty = true → pd.filelist = some c →
        (csvStep p exts pd false).1.filelist = some "")
    ∧ (∀ (p : String) (exts : List String) (pd : PlatformDir),
        (getRoms pd exts).isEmpty = true → pd.filelist = none →
        (csvStep p exts pd false).1 = pd)
    ∧ (∀ (pd : PlatformDir) (exts : List String),
        (getRoms pd exts).Pairwise (fun a b => lexLe (chars a.name) (chars b.name) = true))
    ∧ getDir (syncSdCard csvPresState false).1 "GB" =
        some { files := [⟨"game.zip", "R"⟩],
               images := some [],
               filelist := some "game.zip,Custom Name,CustomRegion\n" } := by
  refine ⟨?_, ?_, ?_, fun pd exts => getRoms_sorted pd exts, by decide⟩
  · intro p exts pd hne
    rw [csvStep]
    simp [hne]
  · intro p exts pd c he hfl
    rw [csvStep, hfl]
    simp [he]
  · intro p exts pd he hfl
    rw [csvStep, hfl]
    simp [he]

/-- Witness for C7: the truncation and regeneration branches at concrete
directories. -/
theorem csv_regeneration_witness :
    ((csvStep "GB" [".gb", ".zip", ".7z"]
        { files := [], images := none, filelist := some "old.zip,Old\n" } false).1.filelist
      = some "")
    ∧ ((csvStep "GB" [".gb", ".zip", ".7z"]
        { files := [⟨"game.zip", "R"⟩], images := none,
          filelist := some "game.zip,Custom Name,CustomRegion\n" } false).1.filelist
      = some "game.zip,Custom Name,CustomRegion\n") := by
  constructor
  · exact csv_regeneration_spec.2.1 "GB" [".gb", ".zip", ".7z"]
      { files := [], images := none, filelist := some "old.zip,Old\n" } "old.zip,Old\n"
      (by decide) (by decide)
  · have h := csv_regeneration_spec.1 "GB" [".gb", ".zip", ".7z"]
      { files := [⟨"game.zip", "R"⟩], images := none,
        filelist := some "game.zip,Custom Name,CustomRegion\n" } (by decide)
    rw [h]
    decide

/-! ## Claim C8: the sanitize step -/

theorem chars_str (cs : List Char) : chars (str cs) = cs := rfl

theorem hasComma_stripCommas (m : String) : hasComma (stripCommas m) = false := by
  simp only [hasComma, stripCommas, chars_str]
  rw [List.any_eq_false]
  intro c hc
  have := List.of_mem_filter hc
  simpa using this

theorem mem_removeFile {fs : List FsFile} {n : String} {f : FsFile} :
    f ∈ removeFile fs n ↔ f ∈ fs ∧ ¬ f.name = n := by
  simp [removeFile, List.mem_filter]

theorem mem_setFile {fs : List FsFile} {n c : String} {f : FsFile}
    (h : f ∈ setFile fs n c) : (f ∈ fs ∧ ¬ f.name = n) ∨ f = ⟨n, c⟩ := by
  rw [setFile] at h
  split at h
  · rcases List.mem_map.mp h with ⟨x, hx, hfx⟩
    by_cases hxn : x.name = n
    · right
      rw [← hfx]
      simp [hxn]
    · left
      rw [← hfx]
      simp only [hxn, if_neg, if_false]
      simp_all
  · rename_i hany
    rcases List.mem_append.mp h with h' | h'
    · left
      refine ⟨h', ?_⟩
      intro hn
      rw [List.any_eq_true] at hany
      exact hany ⟨f, h', by simp [hn]⟩
    · right
      simpa using h'

theorem exists_name_setFile {fs : List FsFile} {nm : String} (n c : String)
    (hnm : ∃ f ∈ fs, f.name = nm) : ∃ f ∈ setFile fs n c, f.name = nm := by
  rcases hnm with ⟨w, hw, hwn⟩
  rw [setFile]
  split
  · by_cases hwn' : w.name = n
    · exact ⟨⟨n, c⟩, List.mem_map.mpr ⟨w, hw, by simp [hwn']⟩, by rw [← hwn, hwn']⟩
    · exact ⟨w, List.mem_map.mpr ⟨w, hw, by simp [hwn']⟩, hwn⟩
  · exact ⟨w, List.mem_append.mpr (Or.inl hw), hwn⟩

theorem target_exists_setFile (fs : List FsFile) (n c : String) :
    ∃ f ∈ setFile fs n c, f.name = n := by
  rw [setFile]
  split
  · rename_i hany
    rw [List.any_eq_true] at hany
    rcases hany with ⟨w, hw, hwn⟩
    simp only [decide_eq_true_eq] at hwn
    exact ⟨⟨n, c⟩, List.mem_map.mpr ⟨w, hw, by simp [hwn]⟩, rfl⟩
  · exact ⟨⟨n, c⟩, List.mem_append.mpr (Or.inr (by simp)), rfl⟩

theorem mem_renameFile {fs : List FsFile} {old new' : String} {f : FsFile}
    (h : f ∈ renameFile fs old new') : (f ∈ fs ∧ ¬ f.name = old) ∨ f.name = new' := by
  rw [renameFile] at h
  cases hfind : findFile fs old with
  | none =>
    rw [hfind] at h
    left
    refine ⟨h, ?_⟩
    intro hn
    rw [findFile, List.find?_eq_none] at hfind
    have := hfind f h
    simp [hn] at this
  | some g =>
    rw [hfind] at h
    rcases mem_setFile h with ⟨h', hne⟩ | h'
    · exact Or.inl ⟨(mem_removeFile.mp h').1, (mem_removeFile.mp h').2⟩
    · right
      rw [h']

theorem exists_name_renameFile {fs : List FsFile} {old new' nm : String}
    (hne : ¬ nm = old) (hex : ∃ f ∈ fs, f.name = nm) :
    ∃ f ∈ renameFile fs old new', f.name = nm := by
  rw [renameFile]
  cases hfind : findFile fs old with
  | none => exact hex
  | some g =>
    apply exists_name_setFile
    rcases hex with ⟨w, hw, hwn⟩
    exact ⟨w, mem_removeFile.mpr ⟨hw, by rw [hwn]; exact hne⟩, hwn⟩

theorem renamed_exists_renameFile {fs : List FsFile} {old : String} (new' : String)
    (hex : ∃ f ∈ fs, f.name = old) :
    ∃ f ∈ renameFile fs old new', f.name = new' := by
  rw [renameFile]
  cases hfind : findFile fs old with
  | none =>
    exfalso
    rcases hex with ⟨w, hw, hwn⟩
    rw [findFile, List.find?_eq_none] at hfind
    have := hfind w hw
    simp [hwn] at this
  | some g => exact target_exists_setFile _ _ _

theorem renamePass_clears (pred : String → Bool)
    (hpred : ∀ m, pred m = true → hasComma m = true)
    (mk : String → String → SdAct) (snap : List String) (fs : List FsFile)
    (H : ∀ f ∈ fs, pred f.name = true → f.name ∈ snap) :
    ∀ f ∈ (renamePass pred false mk snap fs).1, pred f.name = false := by
  induction snap generalizing fs with
  | nil =>
    intro f hf
    cases hp : pred f.name with
    | false => rfl
    | true => exact absurd (H f hf hp) (by simp)
  | cons n rest ih =>
    intro f hf
    rw [renamePass] at hf
    split at hf
    · rename_i hn
      simp only [if_neg, Bool.false_eq_true, if_false] at hf
      rcases hr : renamePass pred false mk rest (renameFile fs n (stripCommas n)) with ⟨a, b⟩
      rw [hr] at hf
      refine ih (renameFile fs n (stripCommas n)) ?_ f (by rw [hr]; exact hf)
      intro g hg hgp
      rcases mem_renameFile hg with ⟨hg', hgo⟩ | hg'
      · rcases List.mem_cons.mp (H g hg' hgp) with h | h
        · exact absurd h hgo
        · exact h
      · exfalso
        have := hpred g.name hgp
        rw [hg', hasComma_stripCommas] at this
        exact absurd this (by simp)
    · rename_i hn
      refine ih fs ?_ f hf
      intro g hg hgp
      rcases List.mem_cons.mp (H g hg hgp) with h | h
      · exact absurd (h ▸ hgp) (by simpa using hn)
      · exact h

theorem renamePass_keeps_name (pred : String → Bool)
    (hpred : ∀ m, pred m = true → hasComma m = true)
    (mk : String → String → SdAct) (snap : List String) (fs : List FsFile)
    (nm : String) (hnm : hasComma nm = false)
    (hex : ∃ f ∈ fs, f.name = nm) :
    ∃ f ∈ (renamePass pred false mk snap fs).1, f.name = nm := by
  induction snap generalizing fs with
  | nil => exact hex
  | cons n rest ih =>
    rw [renamePass]
    split
    · rename_i hn
      simp only [if_neg, Bool.false_eq_true, if_false]
      rcases hr : renamePass pred false mk rest (renameFile fs n (stripCommas n)) with ⟨a, b⟩
      have : ∃ f ∈ renameFile fs n (stripCommas n), f.name = nm := by
        apply exists_name_renameFile ?_ hex
        intro he
        have := hpred n hn
        rw [← he, hnm] at this
        exact absurd this (by simp)
      have := ih (renameFile fs n (stripCommas n)) this
      rw [hr] at this
      simpa using this
    · exact ih fs hex

theorem renamePass_strips (pred : String → Bool)
    (hpred : ∀ m, pred m = true → hasComma m = true)
    (mk : String → String → SdAct) (snap : List String) (fs : List FsFile)
    (n : String) (hn : n ∈ snap) (hp : pred n = true)
    (hex : ∃ f ∈ fs, f.name = n) :
    ∃ f ∈ (renamePass pred false mk snap fs).1, f.name = stripCommas n := by
  induction snap generalizing fs with
  | nil => exact absurd hn (by simp)
  | cons m rest ih =>
    rw [renamePass]
    by_cases hm : pred m = true
    · simp only [hm, if_true, if_neg, Bool.false_eq_true, if_false]
      rcases hr : renamePass pred false mk rest (renameFile fs m (stripCommas m)) with ⟨a, b⟩
      by_cases hnm : n = m
      · subst hnm
        have hbase : ∃ f ∈ renameFile fs n (stripCommas n), f.name = stripCommas n :=
          renamed_exists_renameFile _ hex
        have := renamePass_keeps_name pred hpred mk rest _ (stripCommas n)
          (hasComma_stripCommas n) hbase
        rw [hr] at this
        simpa using this
      · have hrest : n ∈ rest := by
          rcases List.mem_cons.mp hn with h | h
          · exact absurd h hnm
          · exact h
        have hbase : ∃ f ∈ renameFile fs m (stripCommas m), f.name = n := by
          apply exists_name_renameFile (by simpa using hnm) hex
        have := ih (renameFile fs m (stripCommas m)) hrest hbase
        rw [hr] at this
        simpa using this
    · simp only [hm, if_false]
      rcases List.mem_cons.mp hn with h | h
      · exact absurd (h ▸ hp) hm
      · exact ih fs h hex

/-- A root file whose name does not match the rename predicate keeps its
name through the whole renaming pass (its content may be overwritten by
a colliding rename target, but the directory entry stays). -/
theorem renamePass_keeps_unmatched (pred : String → Bool) (mk : String → String → SdAct)
    (snap : List String) (fs : List FsFile) (nm : String) (hnm : pred nm = false)
    (hex : ∃ f ∈ fs, f.name = nm) :
    ∃ f ∈ (renamePass pred false mk snap fs).1, f.name = nm := by
  induction snap generalizing fs with
  | nil => exact hex
  | cons n rest ih =>
    rw [renamePass]
    split
    · rename_i hn
      simp only [Bool.false_eq_true, if_false]
      rcases hr : renamePass pred false mk rest (renameFile fs n (stripCommas n)) with ⟨a, b⟩
      have hstep : ∃ f ∈ renameFile fs n (stripCommas n), f.name = nm := by
        apply exists_name_renameFile ?_ hex
        intro he
        rw [← he, hnm] at hn
        exact absurd hn (by simp)
      have := ih (renameFile fs n (stripCommas n)) hstep
      rw [hr] at this
      simpa using this
    · exact ih fs hex

/-- C8 (corrected).  The sanitize step (step 1 of each platform's
reconciliation) renames every comma-containing GameFile at the platform
root and every comma-containing file inside `images/` to its name with
all commas removed — but the root rename loop only targets names with a
GameFile extension, so a comma-named loose cover image at the platform
root keeps its name (see `sanitize_counterexample`): after the step no
root GameFile and no `images/` file retains a comma, every renamed file
exists under its comma-stripped name, and every root file that is not a
comma-containing GameFile keeps its name. -/
theorem sanitize_spec (p : String) (pd : PlatformDir) :
    (∀ f ∈ (step1Dir p pd false).1.files,
      (isRomName (romExtMap p) f.name && hasComma f.name) = false)
    ∧ (∀ f ∈ pd.files, isRomName (romExtMap p) f.name = true → hasComma f.name = true →
        ∃ g ∈ (step1Dir p pd false).1.files, g.name = stripCommas f.name)
    ∧ (∀ imgs, pd.images = some imgs →
        (∀ f ∈ ((step1Dir p pd false).1.images.getD []), hasComma f.name = false)
        ∧ (∀ f ∈ imgs, hasComma f.name = true →
            ∃ g ∈ ((step1Dir p pd false).1.images.getD []), g.name = stripCommas f.name))
    ∧ (∀ f ∈ pd.files, (isRomName (romExtMap p) f.name && hasComma f.name) = false →
        ∃ g ∈ (step1Dir p pd false).1.files, g.name = f.name) := by
  have hpredR : ∀ m, (isRomName (romExtMap p) m && hasComma m) = true → hasComma m = true := by
    intro m hm
    simp only [Bool.and_eq_true] at hm
    exact hm.2
  have hpredI : ∀ m, hasComma m = true → hasComma m = true := fun _ h => h
  have hfiles : (step1Dir p pd false).1.files =
      (renamePass (fun n => isRomName (romExtMap p) n && hasComma n) false
        (SdAct.renameRom p) (pd.files.map (fun f => f.name)) pd.files).1 := by
    rw [step1Dir]
    cases pd.images <;> rfl
  have himgs : ∀ imgs, pd.images = some imgs →
      (step1Dir p pd false).1.images =
        some (renamePass hasComma false (SdAct.renameImg p) (imgs.map (fun f => f.name)) imgs).1 := by
    intro imgs him
    rw [step1Dir, him]
  refine ⟨?_, ?_, ?_, ?_⟩
  · intro f hf
    rw [hfiles] at hf
    exact renamePass_clears _ hpredR _ _ _
      (fun g hg _ => List.mem_map.mpr ⟨g, hg, rfl⟩) f hf
  · intro f hf hrom hcom
    rw [hfiles]
    exact renamePass_strips _ hpredR _ _ _ f.name (List.mem_map.mpr ⟨f, hf, rfl⟩)
      (by simp [hrom, hcom]) ⟨f, hf, rfl⟩
  · intro imgs him
    constructor
    · intro f hf
      rw [himgs imgs him] at hf
      simp only [Option.getD_some] at hf
      exact renamePass_clears _ hpredI _ _ _
        (fun g hg _ => List.mem_map.mpr ⟨g, hg, rfl⟩) f hf
    · intro f hf hcom
      rw [himgs imgs him]
      simp only [Option.getD_some]
      exact renamePass_strips _ hpredI _ _ _ f.name (List.mem_map.mpr ⟨f, hf, rfl⟩)
        hcom ⟨f, hf, rfl⟩
  · intro f hf hnot
    rw [hfiles]
    exact renamePass_keeps_unmatched _ _ _ _ f.name hnot ⟨f, hf, rfl⟩

/-- Witness for C8 at a concrete directory: `zel,da.zip` at the root and
`gho,st.png` inside `images/` are renamed comma-free. -/
theorem sanitize_witness :
    (∃ g ∈ (step1Dir "GB"
        { files := [⟨"zel,da.zip", "R"⟩],
          images := some [⟨"gho,st.png", "I"⟩], filelist := none } false).1.files,
      g.name = "zelda.zip")
    ∧ (∃ g ∈ ((step1Dir "GB"
        { files := [⟨"zel,da.zip", "R"⟩],
          images := some [⟨"gho,st.png", "I"⟩], filelist := none } false).1.images.getD []),
      g.name = "ghost.png") := by
  constructor
  · have h := (sanitize_spec "GB"
      { files := [⟨"zel,da.zip", "R"⟩],
        images := some [⟨"gho,st.png", "I"⟩], filelist := none }).2.1
      ⟨"zel,da.zip", "R"⟩ (by decide) (by decide) (by decide)
    rcases h with ⟨g, hg, hname⟩
    exact ⟨g, hg, by rw [hname]; decide⟩
  · have h := ((sanitize_spec "GB"
      { files := [⟨"zel,da.zip", "R"⟩],
        images := some [⟨"gho,st.png", "I"⟩], filelist := none }).2.2.1
      [⟨"gho,st.png", "I"⟩] rfl).2 ⟨"gho,st.png", "I"⟩ (by decide) (by decide)
    rcases h with ⟨g, hg, hname⟩
    exact ⟨g, hg, by rw [hname]; decide⟩

/-- The comma-named loose cover image `mario,art.png` at the platform
root: its suffix is an image extension, not a GameFile extension, so the
sanitize step leaves the directory untouched and reports no rename — the
original claim's root-level CoverImage case fails. -/
theorem sanitize_counterexample :
    isImgName "mario,art.png" = true
    ∧ hasComma "mario,art.png" = true
    ∧ step1Dir "GB"
        { files := [⟨"mario,art.png", "A"⟩], images := none, filelist := none } false
      = ({ files := [⟨"mario,art.png", "A"⟩], images := none, filelist := none }, []) := by
  decide

/-! ## Claim C9: the catalog-wide sync of allfiles.lst -/

theorem phase1_allfiles (dry : Bool) (ps : List String) (s : SdState) :
    (phase1 dry ps s).1.allfiles = s.allfiles := by
  induction ps generalizing s with
  | nil => rfl
  | cons p rest ih =>
    simp only [phase1]
    cases getDir s p with
    | none => exact ih s
    | some pd =>
      dsimp only
      rw [ih]
      rfl

theorem phase2_allfiles (dry : Bool) (ps : List String) (s : SdState) :
    (phase2 dry ps s).1.allfiles = s.allfiles := by
  induction ps generalizing s with
  | nil => rfl
  | cons p rest ih =>
    simp only [phase2]
    cases getDir s p with
    | none => exact ih s
    | some pd =>
      dsimp only
      rw [ih]
      rfl

theorem phase4_allfiles (s : SdState) (dry : Bool) :
    (phase4 s dry).1.allfiles = s.allfiles := rfl

/-- Concrete state for the C9 counterexample: one GameFile exists but
`cubegm/allfiles.lst` does not. -/
def noCatalogState : SdState :=
  { dirs := [("GB", { files := [⟨"mario.zip", "R"⟩], images := none, filelist := none })],
    allfiles := none, favorites := none, recent := none }

/-- C9 counterexample.  The claim says `allfiles.lst` is rewritten on
every run, a missing file being treated as an empty mapping — which at
this input would leave `some "GB/mario.zip|mario|MARIO|mario|mario\n"`.
The code instead skips step 3 entirely when the file is missing: after an
execute run the catalog still does not exist. -/
theorem allfiles_missing_counterexample :
    (syncSdCard noCatalogState false).1.allfiles = none
    ∧ ¬ (syncSdCard noCatalogState false).1.allfiles
        = some "GB/mario.zip|mario|MARIO|mario|mario\n" := by decide

/-- C9 (amended).  When `allfiles.lst` exists it is rewritten to exactly
one line per current GameFile — sorted platforms, then sorted file names —
keeping the loaded line of a known `"<platform>/<filename>"` key verbatim
and synthesizing `key|stem|STEM|stem|stem` for unseen keys, stale records
being discarded; joined with a trailing newline.  When it is missing, the
catalog step is skipped entirely: nothing is written, no catalog is
created (and no error is raised — the run simply carries on). -/
theorem allfiles_sync_spec :
    (∀ (s : SdState) (dry : Bool), s.allfiles = none → phase3 s dry = (s, []))
    ∧ (∀ (s : SdState) (dry : Bool), s.allfiles = none → (syncSdCard s dry).1.allfiles = none)
    ∧ (∀ (s : SdState) (c : String), s.allfiles = some c →
        (phase3 s false).1 =
          { s with allfiles := some (joinNl (allfilesLines s (loadPipeKeyed c))) }
        ∧ (phase3 s false).2 = [SdAct.writeAllfiles (allfilesLines s (loadPipeKeyed c))]) := by
  refine ⟨?_, ?_, ?_⟩
  · intro s dry h
    rw [phase3, h]
  · intro s dry h
    rw [syncSdCard]
    dsimp only
    rw [phase4_allfiles]
    have h2 : (phase2 dry PLATFORMS (phase1 dry PLATFORMS s).1).1.allfiles = none := by
      rw [phase2_allfiles, phase1_allfiles, h]
    rw [phase3, h2]
    exact h2
  · intro s c h
    rw [phase3, h]
    exact ⟨rfl, rfl⟩

/-- Witness for C9 at concrete inputs: an existing empty catalog is
rewritten with a synthesized line; a missing catalog stays missing. -/
theorem allfiles_sync_witness :
    (phase3 { dirs := [("GB", { files := [⟨"mario.zip", "R"⟩], images := none, filelist := none })],
              allfiles := some "", favorites := none, recent := none } false).1.allfiles
      = some "GB/mario.zip|mario|MARIO|mario|mario\n"
    ∧ (syncSdCard noCatalogState true).1.allfiles = none := by
  constructor
  · have h := (allfiles_sync_spec.2.2
      { dirs := [("GB", { files := [⟨"mario.zip", "R"⟩], images := none, filelist := none })],
        allfiles := some "", favorites := none, recent := none } "" rfl).1
    rw [h]
    decide
  · exact allfiles_sync_spec.2.1 noCatalogState true rfl

/-! ## Claim C10: favorites/recents filtering -/

/-- Concrete state for the C10 counterexample: the favorites line for the
existing GameFile `GB/zelda.zip` carries a trailing blank. -/
def listKeepState : SdState :=
  { dirs := [("GB", { files := [⟨"zelda.zip", "R"⟩], images := none, filelist := none })],
    allfiles := none, favorites := some "GB/zelda.zip|Zelda \n", recent := none }

/-- C10 counterexample.  The claim says a kept line retains its original
full line content unchanged; the code keeps the *stripped* line, so the
favorites line `"GB/zelda.zip|Zelda "` (trailing blank) is rewritten as
`"GB/zelda.zip|Zelda"` even though its GameFile exists. -/
theorem list_filtering_counterexample :
    (syncSdCard listKeepState false).1.favorites = some "GB/zelda.zip|Zelda\n"
    ∧ ¬ (syncSdCard listKeepState false).1.favorites = some "GB/zelda.zip|Zelda \n" := by
  decide

/-- C10 (amended).  For each of `favorites.lst` and `recent.lst` the run
keeps exactly those whitespace-stripped non-blank lines whose first
pipe-delimited field is a valid `"<platform>/<filename>"` key, preserving
their relative order (the kept list is a sublist of the stripped
non-blank lines) and their stripped — not verbatim — content; the
rewritten file ends with a trailing newline unless the kept set is empty,
in which case the file is written empty. -/
theorem list_filtering_spec :
    (∀ (s : SdState) (c : String), s.favorites = some c →
      (phase4 s false).1.favorites = some (listOutput (keptLines c (validRomKeys s))))
    ∧ (∀ (s : SdState), s.favorites = none → (phase4 s false).1.favorites = none)
    ∧ (∀ (s : SdState) (c : String), s.recent = some c →
      (phase4 s false).1.recent = some (listOutput (keptLines c (validRomKeys s))))
    ∧ (∀ (s : SdState), s.recent = none → (phase4 s false).1.recent = none)
    ∧ (∀ (c : String) (valid : List String) (l : String),
        l ∈ keptLines c valid ↔
          (l ∈ ((readLines c).map pyStrip).filter (fun x => ¬ x = "") ∧ pipeKey l ∈ valid))
    ∧ (∀ (c : String) (valid : List String),
        List.Sublist (keptLines c valid) (((readLines c).map pyStrip).filter (fun x => ¬ x = "")))
    ∧ listOutput [] = ""
    ∧ (∀ kept : List String, ¬ kept = [] →
        (chars (listOutput kept)).getLast? = some '\n') := by
  refine ⟨?_, ?_, ?_, ?_, ?_, ?_, rfl, ?_⟩
  · intro s c h
    rcases s with ⟨dirs, af, fav, rec'⟩
    simp only at h
    subst h
    simp [phase4]
  · intro s h
    rcases s with ⟨dirs, af, fav, rec'⟩
    simp only at h
    subst h
    simp [phase4]
  · intro s c h
    rcases s with ⟨dirs, af, fav, rec'⟩
    simp only at h
    subst h
    cases fav <;> simp [phase4]
  · intro s h
    rcases s with ⟨dirs, af, fav, rec'⟩
    simp only at h
    subst h
    cases fav <;> simp [phase4]
  · intro c valid l
    simp only [keptLines, List.mem_filter, decide_eq_true_eq]
    constructor
    · rintro ⟨h1, h2⟩
      exact ⟨h1, by simpa using h2⟩
    · rintro ⟨h1, h2⟩
      exact ⟨h1, by simpa using h2⟩
  · intro c valid
    exact List.filter_sublist _
  · intro kept h
    rcases kept with _ | ⟨l, rest⟩
    · exact absurd rfl h
    · show ((intercalNl (l :: rest) ++ "\n").data).getLast? = some '\n'
      rw [String.data_append]
      rw [List.getLast?_append]
      rfl

/-- Witness for C10 at a concrete state: the kept favorites line is
written back stripped, with the trailing newline. -/
theorem list_filtering_witness :
    (phase4 listKeepState false).1.favorites = some "GB/zelda.zip|Zelda\n"
    ∧ (phase4 { dirs := [], allfiles := none, favorites := none, recent := none }
        false).1.favorites = none := by
  constructor
  · have h := list_filtering_spec.1 listKeepState "GB/zelda.zip|Zelda \n" rfl
    rw [h]
    decide
  · exact list_filtering_spec.2.1 _ rfl

/-! ## Claim C2: dry-run / execute parity.  Helper lemmas. -/

/-- No platform's extension set contains the empty suffix. -/
theorem romExt_no_empty (p : String) : (romExtMap p).contains "" = false := by
  rw [romExtMap.eq_def]
  split <;> decide

/-- ROM extension sets and image extension sets are disjoint: an image
file is never a GameFile. -/
theorem img_not_rom (p : String) (n : String) (h : isImgName n = true) :
    isRomName (romExtMap p) n = false := by
  rw [isRomName]
  rw [isImgName] at h
  have hmem : str ((pySuffixC (chars n)).map asciiLower) ∈ IMG_EXTENSIONS := by
    simpa using h
  rw [IMG_EXTENSIONS] at hmem
  simp only [List.mem_cons, List.not_mem_nil, or_false] at hmem
  rcases hmem with h5 | h5 | h5 | h5 | h5 <;>
    rw [h5] <;> rw [romExtMap.eq_def] <;> split <;> decide

/-- When a name has a non-empty suffix, it also has a non-empty stem. -/
theorem stem_ne_nil_of_suffix_ne_nil {cs : List Char} (h : ¬ pySuffixC cs = []) :
    ¬ pyStemC cs = [] := by
  rw [pySuffixC] at h
  rcases hfind : rfindDot cs with _ | i
  · rw [hfind] at h
    dsimp only at h
    exact absurd rfl h
  · rw [hfind] at h
    dsimp only at h
    by_cases hcond : (0 < i && i < cs.length - 1) = true
    · simp only [Bool.and_eq_true, decide_eq_true_eq] at hcond
      rw [pyStemC, pySuffixC, hfind]
      dsimp only
      have hc : (0 < i && i < cs.length - 1) = true := by
        simp [hcond.1, hcond.2]
      rw [hc]
      simp only [if_true, List.length_drop]
      have h1 : cs.length - (cs.length - i) = i := by omega
      rw [h1]
      intro hnil
      rcases List.take_eq_nil_iff.mp hnil with h0 | h0
      · omega
      · rw [h0] at hcond
        simp at hcond
    · rw [if_neg hcond] at h
      exact absurd rfl h

/-- A GameFile name (for an extension set without the empty string) has a
non-empty suffix, hence a non-empty stem. -/
theorem rom_stem_ne_nil {exts : List String} {n : String}
    (hno : exts.contains "" = false) (h : isRomName exts n = true) :
    ¬ pyStemC (chars n) = [] := by
  apply stem_ne_nil_of_suffix_ne_nil
  intro hsuf
  rw [isRomName, hsuf] at h
  simp only [List.map_nil] at h
  rw [show str [] = "" from rfl] at h
  rw [h] at hno
  exact absurd hno (by simp)

/-- `Path.stem` of `<stem>.png` is that stem again, whenever the stem is
non-empty. -/
theorem pyStem_append_png (st : List Char) (hst : ¬ st = []) :
    pyStemC (st ++ ('.' :: 'p' :: 'n' :: 'g' :: [])) = st := by
  have hpos : 0 < st.length := List.length_pos.mpr hst
  have hrev : (st ++ ('.' :: 'p' :: 'n' :: 'g' :: [])).reverse
      = 'g' :: 'n' :: 'p' :: '.' :: st.reverse := by
    simp
  have hlen : (st ++ ('.' :: 'p' :: 'n' :: 'g' :: [])).length = st.length + 4 := by
    simp
  have hfind : rfindDot (st ++ ('.' :: 'p' :: 'n' :: 'g' :: [])) = some st.length := by
    rw [rfindDot, hrev]
    have hidx : ('g' :: 'n' :: 'p' :: '.' :: st.reverse).findIdx? (· = '.') = some 3 := by
      simp [List.findIdx?]
    rw [hidx]
    dsimp only
    rw [hlen]
    simp only [Option.some_inj]
    omega
  have hsuf : pySuffixC (st ++ ('.' :: 'p' :: 'n' :: 'g' :: []))
      = ('.' :: 'p' :: 'n' :: 'g' :: []) := by
    rw [pySuffixC, hfind]
    dsimp only
    have hc : (0 < st.length && st.length < (st ++ ('.' :: 'p' :: 'n' :: 'g' :: [])).length - 1)
        = true := by
      rw [hlen]
      simp only [Bool.and_eq_true, decide_eq_true_eq]
      omega
    rw [hc]
    simp only [if_true]
    exact List.drop_left st _
  rw [pyStemC, hsuf, hlen]
  simp only [List.length_cons, List.length_nil]
  rw [show st.length + 4 - (3 + 1) = st.length from by omega]
  exact List.take_left st _

theorem filter_map_name (l : List FsFile) (P : String → Bool) (A : String → SdAct) :
    (l.filter (fun f => P f.name)).map (fun f => A f.name)
      = ((l.map (fun f => f.name)).filter P).map A := by
  induction l with
  | nil => rfl
  | cons f rest ih =>
    cases h : P f.name <;> simp [List.filter_cons, h, ih]

theorem setFile_names (fs : List FsFile) (n c : String) :
    (setFile fs n c).map (fun f => f.name)
      = if fs.any (fun f => f.name = n) then fs.map (fun f => f.name)
        else fs.map (fun f => f.name) ++ [n] := by
  rw [setFile]
  split
  · rw [List.map_map]
    apply List.map_congr_left
    intro f _
    by_cases hf : f.name = n <;> simp [hf]
  · simp

theorem removeFile_filter (fs : List FsFile) (n : String) (R : String → Bool)
    (hn : R n = false) :
    (removeFile fs n).filter (fun f => R f.name) = fs.filter (fun f => R f.name) := by
  rw [removeFile, List.filter_filter]
  apply List.filter_congr
  intro f _
  by_cases hf : f.name = n
  · rw [hf]
    simp [hn]
  · simp [hf]

theorem getRoms_congr_files {q1 q2 : PlatformDir} (e : List String)
    (h : q1.files = q2.files) : getRoms q1 e = getRoms q2 e := by
  rw [getRoms, getRoms, h]

theorem applyMove_roms (exts : List String) (pd : PlatformDir) (img tgt : String)
    (himg : isRomName exts img = false) :
    getRoms (applyMove pd img tgt) exts = getRoms pd exts := by
  rw [applyMove]
  cases hfind : findFile pd.files img with
  | none => cases pd.images <;> rfl
  | some f =>
    cases pd.images with
    | none => rfl
    | some imgs =>
      dsimp only
      rw [getRoms, getRoms]
      congr 1
      exact removeFile_filter pd.files img _ (by simpa using himg)

theorem applyMove_filelist (pd : PlatformDir) (img tgt : String) :
    (applyMove pd img tgt).filelist = pd.filelist := by
  rw [applyMove]
  cases findFile pd.files img <;> cases pd.images <;> rfl

theorem applyMoves_roms (exts : List String) (mv : List (String × String × Nat)) :
    ∀ (pd : PlatformDir), (∀ m ∈ mv, isRomName exts m.1 = false) →
      getRoms (mv.foldl (fun q m => applyMove q m.1 m.2.1) pd) exts = getRoms pd exts
      ∧ (mv.foldl (fun q m => applyMove q m.1 m.2.1) pd).filelist = pd.filelist := by
  induction mv with
  | nil => intro pd _; exact ⟨rfl, rfl⟩
  | cons m rest ih =>
    intro pd hmv
    rw [List.foldl_cons]
    obtain ⟨h1, h2⟩ := ih (applyMove pd m.1 m.2.1) (fun x hx => hmv x (List.mem_cons_of_mem _ hx))
    refine ⟨?_, ?_⟩
    · rw [h1, applyMove_roms exts pd m.1 m.2.1 (hmv m (List.mem_cons_self _ _))]
    · rw [h2, applyMove_filelist]

theorem bestMatch_mem (roms : List FsFile) (used : List String) (st : String) (r : FsFile)
    (h : (bestMatch roms used st).1 = some r) : r ∈ roms := by
  have aux : ∀ (l : List FsFile) (init : Option FsFile × Nat),
      (l.foldl (fun acc rom =>
        if used.contains rom.name then acc
        else
          let sc := matchScore (pyStem rom.name) st
          if acc.2 < sc then (some rom, sc) else acc) init).1 = some r →
      init.1 = some r ∨ r ∈ l := by
    intro l
    induction l with
    | nil => intro init h'; exact Or.inl h'
    | cons x xs ih =>
      intro init h'
      rw [List.foldl_cons] at h'
      rcases ih _ h' with h'' | h''
      · split at h''
        · exact Or.inl h''
        · dsimp only at h''
          split at h''
          · simp only [Option.some_inj] at h''
            exact Or.inr (by rw [← h'']; exact List.mem_cons_self _ _)
          · exact Or.inl h''
      · exact Or.inr (List.mem_cons_of_mem _ h'')
  rw [bestMatch] at h
  rcases aux roms (none, 0) h with h' | h'
  · exact absurd h' (by simp)
  · exact h'

theorem associate_mem (roms : List FsFile) :
    ∀ (imgs : List FsFile) (used : List String) (m : String × String × Nat),
      m ∈ associate roms used imgs →
      (∃ i ∈ imgs, m.1 = i.name) ∧ (∃ r ∈ roms, m.2.1 = pyStem r.name ++ ".png") := by
  intro imgs
  induction imgs with
  | nil =>
    intro used m h
    rw [associate] at h
    exact absurd h (by simp)
  | cons img rest ih =>
    intro used m h
    rw [associate] at h
    rcases hbm : bestMatch roms used (pyStem img.name) with ⟨bm, bs⟩
    rw [hbm] at h
    cases bm with
    | some rom =>
      dsimp only at h
      split at h
      · rcases List.mem_cons.mp h with h' | h'
        · subst h'
          exact ⟨⟨img, List.mem_cons_self _ _, rfl⟩,
            ⟨rom, bestMatch_mem roms used _ rom (by rw [hbm]), rfl⟩⟩
        · rcases ih _ m h' with ⟨⟨i, hi, h1⟩, h2⟩
          exact ⟨⟨i, List.mem_cons_of_mem _ hi, h1⟩, h2⟩
      · rcases ih _ m h with ⟨⟨i, hi, h1⟩, h2⟩
        exact ⟨⟨i, List.mem_cons_of_mem _ hi, h1⟩, h2⟩
    | none =>
      dsimp only at h
      rcases ih _ m h with ⟨⟨i, hi, h1⟩, h2⟩
      exact ⟨⟨i, List.mem_cons_of_mem _ hi, h1⟩, h2⟩

theorem applyMoves_images (mv : List (String × String × Nat)) :
    ∀ (pd : PlatformDir) (imgs : List FsFile), pd.images = some imgs →
      ∃ (imgs2 : List FsFile) (extras : List String),
        (mv.foldl (fun q m => applyMove q m.1 m.2.1) pd).images = some imgs2
        ∧ imgs2.map (fun f => f.name) = imgs.map (fun f => f.name) ++ extras
        ∧ ∀ e ∈ extras, ∃ m ∈ mv, e = m.2.1 := by
  induction mv with
  | nil =>
    intro pd imgs him
    exact ⟨imgs, [], him, by simp, by simp⟩
  | cons m rest ih =>
    intro pd imgs him
    rw [List.foldl_cons]
    rw [show applyMove pd m.1 m.2.1 = match findFile pd.files m.1, pd.images with
        | some f, some imgs =>
          { pd with files := removeFile pd.files m.1,
                    images := some (setFile imgs m.2.1 f.content) }
        | _, _ => pd from rfl]
    cases hfind : findFile pd.files m.1 with
    | none =>
      rw [him]
      dsimp only
      obtain ⟨imgs2, extras, h1, h2, h3⟩ := ih pd imgs him
      exact ⟨imgs2, extras, h1, h2, fun e he =>
        (h3 e he).elim (fun x hx => ⟨x, List.mem_cons_of_mem _ hx.1, hx.2⟩)⟩
    | some f =>
      rw [him]
      dsimp only
      obtain ⟨imgs2, extras, h1, h2, h3⟩ :=
        ih { pd with files := removeFile pd.files m.1,
                     images := some (setFile imgs m.2.1 f.content) }
           (setFile imgs m.2.1 f.content) rfl
      rw [setFile_names] at h2
      by_cases hany : imgs.any (fun f => f.name = m.2.1) = true
      · rw [if_pos hany] at h2
        exact ⟨imgs2, extras, h1, h2, fun e he =>
          (h3 e he).elim (fun x hx => ⟨x, List.mem_cons_of_mem _ hx.1, hx.2⟩)⟩
      · rw [if_neg hany] at h2
        refine ⟨imgs2, m.2.1 :: extras, h1, by rw [h2]; simp, ?_⟩
        intro e he
        rcases List.mem_cons.mp he with h' | h'
        · exact ⟨m, List.mem_cons_self _ _, h'⟩
        · exact (h3 e h').elim (fun x hx => ⟨x, List.mem_cons_of_mem _ hx.1, hx.2⟩)

theorem orphanPrune_files (p : String) (e : List String) (q : PlatformDir) (d : Bool) :
    (orphanPrune p e q d).1.files = q.files := by
  rw [orphanPrune]
  cases q.images with
  | none => rfl
  | some imgs =>
    dsimp only
    split
    · split <;> rfl
    · split
      · split <;> rfl
      · rfl

theorem orphanPrune_filelist (p : String) (e : List String) (q : PlatformDir) (d : Bool) :
    (orphanPrune p e q d).1.filelist = q.filelist := by
  rw [orphanPrune]
  cases q.images with
  | none => rfl
  | some imgs =>
    dsimp only
    split
    · split <;> rfl
    · split
      · split <;> rfl
      · rfl

/-- The orphan-pruning report, expressed over file names: it depends only
on the current ROM listing and the names inside `images/`. -/
theorem orphanPrune_log (p : String) (e : List String) (q : PlatformDir) (d : Bool) :
    (orphanPrune p e q d).2 =
      match q.images with
      | none => []
      | some imgs =>
        if ¬ (getRoms q e).isEmpty = true then
          ((imgs.map (fun f => f.name)).filter
            (fun nm => ¬ ((getRoms q e).map (fun f => pyStem f.name)).contains (pyStem nm))).map
            (SdAct.deleteOrphan p)
        else if ¬ imgs.isEmpty = true then
          (imgs.map (fun f => f.name)).map (SdAct.deleteOrphan p)
        else [] := by
  rw [orphanPrune]
  cases q.images with
  | none => rfl
  | some imgs =>
    dsimp only
    by_cases h1 : ¬ (getRoms q e).isEmpty = true
    · rw [if_pos h1, if_pos h1]
      exact filter_map_name imgs
        (fun nm => decide (¬ ((getRoms q e).map (fun f => pyStem f.name)).contains (pyStem nm) = true))
        (SdAct.deleteOrphan p)
    · rw [if_neg h1, if_neg h1]
      by_cases h2 : ¬ imgs.isEmpty = true
      · rw [if_pos h2, if_pos h2]
        simp [List.map_map]
      · rw [if_neg h2, if_neg h2]

theorem orphan_log_parity (p : String) (e : List String) (pd pd2 : PlatformDir) (dA dB : Bool)
    (hroms : getRoms pd2 e = getRoms pd e)
    (himg : (pd.images = none ∧ pd2.images = none)
      ∨ (∃ imgs2, pd.images = none ∧ pd2.images = some imgs2
          ∧ ¬ (getRoms pd e).isEmpty = true
          ∧ (imgs2.map (fun f => f.name)).all
              (fun nm => ((getRoms pd e).map (fun f => pyStem f.name)).contains
                (pyStem nm)) = true)
      ∨ (∃ imgs imgs2 extras, pd.images = some imgs ∧ pd2.images = some imgs2
          ∧ imgs2.map (fun f => f.name) = imgs.map (fun f => f.name) ++ extras
          ∧ extras.all
              (fun nm => ((getRoms pd e).map (fun f => pyStem f.name)).contains
                (pyStem nm)) = true)) :
    (orphanPrune p e pd dA).2 = (orphanPrune p e pd2 dB).2 := by
  rw [orphanPrune_log, orphanPrune_log, hroms]
  rcases himg with ⟨h1, h2⟩ | ⟨imgs2, h1, h2, hne, hval⟩ | ⟨imgs, imgs2, extras, h1, h2, hnames, hval⟩
  · rw [h1, h2]
  · rw [h1, h2]
    dsimp only
    rw [if_pos hne]
    have hnil : (imgs2.map (fun f => f.name)).filter
        (fun nm => ¬ ((getRoms pd e).map (fun f => pyStem f.name)).contains
          (pyStem nm)) = [] := by
      rw [List.filter_eq_nil_iff]
      intro nm hnm
      have h := List.all_eq_true.mp hval nm hnm
      simp only [h]
      simp
    rw [hnil]
    rfl
  · rw [h1, h2]
    dsimp only
    have hextras : ∀ nm ∈ extras,
        ((getRoms pd e).map (fun f => pyStem f.name)).contains (pyStem nm) = true :=
      fun nm hnm => List.all_eq_true.mp hval nm hnm
    by_cases hne : ¬ (getRoms pd e).isEmpty = true
    · rw [if_pos hne, if_pos hne, hnames, List.filter_append]
      have hnil : extras.filter
          (fun nm => ¬ ((getRoms pd e).map (fun f => pyStem f.name)).contains
            (pyStem nm)) = [] := by
        rw [List.filter_eq_nil_iff]
        intro nm hnm
        have h := hextras nm hnm
        simp only [h]
        simp
      rw [hnil]
      simp
    · rw [if_neg hne, if_neg hne]
      have hre : extras = [] := by
        cases extras with
        | nil => rfl
        | cons a as =>
          rw [not_not, List.isEmpty_iff] at hne
          have := hextras a (by simp)
          rw [hne] at this
          simp at this
      subst hre
      rw [List.append_nil] at hnames
      have hlen : imgs2.isEmpty = imgs.isEmpty := by
        have := congrArg List.length hnames
        simp only [List.length_map] at this
        cases imgs2 <;> cases imgs <;> simp_all
      by_cases h2e : ¬ imgs.isEmpty = true
      · rw [if_pos h2e, if_pos (by rw [hlen]; simpa using h2e), hnames]
      · rw [if_neg h2e, if_neg (by rw [hlen]; simpa using h2e)]

theorem csvStep_log_congr (p : String) (e : List String) (q1 q2 : PlatformDir) (d1 d2 : Bool)
    (hr : getRoms q1 e = getRoms q2 e) (hf : q1.filelist = q2.filelist) :
    (csvStep p e q1 d1).2 = (csvStep p e q2 d2).2 := by
  rw [csvStep, csvStep, hr, hf]
  by_cases h : ¬ (getRoms q2 e).isEmpty = true
  · rw [if_pos h, if_pos h]
  · rw [if_neg h, if_neg h]
    cases q2.filelist <;> rfl

theorem contains_of_mem {l : List String} {x : String} (h : x ∈ l) : l.contains x = true := by
  rw [List.contains_iff_exists_mem_beq]
  exact ⟨x, h, by simp⟩

theorem getRoms_mem_isRom {pd : PlatformDir} {exts : List String} {f : FsFile}
    (h : f ∈ getRoms pd exts) : isRomName exts f.name = true := by
  rw [getRoms] at h
  have := (List.perm_insertionSort _ _).mem_iff.mp h
  simpa using (List.mem_filter.mp this).2

/-- The stem of a moved image `pyStem r + ".png"` is the ROM's stem. -/
theorem pyStem_move_target {exts : List String} {r : FsFile}
    (hno : exts.contains "" = false) (hr : isRomName exts r.name = true) :
    pyStem (pyStem r.name ++ ".png") = pyStem r.name := by
  have h1 : chars (pyStem r.name ++ ".png")
      = pyStemC (chars r.name) ++ ('.' :: 'p' :: 'n' :: 'g' :: []) := by
    show (str (pyStemC (chars r.name)) ++ ".png").data = _
    rw [String.data_append]
    rfl
  show str (pyStemC (chars (pyStem r.name ++ ".png"))) = pyStem r.name
  rw [h1, pyStem_append_png _ (rom_stem_ne_nil hno hr)]
  rfl

/-- C2 core: with no extension-duplicate present, one platform's step-2
chunk reports the same actions in dry-run as it performs in execute
mode. -/
theorem step2Dir_parity (p : String) (pd : PlatformDir)
    (hdup : dupTargets (getRoms pd (romExtMap p)) = []) :
    (step2Dir p pd true).2 = (step2Dir p pd false).2 := by
  rw [step2Dir, step2Dir]
  simp only [Bool.not_true, Bool.not_false, Bool.and_false, Bool.and_true, Bool.false_eq_true,
    if_false, if_true, hdup, List.map_nil, List.foldl_nil, List.nil_append, List.append_nil]
  have heta : ∀ q : PlatformDir,
      ({ files := q.files, images := q.images, filelist := q.filelist } : PlatformDir) = q :=
    fun q => rfl
  rw [heta]
  set exts := romExtMap p with hexts
  set roms := getRoms pd exts with hromsdef
  set dimg := getImages pd with hdimgdef
  set mv := (if (!dimg.isEmpty && !roms.isEmpty) = true then associate roms [] dimg else [])
    with hmvdef
  set pd1 := (if (pd.images.isNone && !roms.isEmpty) = true then
    { pd with images := some [] } else pd) with hpd1def
  set F := mv.foldl (fun q m => applyMove q m.1 m.2.1) pd1 with hFdef
  have hnoempty : exts.contains "" = false := by
    rw [hexts]
    exact romExt_no_empty p
  have hmvfacts : ∀ m ∈ mv, isRomName exts m.1 = false
      ∧ ∃ r ∈ roms, m.2.1 = pyStem r.name ++ ".png" := by
    intro m hm
    rw [hmvdef] at hm
    split at hm
    · obtain ⟨⟨i, hi, h1⟩, h2⟩ := associate_mem roms dimg [] m hm
      refine ⟨?_, h2⟩
      rw [h1, hexts]
      apply img_not_rom
      rw [hdimgdef, getImages] at hi
      simpa using (List.mem_filter.mp hi).2
    · exact absurd hm (by simp)
  have hpd1r : getRoms pd1 exts = roms := by
    rw [hpd1def]
    split
    · rw [hromsdef]
      exact getRoms_congr_files exts rfl
    · rw [hromsdef]
  have hpd1f : pd1.filelist = pd.filelist := by
    rw [hpd1def]
    split <;> rfl
  have hFrf : getRoms F exts = roms ∧ F.filelist = pd.filelist := by
    rw [hFdef]
    have h := applyMoves_roms exts mv pd1 (fun m hm => (hmvfacts m hm).1)
    exact ⟨h.1.trans hpd1r, h.2.trans hpd1f⟩
  have hvalid : ∀ e' ∈ mv.map (fun m => m.2.1),
      (roms.map (fun f => pyStem f.name)).contains (pyStem e') = true := by
    intro e' he'
    rcases List.mem_map.mp he' with ⟨m, hm, rfl⟩
    obtain ⟨-, r, hr, htgt⟩ := hmvfacts m hm
    rw [htgt, pyStem_move_target hnoempty (getRoms_mem_isRom (by rw [← hromsdef]; exact hr))]
    exact contains_of_mem (List.mem_map.mpr ⟨r, hr, rfl⟩)
  have himg : (pd.images = none ∧ F.images = none)
      ∨ (∃ imgs2, pd.images = none ∧ F.images = some imgs2
          ∧ ¬ roms.isEmpty = true
          ∧ (imgs2.map (fun f => f.name)).all
              (fun nm => (roms.map (fun f => pyStem f.name)).contains (pyStem nm)) = true)
      ∨ (∃ imgs imgs2 extras, pd.images = some imgs ∧ F.images = some imgs2
          ∧ imgs2.map (fun f => f.name) = imgs.map (fun f => f.name) ++ extras
          ∧ extras.all
              (fun nm => (roms.map (fun f => pyStem f.name)).contains (pyStem nm)) = true) := by
    cases him : pd.images with
    | none =>
      cases hre : roms.isEmpty with
      | true =>
        left
        have hpd1e : pd1 = pd := by
          rw [hpd1def, hre]
          simp
        have hmve : mv = [] := by
          rw [hmvdef, hre]
          simp
        refine ⟨rfl, ?_⟩
        rw [hFdef, hmve, List.foldl_nil, hpd1e, him]
      | false =>
        right; left
        have hpd1e : pd1 = { pd with images := some [] } := by
          rw [hpd1def, him, hre]
          simp
        obtain ⟨imgs2, extras, h1, h2, h3⟩ :=
          applyMoves_images mv pd1 [] (by rw [hpd1e])
        rw [← hFdef] at h1
        refine ⟨imgs2, rfl, h1, by simp [hre], ?_⟩
        rw [List.all_eq_true]
        intro nm hnm
        rw [h2] at hnm
        simp only [List.map_nil, List.nil_append] at hnm
        obtain ⟨m, hm, rfl⟩ := h3 nm hnm
        exact hvalid _ (List.mem_map.mpr ⟨m, hm, rfl⟩)
    | some imgs =>
      right; right
      have hpd1e : pd1 = pd := by
        rw [hpd1def, him]
        simp
      obtain ⟨imgs2, extras, h1, h2, h3⟩ := applyMoves_images mv pd1 imgs (by rw [hpd1e, him])
      rw [← hFdef] at h1
      refine ⟨imgs, imgs2, extras, rfl, h1, h2, ?_⟩
      rw [List.all_eq_true]
      intro nm hnm
      obtain ⟨m, hm, rfl⟩ := h3 nm hnm
      exact hvalid _ (List.mem_map.mpr ⟨m, hm, rfl⟩)
  have horph : (orphanPrune p exts pd true).2 = (orphanPrune p exts F false).2 := by
    apply orphan_log_parity p exts pd F true false
    · rw [hFrf.1, hromsdef]
    · rw [← hromsdef]
      exact himg
  have hcsv : (csvStep p exts (orphanPrune p exts pd true).1 true).2
      = (csvStep p exts (orphanPrune p exts F false).1 false).2 := by
    apply csvStep_log_congr
    · rw [getRoms_congr_files exts (orphanPrune_files p exts pd true),
        getRoms_congr_files exts (orphanPrune_files p exts F false)]
      rw [hFrf.1, hromsdef]
    · rw [orphanPrune_filelist, orphanPrune_filelist, hFrf.2]
  rw [horph, hcsv]

/-! ### Phase-level lemmas for parity -/

theorem find_setEntries_ne (p q : String) (pd : PlatformDir)
    (l : List (String × PlatformDir)) (h : ¬ q = p) :
    (setEntries p pd l).find? (fun e => e.1 = q) = l.find? (fun e => e.1 = q) := by
  induction l with
  | nil => rfl
  | cons e rest ih =>
    rw [setEntries]
    by_cases he : e.1 = p
    · rw [if_pos he, List.find?_cons, List.find?_cons]
      have h1 : ¬ ((p, pd).1 = q) := fun hh => h hh.symm
      have h2 : ¬ (e.1 = q) := by
        rw [he]
        exact fun hh => h hh.symm
      rw [decide_eq_false h1, decide_eq_false h2]
    · rw [if_neg he, List.find?_cons, List.find?_cons]
      cases hq : decide (e.1 = q) with
      | true => rfl
      | false => exact ih

theorem find_setEntries_self (p : String) (pd : PlatformDir) (l : List (String × PlatformDir))
    (h : (l.find? (fun e => e.1 = p)).isSome = true) :
    (setEntries p pd l).find? (fun e => e.1 = p) = some (p, pd) := by
  induction l with
  | nil => simp [List.find?] at h
  | cons e rest ih =>
    rw [setEntries]
    by_cases he : e.1 = p
    · rw [if_pos he, List.find?_cons]
      rw [show decide ((p, pd).1 = p) = true from by simp]
    · rw [if_neg he, List.find?_cons]
      rw [List.find?_cons] at h
      rw [decide_eq_false he] at h ⊢
      exact ih h

theorem getDir_setDir_ne (s : SdState) (p q : String) (pd : PlatformDir) (h : ¬ q = p) :
    getDir (setDir s p pd) q = getDir s q := by
  rw [getDir, getDir, setDir]
  dsimp only
  rw [find_setEntries_ne p q pd s.dirs h]

theorem getDir_setDir_self (s : SdState) (p : String) (pd0 pd : PlatformDir)
    (h : getDir s p = some pd0) : getDir (setDir s p pd) p = some pd := by
  have hs : (s.dirs.find? (fun e => e.1 = p)).isSome = true := by
    rw [getDir] at h
    cases hf : s.dirs.find? (fun e => e.1 = p) with
    | none =>
      rw [hf] at h
      exact absurd h (by simp)
    | some e => rfl
  rw [getDir, setDir]
  dsimp only
  rw [find_setEntries_self p pd s.dirs hs]
  rfl

theorem setDir_allfiles (s : SdState) (p : String) (pd : PlatformDir) :
    (setDir s p pd).allfiles = s.allfiles := rfl

theorem setDir_favorites (s : SdState) (p : String) (pd : PlatformDir) :
    (setDir s p pd).favorites = s.favorites := rfl

theorem phase2_favorites (dry : Bool) (ps : List String) (s : SdState) :
    (phase2 dry ps s).1.favorites = s.favorites := by
  induction ps generalizing s with
  | nil => rfl
  | cons p rest ih =>
    simp only [phase2]
    cases getDir s p with
    | none => exact ih s
    | some pd =>
      dsimp only
      rw [ih]
      rfl

theorem phase2_recent (dry : Bool) (ps : List String) (s : SdState) :
    (phase2 dry ps s).1.recent = s.recent := by
  induction ps generalizing s with
  | nil => rfl
  | cons p rest ih =>
    simp only [phase2]
    cases getDir s p with
    | none => exact ih s
    | some pd =>
      dsimp only
      rw [ih]
      rfl

theorem csvStep_files (p : String) (e : List String) (q : PlatformDir) (d : Bool) :
    (csvStep p e q d).1.files = q.files := by
  rw [csvStep]
  split
  · split <;> rfl
  · cases q.filelist with
    | none => rfl
    | some c =>
      dsimp only
      split <;> rfl

theorem csvStep_images (p : String) (e : List String) (q : PlatformDir) (d : Bool) :
    (csvStep p e q d).1.images = q.images := by
  rw [csvStep]
  split
  · split <;> rfl
  · cases q.filelist with
    | none => rfl
    | some c =>
      dsimp only
      split <;> rfl

/-- After an execute chunk with no duplicates to delete, the platform's
ROM listing is unchanged (only images moved in and metadata rewritten). -/
theorem step2Dir_exec_roms (p : String) (pd : PlatformDir)
    (hdup : dupTargets (getRoms pd (romExtMap p)) = []) :
    getRoms (step2Dir p pd false).1 (romExtMap p) = getRoms pd (romExtMap p) := by
  rw [step2Dir]
  simp only [Bool.not_true, Bool.not_false, Bool.and_false, Bool.and_true, Bool.false_eq_true,
    if_false, if_true, hdup, List.map_nil, List.foldl_nil, List.nil_append, List.append_nil]
  have heta : ∀ q : PlatformDir,
      ({ files := q.files, images := q.images, filelist := q.filelist } : PlatformDir) = q :=
    fun q => rfl
  rw [heta]
  rw [getRoms_congr_files (romExtMap p) (csvStep_files p (romExtMap p) _ false),
    getRoms_congr_files (romExtMap p) (orphanPrune_files p (romExtMap p) _ false)]
  have hmvfacts : ∀ m ∈ (if (!(getImages pd).isEmpty && !(getRoms pd (romExtMap p)).isEmpty) = true
      then associate (getRoms pd (romExtMap p)) [] (getImages pd) else []),
      isRomName (romExtMap p) m.1 = false := by
    intro m hm
    split at hm
    · obtain ⟨⟨i, hi, h1⟩, -⟩ := associate_mem (getRoms pd (romExtMap p)) (getImages pd) [] m hm
      rw [h1]
      apply img_not_rom
      rw [getImages] at hi
      simpa using (List.mem_filter.mp hi).2
    · exact absurd hm (by simp)
  rw [(applyMoves_roms (romExtMap p) _ _ hmvfacts).1]
  split
  · exact getRoms_congr_files (romExtMap p) rfl
  · rfl

/-- The chunk log of phase 2 depends only on the directories of the
platforms still to process. -/
theorem phase2_log_congr (dry : Bool) (ps : List String) :
    ∀ (s1 s2 : SdState), (∀ q ∈ ps, getDir s1 q = getDir s2 q) →
      (phase2 dry ps s1).2 = (phase2 dry ps s2).2 := by
  induction ps with
  | nil => intro s1 s2 _; rfl
  | cons q rest ih =>
    intro s1 s2 h
    simp only [phase2]
    have hq := h q (List.mem_cons_self _ _)
    rw [hq]
    cases hg : getDir s2 q with
    | none =>
      rw [hg] at hq
      exact ih s1 s2 (fun r hr => h r (List.mem_cons_of_mem _ hr))
    | some pd =>
      rw [hg] at hq
      dsimp only
      have hrec : (phase2 dry rest (setDir s1 q (step2Dir q pd dry).1)).2
          = (phase2 dry rest (setDir s2 q (step2Dir q pd dry).1)).2 := by
        apply ih
        intro r hr
        by_cases hrq : r = q
        · subst hrq
          rw [getDir_setDir_self s1 r pd _ hq, getDir_setDir_self s2 r pd _ hg]
        · rw [getDir_setDir_ne s1 q r _ hrq, getDir_setDir_ne s2 q r _ hrq]
          exact h r (List.mem_cons_of_mem _ hr)
      rw [hrec]

/-- Execute-mode phase 2 leaves every platform's ROM listing unchanged
when no platform has extension-duplicates. -/
theorem phase2_exec_roms (ps : List String) :
    ∀ (s : SdState), ps.Nodup →
      (∀ p pd, p ∈ ps → getDir s p = some pd → dupTargets (getRoms pd (romExtMap p)) = []) →
      ∀ q, romsOfPlatform (phase2 false ps s).1 q = romsOfPlatform s q := by
  induction ps with
  | nil => intro s _ _ q; rfl
  | cons p rest ih =>
    intro s hnd hdup q
    simp only [phase2]
    cases hg : getDir s p with
    | none => exact ih s (List.nodup_cons.mp hnd).2 (fun r pd hr => hdup r pd (List.mem_cons_of_mem _ hr)) q
    | some pd =>
      dsimp only
      have hstep : ∀ r pd', r ∈ rest →
          getDir (setDir s p (step2Dir p pd false).1) r = some pd' →
          dupTargets (getRoms pd' (romExtMap r)) = [] := by
        intro r pd' hr hgd
        have hrp : ¬ r = p := by
          intro hh
          subst hh
          exact (List.nodup_cons.mp hnd).1 hr
        rw [getDir_setDir_ne s p r _ hrp] at hgd
        exact hdup r pd' (List.mem_cons_of_mem _ hr) hgd
      rw [ih _ (List.nodup_cons.mp hnd).2 hstep q]
      by_cases hq : q = p
      · subst hq
        rw [romsOfPlatform, romsOfPlatform,
          getDir_setDir_self s q pd _ hg, hg]
        exact step2Dir_exec_roms q pd (hdup q pd (List.mem_cons_self _ _) hg)
      · rw [romsOfPlatform, romsOfPlatform, getDir_setDir_ne s p q _ hq]

/-- Dry-run and execute phase 2 report the same actions when no platform
has extension-duplicates. -/
theorem phase2_parity (ps : List String) :
    ∀ (s : SdState), ps.Nodup →
      (∀ p pd, p ∈ ps → getDir s p = some pd → dupTargets (getRoms pd (romExtMap p)) = []) →
      (phase2 true ps s).2 = (phase2 false ps s).2 := by
  induction ps with
  | nil => intro s _ _; rfl
  | cons p rest ih =>
    intro s hnd hdup
    simp only [phase2]
    cases hg : getDir s p with
    | none => exact ih s (List.nodup_cons.mp hnd).2 (fun r pd hr => hdup r pd (List.mem_cons_of_mem _ hr))
    | some pd =>
      dsimp only
      rw [step2Dir_dry p pd, setDir_self s p pd hg]
      rw [step2Dir_parity p pd (hdup p pd (List.mem_cons_self _ _) hg)]
      congr 1
      rw [ih s (List.nodup_cons.mp hnd).2 (fun r pd' hr => hdup r pd' (List.mem_cons_of_mem _ hr))]
      apply phase2_log_congr
      intro r hr
      have hrp : ¬ r = p := by
        intro hh
        subst hh
        exact (List.nodup_cons.mp hnd).1 hr
      rw [getDir_setDir_ne s p r _ hrp]

/-- A directory in which no GameFile name and no `images/` file name
contains a comma (so the sanitize step has nothing to do). -/
def noCommaDir (p : String) (pd : PlatformDir) : Prop :=
  (∀ f ∈ pd.files, isRomName (romExtMap p) f.name = true → hasComma f.name = false)
  ∧ (∀ f ∈ pd.images.getD [], hasComma f.name = false)

instance (p : String) (pd : PlatformDir) : Decidable (noCommaDir p pd) := by
  unfold noCommaDir
  infer_instance

theorem renamePass_id (pred : String → Bool) (dry : Bool) (mk : String → String → SdAct)
    (snap : List String) (fs : List FsFile) (h : ∀ n ∈ snap, pred n = false) :
    renamePass pred dry mk snap fs = (fs, []) := by
  induction snap with
  | nil => rfl
  | cons n rest ih =>
    rw [renamePass, h n (List.mem_cons_self _ _)]
    simp only [Bool.false_eq_true, if_false]
    exact ih (fun m hm => h m (List.mem_cons_of_mem _ hm))

theorem step1Dir_nochange (p : String) (pd : PlatformDir) (dry : Bool) (h : noCommaDir p pd) :
    step1Dir p pd dry = (pd, []) := by
  rw [step1Dir]
  have h1 : renamePass (fun n => isRomName (romExtMap p) n && hasComma n) dry
      (SdAct.renameRom p) (pd.files.map (fun f => f.name)) pd.files = (pd.files, []) := by
    apply renamePass_id
    intro n hn
    rcases List.mem_map.mp hn with ⟨f, hf, rfl⟩
    cases hr : isRomName (romExtMap p) f.name with
    | true => rw [h.1 f hf hr]; simp
    | false => simp [hr]
  rw [h1]
  cases him : pd.images with
  | none =>
    dsimp only
    rw [← him]
  | some imgs =>
    have h2 : renamePass hasComma dry (SdAct.renameImg p) (imgs.map (fun f => f.name)) imgs
        = (imgs, []) := by
      apply renamePass_id
      intro n hn
      rcases List.mem_map.mp hn with ⟨f, hf, rfl⟩
      apply h.2 f
      rw [him]
      exact hf
    dsimp only
    rw [h2]
    dsimp only
    rw [← him]
    simp

theorem phase1_nochange (dry : Bool) (ps : List String) (s : SdState)
    (h : ∀ p pd, getDir s p = some pd → noCommaDir p pd) :
    phase1 dry ps s = (s, []) := by
  induction ps with
  | nil => rfl
  | cons p rest ih =>
    rw [phase1]
    cases hg : getDir s p with
    | none => exact ih
    | some pd =>
      dsimp only
      rw [step1Dir_nochange p pd dry (h p pd hg)]
      dsimp only
      rw [setDir_self s p pd hg, ih]
      simp

theorem romsOf_congr_dirs (s1 s2 : SdState) (h : s1.dirs = s2.dirs) (q : String) :
    romsOfPlatform s1 q = romsOfPlatform s2 q := by
  rw [romsOfPlatform, romsOfPlatform, getDir, getDir, h]

theorem allfilesLines_congr (s1 s2 : SdState) (old : List (String × String))
    (h : ∀ q, romsOfPlatform s1 q = romsOfPlatform s2 q) :
    allfilesLines s1 old = allfilesLines s2 old := by
  rw [allfilesLines, allfilesLines]
  congr 1
  apply List.map_congr_left
  intro q _
  rw [h q]

theorem validRomKeys_congr (s1 s2 : SdState)
    (h : ∀ q, romsOfPlatform s1 q = romsOfPlatform s2 q) :
    validRomKeys s1 = validRomKeys s2 := by
  rw [validRomKeys, validRomKeys]
  congr 1
  apply List.map_congr_left
  intro q _
  rw [h q]

theorem phase3_log_congr (s1 s2 : SdState) (d1 d2 : Bool)
    (ha : s1.allfiles = s2.allfiles)
    (h : ∀ q, romsOfPlatform s1 q = romsOfPlatform s2 q) :
    (phase3 s1 d1).2 = (phase3 s2 d2).2 := by
  rw [phase3, phase3, ha]
  cases s2.allfiles with
  | none => rfl
  | some c =>
    dsimp only
    rw [allfilesLines_congr s1 s2 _ h]

theorem phase3_dirs (s : SdState) (d : Bool) : (phase3 s d).1.dirs = s.dirs := by
  rw [phase3]
  cases s.allfiles with
  | none => rfl
  | some c =>
    dsimp only
    split <;> rfl

theorem phase3_favorites (s : SdState) (d : Bool) : (phase3 s d).1.favorites = s.favorites := by
  rw [phase3]
  cases s.allfiles with
  | none => rfl
  | some c =>
    dsimp only
    split <;> rfl

theorem phase3_recent (s : SdState) (d : Bool) : (phase3 s d).1.recent = s.recent := by
  rw [phase3]
  cases s.allfiles with
  | none => rfl
  | some c =>
    dsimp only
    split <;> rfl

theorem phase4_log_congr (s1 s2 : SdState) (d1 d2 : Bool)
    (hf : s1.favorites = s2.favorites) (hr : s1.recent = s2.recent)
    (h : ∀ q, romsOfPlatform s1 q = romsOfPlatform s2 q) :
    (phase4 s1 d1).2 = (phase4 s2 d2).2 := by
  rw [phase4, phase4, hf, hr, validRomKeys_congr s1 s2 h]
  cases s2.favorites <;> cases s2.recent <;> rfl

/-- Concrete input for the C2 counterexample: a comma-named ROM next to
the `.zip` it collides with after sanitizing. -/
def parityBreakState : SdState :=
  { dirs := [("GB",
      { files := [⟨"zel,da.gb", "A"⟩, ⟨"zelda.zip", "B"⟩], images := none, filelist := none })],
    allfiles := none, favorites := none, recent := none }

/-- C2 counterexample.  Dry-run and execute do *not* always make the same
decisions: execute's later steps see earlier mutations while dry-run
evaluates everything against the unmodified state.  Starting from
`zel,da.gb` + `zelda.zip`, the dry run reports the comma rename, no
duplicate deletion, and a 2-record CSV; the execute run performs the
rename, then deletes `zelda.gb` as a duplicate and writes a 1-record
CSV. -/
theorem parity_counterexample :
    ¬ (syncSdCard parityBreakState true).2 = (syncSdCard parityBreakState false).2 := by
  decide

/-- C2 (amended).  For a starting state in which no GameFile or `images/`
file name contains a comma (the sanitize step has nothing to rename) and
no platform directory contains an extension-duplicate pair, dry-run and
execute report/perform exactly the same actions: comma renames, image
moves with destinations and scores, duplicate deletions, orphan-image
deletions, and the CSV/catalog/list rewrites with their full contents. -/
theorem dry_execute_parity (s : SdState)
    (hcomma : ∀ e ∈ s.dirs, noCommaDir e.1 e.2)
    (hdup : ∀ e ∈ s.dirs, dupTargets (getRoms e.2 (romExtMap e.1)) = []) :
    (syncSdCard s true).2 = (syncSdCard s false).2 := by
  have hentry : ∀ p pd, getDir s p = some pd → (p, pd) ∈ s.dirs := by
    intro p pd hg
    rw [getDir] at hg
    cases hf : s.dirs.find? (fun q => q.1 = p) with
    | none =>
      rw [hf] at hg
      exact absurd hg (by simp)
    | some e =>
      rw [hf] at hg
      simp only [Option.map] at hg
      injection hg with hg
      have he := List.mem_of_find?_eq_some hf
      have hp : e.1 = p := by
        have := List.find?_some hf
        simpa using this
      have heq : e = (p, pd) := by
        rcases e with ⟨e1, e2⟩
        simp only at hp hg
        rw [hp, hg]
      rw [← heq]
      exact he
  have hc : ∀ p pd, getDir s p = some pd → noCommaDir p pd :=
    fun p pd hg => hcomma (p, pd) (hentry p pd hg)
  have hd2 : ∀ p pd, p ∈ PLATFORMS → getDir s p = some pd →
      dupTargets (getRoms pd (romExtMap p)) = [] :=
    fun p pd _ hg => hdup (p, pd) (hentry p pd hg)
  have hnd : PLATFORMS.Nodup := by decide
  rw [syncSdCard, syncSdCard,
    phase1_nochange true PLATFORMS s hc, phase1_nochange false PLATFORMS s hc]
  dsimp only
  have h2dry : (phase2 true PLATFORMS s).1 = s := phase2_dry PLATFORMS s
  have h2par : (phase2 true PLATFORMS s).2 = (phase2 false PLATFORMS s).2 :=
    phase2_parity PLATFORMS s hnd hd2
  have hroms : ∀ q, romsOfPlatform (phase2 false PLATFORMS s).1 q = romsOfPlatform s q :=
    phase2_exec_roms PLATFORMS s hnd hd2
  have h3par : (phase3 (phase2 true PLATFORMS s).1 true).2
      = (phase3 (phase2 false PLATFORMS s).1 false).2 := by
    apply phase3_log_congr
    · rw [h2dry, phase2_allfiles]
    · intro q
      rw [h2dry, hroms q]
  have h4par : (phase4 (phase3 (phase2 true PLATFORMS s).1 true).1 true).2
      = (phase4 (phase3 (phase2 false PLATFORMS s).1 false).1 false).2 := by
    apply phase4_log_congr
    · rw [phase3_favorites, phase3_favorites, h2dry, phase2_favorites]
    · rw [phase3_recent, phase3_recent, h2dry, phase2_recent]
    · intro q
      rw [romsOf_congr_dirs _ _ (phase3_dirs _ _) q, romsOf_congr_dirs _ _ (phase3_dirs _ _) q,
        h2dry, hroms q]
  rw [h2par, h3par, h4par]

/-- Witness for C2 at a concrete comma-free, duplicate-free state with a
loose cover image, a favorites file and a catalog: the dry-run report
equals the execute-run actions. -/
theorem dry_execute_parity_witness :
    (syncSdCard
      { dirs := [("GB",
          { files := [⟨"mario.zip", "R"⟩, ⟨"mario art.png", "I"⟩],
            images := none, filelist := none })],
        allfiles := some "", favorites := some "GB/mario.zip|M\n", recent := none } true).2
    = (syncSdCard
      { dirs := [("GB",
          { files := [⟨"mario.zip", "R"⟩, ⟨"mario art.png", "I"⟩],
            images := none, filelist := none })],
        allfiles := some "", favorites := some "GB/mario.zip|M\n", recent := none } false).2 :=
  dry_execute_parity _ (by decide) (by decide)

/-! ## Claim C3: idempotence of execute mode.  Text round-trip lemmas. -/

theorem str_chars (s : String) : str (chars s) = s := rfl

theorem normNl_id : ∀ (cs : List Char), (∀ c ∈ cs, ¬ c = '\r') → normNl cs = cs
  | [], _ => rfl
  | [c], h => by
    rw [normNl, if_neg (h c (by simp))]
  | c :: c2 :: rest, h => by
    rw [normNl, if_neg (h c (by simp))]
    rw [normNl_id (c2 :: rest) (fun x hx => h x (List.mem_cons_of_mem _ hx))]

theorem normNl_no_cr : ∀ (cs : List Char), ∀ c' ∈ normNl cs, ¬ c' = '\r'
  | [] => by simp [normNl]
  | [c] => by
    intro c' hc'
    rw [normNl] at hc'
    by_cases h : c = '\r'
    · rw [if_pos h] at hc'
      simp only [List.mem_singleton] at hc'
      subst hc'
      decide
    · rw [if_neg h] at hc'
      simp only [List.mem_singleton] at hc'
      subst hc'
      exact h
  | c :: c2 :: rest => by
    intro c' hc'
    rw [normNl] at hc'
    by_cases h : c = '\r'
    · rw [if_pos h] at hc'
      by_cases h2 : c2 = '\n'
      · rw [if_pos h2] at hc'
        rcases List.mem_cons.mp hc' with h' | h'
        · subst h'; decide
        · exact normNl_no_cr rest c' h'
      · rw [if_neg h2] at hc'
        rcases List.mem_cons.mp hc' with h' | h'
        · subst h'; decide
        · exact normNl_no_cr (c2 :: rest) c' h'
    · rw [if_neg h] at hc'
      rcases List.mem_cons.mp hc' with h' | h'
      · subst h'; exact h
      · exact normNl_no_cr (c2 :: rest) c' h'

theorem splitCh_ne_nil (sep : Char) (cs : List Char) : ¬ splitCh sep cs = [] := by
  cases cs with
  | nil => simp [splitCh]
  | cons c rest =>
    rw [splitCh]
    by_cases h : c = sep
    · simp [h]
    · rw [if_neg h]
      cases hs : splitCh sep rest with
      | nil => simp
      | cons p ps => simp

theorem splitCh_no_sep (sep : Char) :
    ∀ (cs : List Char), ∀ piece ∈ splitCh sep cs, ∀ c ∈ piece, ¬ c = sep := by
  intro cs
  induction cs with
  | nil =>
    intro piece hp c hc
    simp only [splitCh, List.mem_singleton] at hp
    subst hp
    simp at hc
  | cons x rest ih =>
    intro piece hp c hc
    rw [splitCh] at hp
    by_cases h : x = sep
    · rw [if_pos h] at hp
      rcases List.mem_cons.mp hp with h' | h'
      · subst h'; simp at hc
      · exact ih piece h' c hc
    · rw [if_neg h] at hp
      cases hs : splitCh sep rest with
      | nil =>
        rw [hs] at hp
        simp only [List.mem_singleton] at hp
        subst hp
        simp only [List.mem_singleton] at hc
        subst hc
        exact h
      | cons p ps =>
        rw [hs] at hp
        rcases List.mem_cons.mp hp with h' | h'
        · subst h'
          rcases List.mem_cons.mp hc with h'' | h''
          · subst h''; exact h
          · exact ih p (by rw [hs]; exact List.mem_cons_self _ _) c h''
        · exact ih piece (by rw [hs]; exact List.mem_cons_of_mem _ h') c hc

theorem splitCh_subset (sep : Char) :
    ∀ (cs : List Char), ∀ piece ∈ splitCh sep cs, ∀ c ∈ piece, c ∈ cs := by
  intro cs
  induction cs with
  | nil =>
    intro piece hp c hc
    simp only [splitCh, List.mem_singleton] at hp
    subst hp
    simp at hc
  | cons x rest ih =>
    intro piece hp c hc
    rw [splitCh] at hp
    by_cases h : x = sep
    · rw [if_pos h] at hp
      rcases List.mem_cons.mp hp with h' | h'
      · subst h'; simp at hc
      · exact List.mem_cons_of_mem _ (ih piece h' c hc)
    · rw [if_neg h] at hp
      cases hs : splitCh sep rest with
      | nil =>
        rw [hs] at hp
        simp only [List.mem_singleton] at hp
        subst hp
        simp only [List.mem_singleton] at hc
        subst hc
        exact List.mem_cons_self _ _
      | cons p ps =>
        rw [hs] at hp
        rcases List.mem_cons.mp hp with h' | h'
        · subst h'
          rcases List.mem_cons.mp hc with h'' | h''
          · subst h''; exact List.mem_cons_self _ _
          · exact List.mem_cons_of_mem _
              (ih p (by rw [hs]; exact List.mem_cons_self _ _) c h'')
        · exact List.mem_cons_of_mem _
            (ih piece (by rw [hs]; exact List.mem_cons_of_mem _ h') c hc)

theorem splitCh_append_sep (sep : Char) :
    ∀ (l r : List Char), (∀ c ∈ l, ¬ c = sep) →
      splitCh sep (l ++ sep :: r) = l :: splitCh sep r
  | [], r, _ => by
    rw [List.nil_append, splitCh, if_pos rfl]
  | c :: l', r, h => by
    rw [List.cons_append, splitCh, if_neg (h c (by simp)),
      splitCh_append_sep sep l' r (fun x hx => h x (List.mem_cons_of_mem _ hx))]

theorem findIdx?_append_sep (sep : Char) :
    ∀ (l r : List Char) (i : Nat), (∀ c ∈ l, ¬ c = sep) →
      List.findIdx? (fun c => c = sep) (l ++ sep :: r) i = some (i + l.length)
  | [], r, i, _ => by
    rw [List.nil_append, List.findIdx?]
    simp
  | c :: l', r, i, h => by
    rw [List.cons_append, List.findIdx?, decide_eq_false (h c (by simp))]
    simp only [Bool.false_eq_true, if_false]
    rw [findIdx?_append_sep sep l' r (i + 1) (fun x hx => h x (List.mem_cons_of_mem _ hx))]
    simp only [List.length_cons, Option.some_inj]
    omega

theorem dropWhile_id (p : Char → Bool) (cs : List Char)
    (h : ∀ c ∈ cs.take 1, p c = false) : cs.dropWhile p = cs := by
  cases cs with
  | nil => rfl
  | cons c rest =>
    rw [List.dropWhile_cons, h c (by simp)]
    simp

theorem stripC_id (cs : List Char) (h1 : ∀ c ∈ cs.take 1, isPyWs c = false)
    (h2 : ∀ c ∈ cs.reverse.take 1, isPyWs c = false) : stripC cs = cs := by
  rw [stripC, dropWhile_id _ _ h1, dropWhile_id _ _ h2, List.reverse_reverse]

theorem mem_stripC {cs : List Char} {c : Char} (h : c ∈ stripC cs) : c ∈ cs := by
  rw [stripC, List.mem_reverse] at h
  have h2 := (List.dropWhile_sublist (l := (cs.dropWhile isPyWs).reverse) isPyWs).mem h
  rw [List.mem_reverse] at h2
  exact (List.dropWhile_sublist isPyWs).mem h2

theorem dropWhile_head_false (p : Char → Bool) :
    ∀ (l : List Char) (c : Char) (t : List Char), l.dropWhile p = c :: t → p c = false
  | [], c, t, h => by simp at h
  | a :: l', c, t, h => by
    rw [List.dropWhile_cons] at h
    by_cases ha : p a = true
    · rw [if_pos ha] at h
      exact dropWhile_head_false p l' c t h
    · rw [if_neg ha] at h
      injection h with h1 h2
      subst h1
      simpa using ha

theorem stripC_last_false {cs : List Char} {c : Char}
    (h : (stripC cs).getLast? = some c) : isPyWs c = false := by
  rw [stripC, List.getLast?_reverse] at h
  cases hd : List.dropWhile isPyWs ((cs.dropWhile isPyWs).reverse) with
  | nil =>
    rw [hd] at h
    simp at h
  | cons x t =>
    rw [hd] at h
    simp only [List.head?_cons, Option.some_inj] at h
    subst h
    exact dropWhile_head_false _ _ _ _ hd

theorem getLast?_drop_ne {α : Type} : ∀ (l : List α) (k : Nat), ¬ l.drop k = [] →
    (l.drop k).getLast? = l.getLast?
  | [], k, h => by simp at h
  | a :: l', 0, _ => rfl
  | a :: l', k + 1, h => by
    rw [List.drop_succ_cons] at h ⊢
    cases hl : l' with
    | nil =>
      subst hl
      simp at h
    | cons b t =>
      rw [← hl]
      rw [getLast?_drop_ne l' k h]
      rw [hl, List.getLast?_cons_cons]

theorem stripC_head_false {cs : List Char} {c : Char}
    (h : (stripC cs).head? = some c) : isPyWs c = false := by
  rw [stripC, List.head?_reverse] at h
  have hne : ¬ List.dropWhile isPyWs ((cs.dropWhile isPyWs).reverse) = [] := by
    intro hh
    rw [hh] at h
    simp at h
  obtain ⟨t, ht⟩ := List.dropWhile_suffix (l := (cs.dropWhile isPyWs).reverse) (p := isPyWs)
  have h2 : ((cs.dropWhile isPyWs).reverse).getLast? = some c := by
    rw [← ht, List.getLast?_append_of_ne_nil t hne]
    exact h
  rw [List.getLast?_reverse] at h2
  cases hY : cs.dropWhile isPyWs with
  | nil =>
    rw [hY] at h2
    simp at h2
  | cons x tt =>
    rw [hY] at h2
    simp only [List.head?_cons, Option.some_inj] at h2
    subst h2
    exact dropWhile_head_false _ _ _ _ hY

theorem stripC_idem (cs : List Char) : stripC (stripC cs) = stripC cs := by
  apply stripC_id
  · intro c hc
    cases hh : stripC cs with
    | nil =>
      rw [hh] at hc
      simp at hc
    | cons x t =>
      rw [hh] at hc
      simp only [List.take_succ_cons, List.take_zero, List.mem_singleton] at hc
      subst hc
      exact stripC_head_false (by rw [hh]; rfl)
  · intro c hc
    cases hh : (stripC cs).reverse with
    | nil =>
      rw [hh] at hc
      simp at hc
    | cons x t =>
      rw [hh] at hc
      simp only [List.take_succ_cons, List.take_zero, List.mem_singleton] at hc
      subst hc
      apply @stripC_last_false cs
      rw [← List.head?_reverse, hh]
      rfl

theorem chars_append (a b : String) : chars (a ++ b) = chars a ++ chars b :=
  String.data_append a b

theorem chars_joinNl_cons (l : String) (ls : List String) (hls : ¬ ls = []) :
    chars (joinNl (l :: ls)) = chars l ++ '\n' :: chars (joinNl ls) := by
  cases ls with
  | nil => exact absurd rfl hls
  | cons l2 rest =>
    show chars ((intercalNl (l :: l2 :: rest)) ++ "\n")
      = chars l ++ '\n' :: chars (intercalNl (l2 :: rest) ++ "\n")
    have hi : intercalNl (l :: l2 :: rest) = l ++ "\n" ++ intercalNl (l2 :: rest) := rfl
    rw [hi, chars_append, chars_append, chars_append, chars_append]
    have h1 : chars "\n" = ['\n'] := rfl
    rw [h1]
    simp

theorem mem_chars_joinNl : ∀ (ls : List String), ∀ c ∈ chars (joinNl ls),
    c = '\n' ∨ ∃ l ∈ ls, c ∈ chars l
  | [] => by
    intro c hc
    left
    have : chars (joinNl []) = ['\n'] := rfl
    rw [this] at hc
    simpa using hc
  | [l] => by
    intro c hc
    have : chars (joinNl [l]) = chars l ++ ['\n'] := by
      show chars (l ++ "\n") = _
      rw [chars_append]
      rfl
    rw [this] at hc
    rcases List.mem_append.mp hc with h | h
    · exact Or.inr ⟨l, List.mem_cons_self _ _, h⟩
    · left
      simpa using h
  | l :: l2 :: rest => by
    intro c hc
    rw [chars_joinNl_cons l (l2 :: rest) (by simp)] at hc
    rcases List.mem_append.mp hc with h | h
    · exact Or.inr ⟨l, List.mem_cons_self _ _, h⟩
    · rcases List.mem_cons.mp h with h' | h'
      · exact Or.inl h'
      · rcases mem_chars_joinNl (l2 :: rest) c h' with h'' | ⟨l', hl', hc'⟩
        · exact Or.inl h''
        · exact Or.inr ⟨l', List.mem_cons_of_mem _ hl', hc'⟩

theorem readLines_joinNl : ∀ (ls : List String), ¬ ls = [] →
    (∀ l ∈ ls, ∀ c ∈ chars l, ¬ c = '\n' ∧ ¬ c = '\r') →
    readLines (joinNl ls) = ls ++ [""]
  | [], h, _ => absurd rfl h
  | [l], _, h => by
    rw [readLines]
    have hc : chars (joinNl [l]) = chars l ++ '\n' :: [] := by
      show chars (l ++ "\n") = _
      rw [chars_append]
      rfl
    rw [hc, normNl_id _ (fun c hc' => by
      rcases List.mem_append.mp hc' with h' | h'
      · exact (h l (List.mem_cons_self _ _) c h').2
      · simp only [List.mem_singleton] at h'
        subst h'
        decide)]
    rw [splitCh_append_sep '\n' (chars l) []
      (fun c hc' => (h l (List.mem_cons_self _ _) c hc').1)]
    show [str (chars l), str []] = [l, ""]
    rw [str_chars]
    rfl
  | l :: l2 :: rest, _, h => by
    rw [readLines, chars_joinNl_cons l (l2 :: rest) (by simp)]
    have hcr : ∀ c ∈ chars l ++ '\n' :: chars (joinNl (l2 :: rest)), ¬ c = '\r' := by
      intro c hc
      rcases List.mem_append.mp hc with h' | h'
      · exact (h l (List.mem_cons_self _ _) c h').2
      · rcases List.mem_cons.mp h' with h'' | h''
        · subst h''; decide
        · rcases mem_chars_joinNl (l2 :: rest) c h'' with h3 | ⟨l', hl', hc'⟩
          · subst h3; decide
          · exact (h l' (List.mem_cons_of_mem _ hl') c hc').2
    rw [normNl_id _ hcr]
    rw [splitCh_append_sep '\n' (chars l) _
      (fun c hc' => (h l (List.mem_cons_self _ _) c hc').1)]
    have hrec := readLines_joinNl (l2 :: rest) (by simp)
      (fun l' hl' c hc' => h l' (List.mem_cons_of_mem _ hl') c hc')
    rw [readLines] at hrec
    have hcr2 : ∀ c ∈ chars (joinNl (l2 :: rest)), ¬ c = '\r' := by
      intro c hc
      rcases mem_chars_joinNl (l2 :: rest) c hc with h3 | ⟨l', hl', hc'⟩
      · subst h3; decide
      · exact (h l' (List.mem_cons_of_mem _ hl') c hc').2
    rw [normNl_id _ hcr2] at hrec
    rw [List.map_cons, hrec, str_chars]
    rfl

/-! ## Association-list folds over freshly keyed lines (round-trip toolkit) -/

theorem memA_append (d : List (String × String)) (pr : String × String) (k : String) :
    memA (d ++ [pr]) k = (memA d k || (pr.1 = k)) := by
  simp [memA, List.any_append]

theorem updateA_fresh (d : List (String × String)) (k v : String) (h : memA d k = false) :
    updateA d k v = d ++ [(k, v)] := by
  rw [updateA, if_neg]
  rw [memA] at h
  simp [h]

theorem updateA_mem {d : List (String × String)} {k v : String} {pr : String × String}
    (h : pr ∈ updateA d k v) : pr ∈ d ∨ pr = (k, v) := by
  rw [updateA] at h
  split at h
  · rcases List.mem_map.mp h with ⟨q, hq, hqe⟩
    by_cases hqk : q.1 = k
    · rw [if_pos hqk] at hqe
      right
      exact hqe.symm
    · rw [if_neg hqk] at hqe
      left
      exact hqe ▸ hq
  · rcases List.mem_append.mp h with h1 | h1
    · left; exact h1
    · right; simpa using h1

theorem foldl_updateA_fresh : ∀ (pairs : List (String × String)) (d : List (String × String)),
    (∀ pr ∈ pairs, memA d pr.1 = false) → (pairs.map Prod.fst).Nodup →
    pairs.foldl (fun acc pr => updateA acc pr.1 pr.2) d = d ++ pairs
  | [], d, _, _ => by simp
  | pr :: rest, d, hmem, hnd => by
    rw [List.foldl_cons, updateA_fresh d pr.1 pr.2 (hmem pr (List.mem_cons_self _ _))]
    have hnd' : ¬ pr.1 ∈ rest.map Prod.fst ∧ (rest.map Prod.fst).Nodup := by
      rw [List.map_cons, List.nodup_cons] at hnd
      exact hnd
    rw [foldl_updateA_fresh rest (d ++ [(pr.1, pr.2)]) ?_ hnd'.2]
    · have hpr : ((pr.1, pr.2) : String × String) = pr := rfl
      rw [hpr, List.append_assoc]
      rfl
    · intro q hq
      rw [memA_append, hmem q (List.mem_cons_of_mem _ hq)]
      simp only [Bool.false_or]
      apply decide_eq_false
      intro he
      exact hnd'.1 (he ▸ List.mem_map_of_mem Prod.fst hq)

theorem lookupA_of_mem : ∀ (pairs : List (String × String)) (k v : String),
    (pairs.map Prod.fst).Nodup → (k, v) ∈ pairs → lookupA pairs k = some v
  | [], k, v, _, h => by simp at h
  | pr :: rest, k, v, hnd, h => by
    have hnd' : ¬ pr.1 ∈ rest.map Prod.fst ∧ (rest.map Prod.fst).Nodup := by
      rw [List.map_cons, List.nodup_cons] at hnd
      exact hnd
    rw [lookupA]
    by_cases he : pr.1 = k
    · rw [List.find?_cons_of_pos _ (by simpa using he)]
      show some pr.2 = some v
      rcases List.mem_cons.mp h with h1 | h1
      · rw [← h1]
      · exfalso
        apply hnd'.1
        rw [he]
        simpa using List.mem_map_of_mem Prod.fst h1
    · rw [List.find?_cons_of_neg _ (by simpa using he)]
      have h1 : (k, v) ∈ rest := by
        rcases List.mem_cons.mp h with h2 | h2
        · exact absurd (by rw [← h2]) he
        · exact h2
      rw [← lookupA]
      exact lookupA_of_mem rest k v hnd'.2 h1

theorem lookupA_mem {d : List (String × String)} {k v : String} (h : lookupA d k = some v) :
    (k, v) ∈ d := by
  rw [lookupA] at h
  cases hf : d.find? (fun p => p.1 = k) with
  | none => rw [hf] at h; simp at h
  | some pr =>
    rw [hf] at h
    rw [show (some pr).map (fun p : String × String => p.2) = some pr.2 from rfl] at h
    injection h with h
    have hm := List.mem_of_find?_eq_some hf
    have hk : pr.1 = k := by simpa using List.find?_some hf
    have hpr : pr = (k, v) := by
      rcases pr with ⟨a, b⟩
      simp only [Prod.mk.injEq]
      exact ⟨hk, h⟩
    exact hpr ▸ hm

/-! ## Character-level facts about clean lines -/

theorem take_one_head {cs : List Char} {P : Char → Prop}
    (h : ∀ c, cs.head? = some c → P c) : ∀ c ∈ cs.take 1, P c := by
  intro c hc
  cases cs with
  | nil => simp at hc
  | cons a t =>
    simp only [List.take_succ_cons, List.take_zero, List.mem_singleton] at hc
    subst hc
    exact h _ rfl

theorem take_one_rev {cs : List Char} {P : Char → Prop}
    (h : ∀ c, cs.getLast? = some c → P c) : ∀ c ∈ cs.reverse.take 1, P c := by
  intro c hc
  cases hr : cs.reverse with
  | nil => rw [hr] at hc; simp at hc
  | cons a t =>
    rw [hr] at hc
    simp only [List.take_succ_cons, List.take_zero, List.mem_singleton] at hc
    subst hc
    apply h
    rw [← List.head?_reverse, hr]
    rfl

theorem pyStrip_idem (l : String) : pyStrip (pyStrip l) = pyStrip l := by
  rw [pyStrip, pyStrip, chars_str, stripC_idem]

theorem take_len {α : Type} : ∀ (l r : List α), (l ++ r).take l.length = l
  | [], r => by simp
  | a :: l', r => by
    rw [List.cons_append, List.length_cons, List.take_succ_cons, take_len l' r]

theorem drop_len_succ {α : Type} : ∀ (l : List α) (x : α) (r : List α),
    (l ++ x :: r).drop (l.length + 1) = r
  | [], x, r => by simp
  | a :: l', x, r => by
    rw [List.cons_append, List.length_cons, List.drop_succ_cons]
    exact drop_len_succ l' x r

theorem chars_append3 (a m b : String) :
    chars (a ++ m ++ b) = chars a ++ (chars m ++ chars b) := by
  rw [chars_append, chars_append, List.append_assoc]

theorem getLast?_append_cons {α : Type} (l : List α) (x : α) (r : List α) :
    (l ++ x :: r).getLast? = (x :: r).getLast? :=
  List.getLast?_append_of_ne_nil l (by simp)

/-- A provably nonempty string with non-whitespace end characters strips
to itself. -/
theorem pyStrip_id_ends (s : String)
    (hh : ∀ c, (chars s).head? = some c → isPyWs c = false)
    (hl : ∀ c, (chars s).getLast? = some c → isPyWs c = false) : pyStrip s = s := by
  rw [pyStrip, stripC_id _ (take_one_head hh) (take_one_rev hl), str_chars]

/-- A CSV-safe key/remainder pair: the key is nonempty, comma-free, with
non-whitespace end characters, and both fields are free of newline
characters, with the remainder either empty or ending in non-whitespace.
Exactly the shape of every line the script itself writes. -/
def csvCleanPair (pr : String × String) : Prop :=
  ¬ chars pr.1 = []
  ∧ (∀ c ∈ chars pr.1, ¬ c = ',')
  ∧ (∀ c, (chars pr.1).head? = some c → isPyWs c = false)
  ∧ (∀ c, (chars pr.1).getLast? = some c → isPyWs c = false)
  ∧ (∀ c, (chars pr.2).getLast? = some c → isPyWs c = false)
  ∧ (∀ c ∈ chars pr.1, ¬ c = '\n' ∧ ¬ c = '\r')
  ∧ (∀ c ∈ chars pr.2, ¬ c = '\n' ∧ ¬ c = '\r')

theorem csvLineStep_pair (d : List (String × String)) (name rem : String)
    (h : csvCleanPair (name, rem)) :
    csvLineStep d (name ++ "," ++ rem) = updateA d name rem := by
  obtain ⟨hn0, hnc, hh, hl, hr, -, -⟩ := h
  have hline : chars (name ++ "," ++ rem) = chars name ++ ',' :: chars rem := by
    rw [chars_append3]
    rfl
  have hstrip : pyStrip (name ++ "," ++ rem) = name ++ "," ++ rem := by
    apply pyStrip_id_ends
    · intro c hc
      rw [hline] at hc
      cases hn : chars name with
      | nil => exact absurd hn hn0
      | cons a t =>
        rw [hn, List.cons_append, List.head?_cons] at hc
        injection hc with hc
        subst hc
        apply hh
        rw [hn]
        rfl
    · intro c hc
      rw [hline, getLast?_append_cons] at hc
      cases hrm : chars rem with
      | nil =>
        rw [hrm] at hc
        injection hc with hc
        subst hc
        decide
      | cons b t =>
        rw [hrm, List.getLast?_cons_cons] at hc
        apply hr
        rw [hrm]
        exact hc
  have hne : ¬ (name ++ "," ++ rem) = "" := by
    intro hcontra
    have hnil : chars (name ++ "," ++ rem) = [] := by rw [hcontra]; rfl
    rw [hline] at hnil
    cases hn : chars name with
    | nil => exact hn0 hn
    | cons a t => rw [hn] at hnil; simp at hnil
  rw [csvLineStep]
  rw [hstrip, if_neg hne, hline]
  rw [findIdx?_append_sep ',' (chars name) (chars rem) 0 hnc]
  dsimp only
  rw [if_pos (by
    rw [Nat.zero_add]
    cases hn : chars name with
    | nil => exact absurd hn hn0
    | cons a t => simp)]
  rw [Nat.zero_add, take_len, drop_len_succ, str_chars, str_chars,
    pyStrip_id_ends name hh hl]

theorem csvLineStep_blank (d : List (String × String)) : csvLineStep d "" = d := rfl

theorem foldl_csvLineStep_pairs : ∀ (pairs : List (String × String)) (d : List (String × String)),
    (∀ pr ∈ pairs, csvCleanPair pr) →
    (pairs.map (fun pr => pr.1 ++ "," ++ pr.2)).foldl csvLineStep d
      = pairs.foldl (fun acc pr => updateA acc pr.1 pr.2) d
  | [], d, _ => rfl
  | pr :: rest, d, h => by
    rw [List.map_cons, List.foldl_cons, List.foldl_cons,
      csvLineStep_pair d pr.1 pr.2 (h pr (List.mem_cons_self _ _))]
    exact foldl_csvLineStep_pairs rest _ (fun q hq => h q (List.mem_cons_of_mem _ hq))

theorem loadCsvContent_pairs (pairs : List (String × String))
    (hne : ¬ pairs = []) (h : ∀ pr ∈ pairs, csvCleanPair pr) :
    loadCsvContent (joinNl (pairs.map (fun pr => pr.1 ++ "," ++ pr.2)))
      = pairs.foldl (fun acc pr => updateA acc pr.1 pr.2) [] := by
  rw [loadCsvContent]
  rw [readLines_joinNl (pairs.map (fun pr => pr.1 ++ "," ++ pr.2))
    (by simpa using hne) ?hargs]
  case hargs =>
    intro l hlmem c hc
    rcases List.mem_map.mp hlmem with ⟨pr, hpr, rfl⟩
    obtain ⟨-, -, -, -, -, h6, h7⟩ := h pr hpr
    have hline : chars (pr.1 ++ "," ++ pr.2) = chars pr.1 ++ ',' :: chars pr.2 := by
      rw [chars_append3]
      rfl
    rw [hline] at hc
    rcases List.mem_append.mp hc with h1 | h1
    · exact h6 c h1
    · rcases List.mem_cons.mp h1 with h2 | h2
      · subst h2; exact ⟨by decide, by decide⟩
      · exact h7 c h2
  rw [List.foldl_append, List.foldl_cons, csvLineStep_blank, List.foldl_nil]
  exact foldl_csvLineStep_pairs pairs [] h

theorem lookupA_loadCsv_pairs (pairs : List (String × String))
    (hne : ¬ pairs = []) (h : ∀ pr ∈ pairs, csvCleanPair pr)
    (hnd : (pairs.map Prod.fst).Nodup) (k v : String) (hmem : (k, v) ∈ pairs) :
    lookupA (loadCsvContent (joinNl (pairs.map (fun pr => pr.1 ++ "," ++ pr.2)))) k
      = some v := by
  rw [loadCsvContent_pairs pairs hne h,
    foldl_updateA_fresh pairs [] (fun pr _ => rfl) hnd, List.nil_append]
  exact lookupA_of_mem pairs k v hnd hmem

/-! ## Pipe-keyed load: fold shape and record invariants -/

theorem pipeLineStep_stripped (d : List (String × String)) (L : String)
    (hs : pyStrip L = L) (hne : ¬ L = "") :
    pipeLineStep d L = updateA d (pipeKey L) L := by
  rw [pipeLineStep]
  rw [hs, if_neg hne]

theorem pipeLineStep_blank (d : List (String × String)) : pipeLineStep d "" = d := rfl

theorem foldl_pipeLineStep : ∀ (lines : List String) (d : List (String × String)),
    (∀ L ∈ lines, pyStrip L = L ∧ ¬ L = "") →
    lines.foldl pipeLineStep d
      = lines.foldl (fun acc L => updateA acc (pipeKey L) L) d
  | [], _, _ => rfl
  | L :: rest, d, h => by
    rw [List.foldl_cons, List.foldl_cons,
      pipeLineStep_stripped d L (h L (List.mem_cons_self _ _)).1 (h L (List.mem_cons_self _ _)).2]
    exact foldl_pipeLineStep rest _ (fun l hl => h l (List.mem_cons_of_mem _ hl))

theorem pipeKey_of_append (key rest : String) (hk : ∀ c ∈ chars key, ¬ c = '|') :
    pipeKey (key ++ "|" ++ rest) = key := by
  have hline : chars (key ++ "|" ++ rest) = chars key ++ '|' :: chars rest := by
    rw [chars_append3]
    rfl
  rw [pipeKey, hline, splitCh_append_sep '|' (chars key) (chars rest) hk]
  rw [List.headI, str_chars]

theorem loadPipeKeyed_joinNl (lines : List String) (hne : ¬ lines = [])
    (h : ∀ L ∈ lines, pyStrip L = L ∧ ¬ L = "" ∧ ∀ c ∈ chars L, ¬ c = '\n' ∧ ¬ c = '\r')
    (hnd : (lines.map pipeKey).Nodup) :
    loadPipeKeyed (joinNl lines) = lines.map (fun L => (pipeKey L, L)) := by
  rw [loadPipeKeyed]
  rw [readLines_joinNl lines hne (fun l hl => (h l hl).2.2)]
  rw [List.foldl_append, List.foldl_cons, pipeLineStep_blank, List.foldl_nil]
  rw [foldl_pipeLineStep lines [] (fun l hl => ⟨(h l hl).1, (h l hl).2.1⟩)]
  have hmap : lines.foldl (fun acc L => updateA acc (pipeKey L) L) []
      = (lines.map (fun L => (pipeKey L, L))).foldl (fun acc pr => updateA acc pr.1 pr.2) [] := by
    rw [List.foldl_map]
  rw [hmap, foldl_updateA_fresh _ [] (fun pr _ => rfl)
    (by rw [List.map_map]; exact hnd), List.nil_append]

theorem lookupA_loadPipe_joinNl (lines : List String) (hne : ¬ lines = [])
    (h : ∀ L ∈ lines, pyStrip L = L ∧ ¬ L = "" ∧ ∀ c ∈ chars L, ¬ c = '\n' ∧ ¬ c = '\r')
    (hnd : (lines.map pipeKey).Nodup) (L : String) (hL : L ∈ lines) :
    lookupA (loadPipeKeyed (joinNl lines)) (pipeKey L) = some L := by
  rw [loadPipeKeyed_joinNl lines hne h hnd]
  apply lookupA_of_mem
  · rw [List.map_map]
    exact hnd
  · exact List.mem_map_of_mem _ hL

/-- Every line yielded by the read loop strips to a newline-free string. -/
theorem readLines_strip_facts (c : String) (l : String) (hl : l ∈ readLines c) :
    ∀ ch ∈ chars (pyStrip l), ¬ ch = '\n' ∧ ¬ ch = '\r' := by
  intro ch hch
  rw [pyStrip, chars_str] at hch
  have hch' := mem_stripC hch
  rw [readLines] at hl
  rcases List.mem_map.mp hl with ⟨piece, hp, rfl⟩
  rw [chars_str] at hch'
  exact ⟨splitCh_no_sep '\n' (normNl (chars c)) piece hp ch hch',
    normNl_no_cr (chars c) ch (splitCh_subset '\n' (normNl (chars c)) piece hp ch hch')⟩

/-- The invariant of every record of a pipe-keyed load: keyed by its own
first pipe field, strip-stable, non-blank and newline-free. -/
def pipeRecOK (pr : String × String) : Prop :=
  pr.1 = pipeKey pr.2 ∧ pyStrip pr.2 = pr.2 ∧ ¬ pr.2 = ""
  ∧ ∀ c ∈ chars pr.2, ¬ c = '\n' ∧ ¬ c = '\r'

theorem foldl_pipeLineStep_inv : ∀ (ls : List String) (d : List (String × String)),
    (∀ pr ∈ d, pipeRecOK pr) →
    (∀ l ∈ ls, ∀ ch ∈ chars (pyStrip l), ¬ ch = '\n' ∧ ¬ ch = '\r') →
    ∀ pr ∈ ls.foldl pipeLineStep d, pipeRecOK pr
  | [], d, hd, _ => hd
  | l :: rest, d, hd, hls => by
    rw [List.foldl_cons]
    apply foldl_pipeLineStep_inv rest _ ?_ (fun x hx => hls x (List.mem_cons_of_mem _ hx))
    intro pr hpr
    rw [pipeLineStep] at hpr
    split at hpr
    · exact hd pr hpr
    · rcases updateA_mem hpr with h1 | h1
      · exact hd pr h1
      · subst h1
        refine ⟨rfl, pyStrip_idem l, by assumption, hls l (List.mem_cons_self _ _)⟩

theorem loadPipeKeyed_mem (c : String) : ∀ pr ∈ loadPipeKeyed c, pipeRecOK pr := by
  rw [loadPipeKeyed]
  exact foldl_pipeLineStep_inv (readLines c) [] (by intro pr h; simp at h)
    (fun l hl => readLines_strip_facts c l hl)

/-- The invariant of every record of a CSV load: the remainder is
newline-free and, when non-empty, ends in non-whitespace. -/
def csvRecOK (pr : String × String) : Prop :=
  (∀ c ∈ chars pr.2, ¬ c = '\n' ∧ ¬ c = '\r')
  ∧ (∀ c, (chars pr.2).getLast? = some c → isPyWs c = false)

theorem foldl_csvLineStep_inv : ∀ (ls : List String) (d : List (String × String)),
    (∀ pr ∈ d, csvRecOK pr) →
    (∀ l ∈ ls, ∀ ch ∈ chars (pyStrip l), ¬ ch = '\n' ∧ ¬ ch = '\r') →
    ∀ pr ∈ ls.foldl csvLineStep d, csvRecOK pr
  | [], d, hd, _ => hd
  | l :: rest, d, hd, hls => by
    rw [List.foldl_cons]
    apply foldl_csvLineStep_inv rest _ ?_ (fun x hx => hls x (List.mem_cons_of_mem _ hx))
    intro pr hpr
    rw [csvLineStep] at hpr
    split at hpr
    · exact hd pr hpr
    · split at hpr
      · exact hd pr hpr
      · split at hpr
        · rcases updateA_mem hpr with h1 | h1
          · exact hd pr h1
          · subst h1
            constructor
            · intro ch hch
              rw [chars_str] at hch
              exact hls l (List.mem_cons_self _ _) ch
                (by
                  rw [pyStrip, chars_str]
                  exact List.drop_subset _ _ hch)
            · intro ch hch
              rw [chars_str] at hch
              rw [getLast?_drop_ne _ _ (by
                intro hd0
                rw [hd0] at hch
                simp at hch)] at hch
              apply @stripC_last_false (chars l)
              rw [pyStrip, chars_str] at hch
              exact hch
        · exact hd pr hpr

theorem loadCsvContent_mem (c : String) : ∀ pr ∈ loadCsvContent c, csvRecOK pr := by
  rw [loadCsvContent]
  exact foldl_csvLineStep_inv (readLines c) [] (by intro pr h; simp at h)
    (fun l hl => readLines_strip_facts c l hl)

/-! ## Keys, clean names and the synthesized catalog line -/

theorem key_inj {p1 n1 p2 n2 : String}
    (hp1 : ∀ c ∈ chars p1, ¬ c = '/') (hp2 : ∀ c ∈ chars p2, ¬ c = '/')
    (h : p1 ++ "/" ++ n1 = p2 ++ "/" ++ n2) : p1 = p2 ∧ n1 = n2 := by
  have hc : chars p1 ++ '/' :: chars n1 = chars p2 ++ '/' :: chars n2 := by
    have h1 : chars (p1 ++ "/" ++ n1) = chars p1 ++ '/' :: chars n1 := by
      rw [chars_append3]; rfl
    have h2 : chars (p2 ++ "/" ++ n2) = chars p2 ++ '/' :: chars n2 := by
      rw [chars_append3]; rfl
    rw [← h1, ← h2, h]
  have hf1 := findIdx?_append_sep '/' (chars p1) (chars n1) 0 hp1
  have hf2 := findIdx?_append_sep '/' (chars p2) (chars n2) 0 hp2
  rw [hc, hf2] at hf1
  injection hf1 with hlen
  have hlen' : (chars p2).length = (chars p1).length := by omega
  have hp : chars p1 = chars p2 := by
    have ht := congrArg (fun l : List Char => l.take (chars p1).length) hc
    dsimp only at ht
    rw [take_len] at ht
    rw [← hlen', take_len] at ht
    exact ht
  refine ⟨by rw [← str_chars p1, hp, str_chars], ?_⟩
  have hn : chars n1 = chars n2 := by
    rw [hp] at hc
    have h3 := List.append_cancel_left hc
    injection h3
  rw [← str_chars n1, hn, str_chars]

/-- A nonempty character list whose two end characters are not Python
whitespace. -/
def nonWsEnds (cs : List Char) : Bool :=
  match cs.head? with
  | none => false
  | some a =>
    match cs.getLast? with
    | none => false
    | some b => !isPyWs a && !isPyWs b

theorem nonWsEnds_facts {cs : List Char} (h : nonWsEnds cs = true) :
    ¬ cs = [] ∧ (∀ c, cs.head? = some c → isPyWs c = false)
    ∧ (∀ c, cs.getLast? = some c → isPyWs c = false) := by
  rw [nonWsEnds] at h
  cases hh : cs.head? with
  | none => rw [hh] at h; exact absurd h (by simp)
  | some a =>
    rw [hh] at h
    dsimp only at h
    cases hl : cs.getLast? with
    | none => rw [hl] at h; exact absurd h (by simp)
    | some b =>
      rw [hl] at h
      dsimp only at h
      rw [Bool.and_eq_true] at h
      refine ⟨?_, ?_, ?_⟩
      · intro h0; rw [h0] at hh; simp at hh
      · intro c hc
        injection hc with hc
        subst hc
        simpa using h.1
      · intro c hc
        injection hc with hc
        subst hc
        simpa using h.2

/-- A name that every processing step of the script leaves verbatim: its
ends and its stem's ends are non-whitespace (so `str.strip` keeps it),
and it contains no comma (sanitize), newline (line splitting) or pipe
(key extraction); likewise for the uppercased stem it may be displayed
as. -/
def cleanName (n : String) : Bool :=
  nonWsEnds (chars n)
  && !(chars n).any (fun c => c = ',' || c = '\n' || c = '\r' || c = '|')
  && nonWsEnds (pyStemC (chars n))
  && !(chars (upperStr (pyStem n))).any (fun c => c = '\n' || c = '\r')

theorem cleanName_facts {n : String} (h : cleanName n = true) :
    (¬ chars n = [] ∧ (∀ c, (chars n).head? = some c → isPyWs c = false)
      ∧ (∀ c, (chars n).getLast? = some c → isPyWs c = false))
    ∧ (∀ c ∈ chars n, ¬ c = ',' ∧ ¬ c = '\n' ∧ ¬ c = '\r' ∧ ¬ c = '|')
    ∧ (¬ pyStemC (chars n) = []
      ∧ (∀ c, (pyStemC (chars n)).head? = some c → isPyWs c = false)
      ∧ (∀ c, (pyStemC (chars n)).getLast? = some c → isPyWs c = false))
    ∧ (∀ c ∈ chars (upperStr (pyStem n)), ¬ c = '\n' ∧ ¬ c = '\r') := by
  rw [cleanName, Bool.and_eq_true, Bool.and_eq_true, Bool.and_eq_true] at h
  obtain ⟨⟨⟨h1, h2⟩, h3⟩, h4⟩ := h
  refine ⟨nonWsEnds_facts h1, ?_, nonWsEnds_facts h3, ?_⟩
  · intro c hc
    rw [Bool.not_eq_true', List.any_eq_false] at h2
    have h5 := h2 c hc
    simp only [Bool.or_eq_true, decide_eq_true_eq, not_or] at h5
    exact ⟨h5.1.1.1, h5.1.1.2, h5.1.2, h5.2⟩
  · intro c hc
    rw [Bool.not_eq_true', List.any_eq_false] at h4
    have h5 := h4 c hc
    simp only [Bool.or_eq_true, decide_eq_true_eq, not_or] at h5
    exact h5

/-- The platform identifiers contain no separator characters and no
whitespace. -/
theorem platform_chars_ok : ∀ p ∈ PLATFORMS,
    (¬ chars p = [])
    ∧ ∀ c ∈ chars p, ¬ c = '/' ∧ ¬ c = '|' ∧ ¬ c = '\n' ∧ ¬ c = '\r'
      ∧ isPyWs c = false := by decide

theorem getLast?_cons_ne {α : Type} (x : α) (l : List α) (h : ¬ l = []) :
    (x :: l).getLast? = l.getLast? := by
  cases l with
  | nil => exact absurd rfl h
  | cons b t => rw [List.getLast?_cons_cons]

/-- The catalog line chosen for one GameFile: the loaded line of its key
when present, the synthesized `key|stem|STEM|stem|stem` line otherwise
(the per-entry body of `allfilesLines`). -/
def afLine (old : List (String × String)) (p : String) (rom : FsFile) : String :=
  match lookupA old (p ++ "/" ++ rom.name) with
  | some line => line
  | none =>
    p ++ "/" ++ rom.name ++ "|" ++ pyStem rom.name ++ "|" ++ upperStr (pyStem rom.name)
      ++ "|" ++ pyStem rom.name ++ "|" ++ pyStem rom.name

theorem allfilesLines_eq (s : SdState) (old : List (String × String)) :
    allfilesLines s old
      = (PLATFORMS.map (fun p => (romsOfPlatform s p).map (afLine old p))).flatten := rfl

theorem chars_synth_line (k d u : String) :
    chars (k ++ "|" ++ d ++ "|" ++ u ++ "|" ++ d ++ "|" ++ d)
      = chars k ++ '|' :: (chars d ++ '|' :: (chars u ++ '|' :: (chars d ++ '|' :: chars d))) := by
  simp only [chars_append, List.append_assoc, List.cons_append, List.nil_append]
  rfl

theorem afLine_facts (old : List (String × String)) (p : String) (rom : FsFile)
    (hold : ∀ pr ∈ old, pipeRecOK pr)
    (hp : p ∈ PLATFORMS) (hc : cleanName rom.name = true) :
    pipeKey (afLine old p rom) = p ++ "/" ++ rom.name
    ∧ pyStrip (afLine old p rom) = afLine old p rom
    ∧ ¬ afLine old p rom = ""
    ∧ ∀ c ∈ chars (afLine old p rom), ¬ c = '\n' ∧ ¬ c = '\r' := by
  rw [afLine]
  cases hlk : lookupA old (p ++ "/" ++ rom.name) with
  | some line =>
    have hrec := hold _ (lookupA_mem hlk)
    exact ⟨hrec.1.symm, hrec.2.1, hrec.2.2.1, hrec.2.2.2⟩
  | none =>
    obtain ⟨hpc0, hpcs⟩ := platform_chars_ok p hp
    obtain ⟨⟨hn0, hnh, hnl⟩, hnchars, ⟨hs0, hsh, hsl⟩, hup⟩ := cleanName_facts hc
    have hchars := chars_synth_line (p ++ "/" ++ rom.name) (pyStem rom.name)
      (upperStr (pyStem rom.name))
    have hkchars : chars (p ++ "/" ++ rom.name) = chars p ++ '/' :: chars rom.name := by
      rw [chars_append3]; rfl
    have hkpipe : ∀ c ∈ chars (p ++ "/" ++ rom.name), ¬ c = '|' := by
      intro c hcm
      rw [hkchars] at hcm
      rcases List.mem_append.mp hcm with h1 | h1
      · exact (hpcs c h1).2.1
      · rcases List.mem_cons.mp h1 with h2 | h2
        · subst h2; decide
        · exact (hnchars c h2).2.2.2
    have hdne : ¬ chars (pyStem rom.name) = [] := hs0
    have hdsub : ∀ c ∈ chars (pyStem rom.name), c ∈ chars rom.name :=
      fun c hcd => List.take_subset _ _ hcd
    refine ⟨?_, ?_, ?_, ?_⟩
    · rw [pipeKey, hchars, splitCh_append_sep '|' _ _ hkpipe, List.headI, str_chars]
    · apply pyStrip_id_ends
      · intro c hcm
        rw [hchars] at hcm
        cases hpp : chars p with
        | nil => exact absurd hpp hpc0
        | cons a t =>
          rw [hkchars, hpp, List.cons_append, List.cons_append, List.head?_cons] at hcm
          injection hcm with hcm
          subst hcm
          exact (hpcs _ (by rw [hpp]; exact List.mem_cons_self _ _)).2.2.2.2
      · intro c hcm
        rw [hchars, getLast?_append_cons, getLast?_cons_ne _ _ (by simp),
          getLast?_append_cons, getLast?_cons_ne _ _ (by simp),
          getLast?_append_cons, getLast?_cons_ne _ _ (by simp),
          getLast?_append_cons, getLast?_cons_ne _ _ hdne] at hcm
        exact hsl c hcm
    · intro h0
      dsimp only at h0
      have hnil : chars (p ++ "/" ++ rom.name ++ "|" ++ pyStem rom.name
          ++ "|" ++ upperStr (pyStem rom.name) ++ "|" ++ pyStem rom.name
          ++ "|" ++ pyStem rom.name) = [] := by rw [h0]; rfl
      rw [hchars] at hnil
      simp at hnil
    · intro c hcm
      rw [hchars] at hcm
      have hkcase : c ∈ chars (p ++ "/" ++ rom.name) → ¬ c = '\n' ∧ ¬ c = '\r' := by
        intro h1
        rw [hkchars] at h1
        rcases List.mem_append.mp h1 with h2 | h2
        · exact ⟨(hpcs c h2).2.2.1, (hpcs c h2).2.2.2.1⟩
        · rcases List.mem_cons.mp h2 with h3 | h3
          · subst h3; exact ⟨by decide, by decide⟩
          · exact ⟨(hnchars c h3).2.1, (hnchars c h3).2.2.1⟩
      have hdcase : c ∈ chars (pyStem rom.name) → ¬ c = '\n' ∧ ¬ c = '\r' := by
        intro h1
        exact ⟨(hnchars c (hdsub c h1)).2.1, (hnchars c (hdsub c h1)).2.2.1⟩
      rcases List.mem_append.mp hcm with h1 | h1
      · exact hkcase h1
      · rcases List.mem_cons.mp h1 with h2 | h2
        · subst h2; exact ⟨by decide, by decide⟩
        · rcases List.mem_append.mp h2 with h3 | h3
          · exact hdcase h3
          · rcases List.mem_cons.mp h3 with h4 | h4
            · subst h4; exact ⟨by decide, by decide⟩
            · rcases List.mem_append.mp h4 with h5 | h5
              · exact hup c h5
              · rcases List.mem_cons.mp h5 with h6 | h6
                · subst h6; exact ⟨by decide, by decide⟩
                · rcases List.mem_append.mp h6 with h7 | h7
                  · exact hdcase h7
                  · rcases List.mem_cons.mp h7 with h8 | h8
                    · subst h8; exact ⟨by decide, by decide⟩
                    · exact hdcase h8

theorem validRomKeys_eq (s : SdState) :
    validRomKeys s
      = (PLATFORMS.map (fun p =>
          (romsOfPlatform s p).map (fun rom => p ++ "/" ++ rom.name))).flatten := rfl

theorem validRomKeys_nodup (s : SdState)
    (hnd : ∀ p ∈ PLATFORMS, ((romsOfPlatform s p).map (fun f => f.name)).Nodup) :
    (validRomKeys s).Nodup := by
  rw [validRomKeys_eq, List.nodup_flatten]
  constructor
  · intro l' hl'
    rcases List.mem_map.mp hl' with ⟨p, hp, rfl⟩
    have hmm : (romsOfPlatform s p).map (fun rom => p ++ "/" ++ rom.name)
        = ((romsOfPlatform s p).map (fun f => f.name)).map (fun n => p ++ "/" ++ n) := by
      rw [List.map_map]
      rfl
    rw [hmm]
    apply List.Nodup.map ?_ (hnd p hp)
    intro n1 n2 he
    have hc := congrArg chars he
    rw [chars_append3, chars_append3] at hc
    have hc2 := List.append_cancel_left hc
    have hc3 := List.append_cancel_left hc2
    rw [← str_chars n1, hc3, str_chars]
  · have hpw : PLATFORMS.Pairwise (fun p q => ¬ p = q) := by decide
    rw [List.pairwise_map]
    apply List.Pairwise.imp_of_mem ?_ hpw
    intro p q hp hq hne key hkp hkq
    rcases List.mem_map.mp hkp with ⟨r1, -, he1⟩
    rcases List.mem_map.mp hkq with ⟨r2, -, he2⟩
    apply hne
    exact (key_inj (fun c hc => (platform_chars_ok p hp).2 c hc |>.1)
      (fun c hc => (platform_chars_ok q hq).2 c hc |>.1) (he1.trans he2.symm)).1

theorem allfilesLines_roundtrip (s : SdState) (old : List (String × String))
    (hold : ∀ pr ∈ old, pipeRecOK pr)
    (hclean : ∀ p ∈ PLATFORMS, ∀ rom ∈ romsOfPlatform s p, cleanName rom.name = true)
    (hnd : (validRomKeys s).Nodup)
    (hne : ¬ allfilesLines s old = []) :
    allfilesLines s (loadPipeKeyed (joinNl (allfilesLines s old))) = allfilesLines s old := by
  have hmemline : ∀ L ∈ allfilesLines s old,
      ∃ p, p ∈ PLATFORMS ∧ ∃ rom, rom ∈ romsOfPlatform s p ∧ L = afLine old p rom := by
    intro L hL
    rw [allfilesLines_eq, List.mem_flatten] at hL
    rcases hL with ⟨l', hl', hLl⟩
    rcases List.mem_map.mp hl' with ⟨p, hp, rfl⟩
    rcases List.mem_map.mp hLl with ⟨rom, hrom, he⟩
    exact ⟨p, hp, rom, hrom, he.symm⟩
  have hfacts : ∀ L ∈ allfilesLines s old,
      pyStrip L = L ∧ ¬ L = "" ∧ ∀ c ∈ chars L, ¬ c = '\n' ∧ ¬ c = '\r' := by
    intro L hL
    rcases hmemline L hL with ⟨p, hp, rom, hrom, rfl⟩
    have hf := afLine_facts old p rom hold hp (hclean p hp rom hrom)
    exact ⟨hf.2.1, hf.2.2.1, hf.2.2.2⟩
  have hkeys : (allfilesLines s old).map pipeKey = validRomKeys s := by
    rw [allfilesLines_eq, validRomKeys_eq, List.map_flatten, List.map_map]
    congr 1
    apply List.map_congr_left
    intro p hp
    dsimp only [Function.comp]
    rw [List.map_map]
    apply List.map_congr_left
    intro rom hrom
    exact (afLine_facts old p rom hold hp (hclean p hp rom hrom)).1
  have hnd' : ((allfilesLines s old).map pipeKey).Nodup := by rw [hkeys]; exact hnd
  have hload := loadPipeKeyed_joinNl (allfilesLines s old) hne hfacts hnd'
  rw [allfilesLines_eq s (loadPipeKeyed (joinNl (allfilesLines s old))),
    allfilesLines_eq s old]
  congr 1
  apply List.map_congr_left
  intro p hp
  apply List.map_congr_left
  intro rom hrom
  have hf := afLine_facts old p rom hold hp (hclean p hp rom hrom)
  have hmem : afLine old p rom ∈ allfilesLines s old := by
    rw [allfilesLines_eq, List.mem_flatten]
    exact ⟨(romsOfPlatform s p).map (afLine old p), List.mem_map_of_mem _ hp,
      List.mem_map_of_mem _ hrom⟩
  have hpair : (p ++ "/" ++ rom.name, afLine old p rom)
      ∈ (allfilesLines s old).map (fun L => (pipeKey L, L)) := by
    have := List.mem_map_of_mem (fun L => (pipeKey L, L)) hmem
    dsimp only at this
    rw [hf.1] at this
    exact this
  have hlook : lookupA (loadPipeKeyed (joinNl (allfilesLines s old))) (p ++ "/" ++ rom.name)
      = some (afLine old p rom) := by
    rw [hload]
    apply lookupA_of_mem _ _ _ ?_ hpair
    rw [List.map_map]
    exact hnd'
  rw [allfilesLines_eq s old] at hlook
  rw [afLine, hlook]

/-! ## Execute-mode step-2 characterization -/

theorem string_eq_of_chars {a b : String} (h : chars a = chars b) : a = b := by
  rw [← str_chars a, h, str_chars]

theorem mem_of_contains {l : List String} {x : String} (h : l.contains x = true) : x ∈ l := by
  simpa using h

theorem mem_foldl_removeFile : ∀ (dups : List FsFile) (fs : List FsFile) (f : FsFile),
    f ∈ dups.foldl (fun fs d => removeFile fs d.name) fs
      ↔ (f ∈ fs ∧ ∀ d ∈ dups, ¬ f.name = d.name)
  | [], fs, f => by simp
  | d0 :: rest, fs, f => by
    rw [List.foldl_cons, mem_foldl_removeFile rest (removeFile fs d0.name) f]
    rw [removeFile, List.mem_filter]
    constructor
    · rintro ⟨⟨h1, h2⟩, h3⟩
      refine ⟨h1, ?_⟩
      intro d hd
      rcases List.mem_cons.mp hd with h4 | h4
      · subst h4; simpa using h2
      · exact h3 d h4
    · rintro ⟨h1, h2⟩
      refine ⟨⟨h1, ?_⟩, fun d hd => h2 d (List.mem_cons_of_mem _ hd)⟩
      simpa using h2 d0 (List.mem_cons_self _ _)

theorem foldl_removeFile_sublist : ∀ (dups : List FsFile) (fs : List FsFile),
    (dups.foldl (fun fs d => removeFile fs d.name) fs).Sublist fs
  | [], fs => List.Sublist.refl fs
  | d0 :: rest, fs => by
    rw [List.foldl_cons]
    exact (foldl_removeFile_sublist rest (removeFile fs d0.name)).trans (List.filter_sublist fs)

theorem mem_getRoms {pd : PlatformDir} {exts : List String} {f : FsFile} :
    f ∈ getRoms pd exts ↔ (f ∈ pd.files ∧ isRomName exts f.name = true) := by
  rw [getRoms, (List.perm_insertionSort _ _).mem_iff, List.mem_filter]

theorem getRoms_names_nodup {pd : PlatformDir} {exts : List String}
    (h : ((pd.files.filter (fun f => isRomName exts f.name)).map (fun f => f.name)).Nodup) :
    ((getRoms pd exts).map (fun f => f.name)).Nodup := by
  rw [getRoms]
  exact ((List.perm_insertionSort _ _).map (fun f : FsFile => f.name)).nodup_iff.mpr h

/-- The one CSV line written for one GameFile: the loaded remainder kept
verbatim after the name, or the synthesized `name,stem,stem` default. -/
def csvLineOf (old : List (String × String)) (rom : FsFile) : String :=
  match lookupA old rom.name with
  | some rest => rom.name ++ "," ++ rest
  | none => rom.name ++ "," ++ pyStem rom.name ++ "," ++ pyStem rom.name

/-- The remainder-of-line of that CSV line. -/
def remOf (old : List (String × String)) (rom : FsFile) : String :=
  match lookupA old rom.name with
  | some rest => rest
  | none => pyStem rom.name ++ "," ++ pyStem rom.name

theorem csvLineOf_eq (old : List (String × String)) (rom : FsFile) :
    csvLineOf old rom = rom.name ++ "," ++ remOf old rom := by
  rw [csvLineOf, remOf]
  cases lookupA old rom.name with
  | some rest => rfl
  | none =>
    dsimp only
    conv_rhs => rw [← String.append_assoc (rom.name ++ ",") (pyStem rom.name ++ ",")
        (pyStem rom.name),
      ← String.append_assoc (rom.name ++ ",") (pyStem rom.name) ","]

/-- The root files left by the execute-mode duplicate-deletion loop. -/
def files3Of (p : String) (pd : PlatformDir) : List FsFile :=
  (dupTargets (getRoms pd (romExtMap p))).foldl (fun fs d => removeFile fs d.name) pd.files

/-- The GameFiles recomputed after duplicate deletion. -/
def survivorsOf (p : String) (pd : PlatformDir) : List FsFile :=
  getRoms { files := files3Of p pd, images := none, filelist := none } (romExtMap p)

/-- The directory an execute-mode step-2 chunk leaves behind, for a
directory holding GameFiles and no loose root images. -/
def runDir (p : String) (pd : PlatformDir) : PlatformDir :=
  { files := files3Of p pd,
    images := some ((pd.images.getD []).filter (fun f =>
      ((survivorsOf p pd).map (fun g => pyStem g.name)).contains (pyStem f.name))),
    filelist := some (joinNl ((survivorsOf p pd).map (csvLineOf (loadCsv pd.filelist)))) }

theorem survivors_sub (p : String) (pd : PlatformDir) :
    ∀ f ∈ survivorsOf p pd, f ∈ getRoms pd (romExtMap p) := by
  intro f hf
  rw [survivorsOf, mem_getRoms] at hf
  rw [mem_getRoms]
  exact ⟨((mem_foldl_removeFile (dupTargets (getRoms pd (romExtMap p))) pd.files f).mp
    hf.1).1, hf.2⟩

theorem survivors_not_dup (p : String) (pd : PlatformDir) :
    ∀ f ∈ survivorsOf p pd, ∀ d ∈ dupTargets (getRoms pd (romExtMap p)), ¬ f.name = d.name := by
  intro f hf
  rw [survivorsOf, mem_getRoms] at hf
  exact ((mem_foldl_removeFile (dupTargets (getRoms pd (romExtMap p))) pd.files f).mp hf.1).2

theorem zip_not_dup {roms : List FsFile} {z d : FsFile} (hz : pySuffix z.name = ".zip")
    (hd : d ∈ dupTargets roms) : ¬ z.name = d.name := by
  rw [dupTargets, List.mem_filter] at hd
  intro he
  have h2 := hd.2
  rw [Bool.and_eq_true] at h2
  have h3 : ¬ pySuffix d.name = ".zip" := by simpa using h2.1
  rw [← he, hz] at h3
  exact h3 rfl

theorem survivors_mem_of (p : String) (pd : PlatformDir) {z : FsFile}
    (hz : z ∈ getRoms pd (romExtMap p))
    (hzs : ∀ d ∈ dupTargets (getRoms pd (romExtMap p)), ¬ z.name = d.name) :
    z ∈ survivorsOf p pd := by
  rw [survivorsOf, mem_getRoms]
  rw [mem_getRoms] at hz
  exact ⟨(mem_foldl_removeFile (dupTargets (getRoms pd (romExtMap p))) pd.files z).mpr
    ⟨hz.1, hzs⟩, hz.2⟩

theorem survivorsOf_ne_nil (p : String) (pd : PlatformDir)
    (hr : ¬ getRoms pd (romExtMap p) = []) : ¬ survivorsOf p pd = [] := by
  cases hd : dupTargets (getRoms pd (romExtMap p)) with
  | nil =>
    have hs : survivorsOf p pd = getRoms pd (romExtMap p) := by
      rw [survivorsOf]
      apply getRoms_congr_files
      show files3Of p pd = pd.files
      rw [files3Of, hd]
      rfl
    rw [hs]
    exact hr
  | cons d0 rest =>
    have hd0 : d0 ∈ dupTargets (getRoms pd (romExtMap p)) := by
      rw [hd]
      exact List.mem_cons_self _ _
    rw [dupTargets, List.mem_filter] at hd0
    have h2 := hd0.2
    rw [Bool.and_eq_true] at h2
    have h3 := mem_of_contains h2.2
    rcases List.mem_map.mp h3 with ⟨z, hz, hzstem⟩
    have hzf := List.mem_filter.mp hz
    have hzsuf : pySuffix z.name = ".zip" := by simpa using hzf.2
    have hzsur : z ∈ survivorsOf p pd :=
      survivors_mem_of p pd hzf.1 (fun d hdm => zip_not_dup hzsuf hdm)
    intro h0
    rw [h0] at hzsur
    simp at hzsur

theorem dupTargets_survivors (p : String) (pd : PlatformDir) :
    dupTargets (survivorsOf p pd) = [] := by
  rw [dupTargets]
  rw [List.filter_eq_nil_iff]
  intro r hr hcond
  rw [Bool.and_eq_true] at hcond
  have hns : ¬ pySuffix r.name = ".zip" := by simpa using hcond.1
  have h3 := mem_of_contains hcond.2
  rcases List.mem_map.mp h3 with ⟨z, hz, hzstem⟩
  have hzf := List.mem_filter.mp hz
  have hzsuf : pySuffix z.name = ".zip" := by simpa using hzf.2
  have hrrom := survivors_sub p pd r hr
  have hzrom := survivors_sub p pd z hzf.1
  have hrd : r ∈ dupTargets (getRoms pd (romExtMap p)) := by
    rw [dupTargets, List.mem_filter]
    refine ⟨hrrom, ?_⟩
    rw [Bool.and_eq_true]
    refine ⟨by simpa using hns, ?_⟩
    apply contains_of_mem
    rw [← hzstem]
    apply List.mem_map_of_mem
    rw [List.mem_filter]
    exact ⟨hzrom, by simpa using hzsuf⟩
  exact survivors_not_dup p pd r hr r hrd rfl

theorem pd_eta (q : PlatformDir) :
    ({ files := q.files, images := q.images, filelist := q.filelist } : PlatformDir) = q := rfl

theorem orphanPrune_exec_noroms (p : String) (e : List String) (pd : PlatformDir)
    (hr : getRoms pd e = []) :
    (orphanPrune p e pd false).1 = { pd with images := pd.images.map (fun _ => []) } := by
  rw [orphanPrune]
  cases him : pd.images with
  | none =>
    dsimp only
    show pd = { files := pd.files, images := none, filelist := pd.filelist }
    rw [← him, pd_eta]
  | some imgs =>
    dsimp only
    rw [hr]
    rw [if_neg (by simp)]
    by_cases hie : imgs = []
    · subst hie
      rw [if_neg (by simp)]
      dsimp only
      show pd = { files := pd.files, images := some [], filelist := pd.filelist }
      rw [← him, pd_eta]
    · rw [if_pos (by simpa [List.isEmpty_iff] using hie)]
      rfl

theorem orphanPrune_exec_roms (p : String) (e : List String) (pd : PlatformDir)
    (imgs : List FsFile) (him : pd.images = some imgs) (hr : ¬ getRoms pd e = []) :
    (orphanPrune p e pd false).1
      = { pd with images := some (imgs.filter (fun f =>
          ((getRoms pd e).map (fun g => pyStem g.name)).contains (pyStem f.name))) } := by
  rw [orphanPrune, him]
  dsimp only
  rw [if_pos (by simpa [List.isEmpty_iff] using hr)]
  rfl

theorem csvStep_exec_noroms (p : String) (e : List String) (pd : PlatformDir)
    (hr : getRoms pd e = []) :
    (csvStep p e pd false).1 = { pd with filelist := pd.filelist.map (fun _ => "") } := by
  rw [csvStep]
  rw [hr]
  rw [if_neg (by simp)]
  cases hfl : pd.filelist with
  | none =>
    dsimp only
    show pd = { files := pd.files, images := pd.images, filelist := none }
    rw [← hfl, pd_eta]
  | some c => rfl

theorem csvStep_exec_roms2 (p : String) (e : List String) (pd : PlatformDir)
    (hr : ¬ getRoms pd e = []) :
    (csvStep p e pd false).1
      = { pd with filelist := some (joinNl
          ((getRoms pd e).map (csvLineOf (loadCsv pd.filelist)))) } := by
  rw [csvStep]
  rw [if_pos (by simpa [List.isEmpty_iff] using hr)]
  rfl

theorem getRoms_files3 (p : String) (pd : PlatformDir) (io : Option (List FsFile))
    (fo : Option String) :
    getRoms { files := files3Of p pd, images := io, filelist := fo } (romExtMap p)
      = survivorsOf p pd := by
  rw [survivorsOf]
  exact getRoms_congr_files _ rfl

/-- Orphan pruning followed by CSV regeneration on the state left by the
duplicate-deletion loop, execute mode, GameFiles present. -/
theorem orphan_csv_exec (p : String) (fs : List FsFile) (imgs0 : List FsFile)
    (fl : Option String)
    (hr : ¬ getRoms { files := fs, images := some imgs0, filelist := fl } (romExtMap p) = []) :
    (csvStep p (romExtMap p)
        (orphanPrune p (romExtMap p) { files := fs, images := some imgs0, filelist := fl }
          false).1 false).1
      = { files := fs,
          images := some (imgs0.filter (fun f =>
            ((getRoms { files := fs, images := some imgs0, filelist := fl }
              (romExtMap p)).map (fun g => pyStem g.name)).contains (pyStem f.name))),
          filelist := some (joinNl
            ((getRoms { files := fs, images := some imgs0, filelist := fl }
              (romExtMap p)).map (csvLineOf (loadCsv fl)))) } := by
  rw [orphanPrune_exec_roms p (romExtMap p)
    { files := fs, images := some imgs0, filelist := fl } imgs0 rfl hr]
  rw [csvStep_exec_roms2 p (romExtMap p)
    { files := fs,
      images := some (imgs0.filter (fun f =>
        ((getRoms { files := fs, images := some imgs0, filelist := fl }
          (romExtMap p)).map (fun g => pyStem g.name)).contains (pyStem f.name))),
      filelist := fl }
    (by rw [@getRoms_congr_files _
      { files := fs, images := some imgs0, filelist := fl } (romExtMap p) rfl]; exact hr)]
  have hgr : getRoms
      { files := fs,
        images := some (imgs0.filter (fun f =>
          ((getRoms { files := fs, images := some imgs0, filelist := fl }
            (romExtMap p)).map (fun g => pyStem g.name)).contains (pyStem f.name))),
        filelist := fl } (romExtMap p)
      = getRoms { files := fs, images := some imgs0, filelist := fl } (romExtMap p) :=
    getRoms_congr_files _ rfl
  rw [hgr]

theorem step2Dir_exec_noroms (p : String) (pd : PlatformDir)
    (hr : getRoms pd (romExtMap p) = []) :
    (step2Dir p pd false).1
      = { files := pd.files, images := pd.images.map (fun _ => []),
          filelist := pd.filelist.map (fun _ => "") } := by
  have hdt : dupTargets ([] : List FsFile) = [] := rfl
  have hg : ∀ q : PlatformDir, q.files = pd.files → getRoms q (romExtMap p) = [] := by
    intro q hq
    rw [getRoms_congr_files (romExtMap p) hq]
    exact hr
  rw [step2Dir]
  simp only [hr, hdt, List.isEmpty_nil, Bool.not_true, Bool.and_false, Bool.false_and,
    Bool.false_eq_true, if_false, List.foldl_nil, List.map_nil, pd_eta]
  rw [orphanPrune_exec_noroms p (romExtMap p) pd hr]
  rw [csvStep_exec_noroms p (romExtMap p)
    { files := pd.files, images := pd.images.map (fun _ => []), filelist := pd.filelist }
    (hg _ rfl)]

theorem step2Dir_exec_out (p : String) (pd : PlatformDir)
    (hr : ¬ getRoms pd (romExtMap p) = [])
    (hi : getImages pd = []) :
    (step2Dir p pd false).1 = runDir p pd := by
  have hre : (getRoms pd (romExtMap p)).isEmpty = false := by
    cases hb : (getRoms pd (romExtMap p)).isEmpty with
    | true => exact absurd (List.isEmpty_iff.mp hb) hr
    | false => rfl
  have hsne := survivorsOf_ne_nil p pd hr
  have hff : List.foldl (fun fs d => removeFile fs d.name) pd.files
      (dupTargets (getRoms pd (romExtMap p))) = files3Of p pd := rfl
  rw [step2Dir]
  simp only [hi, hre, List.isEmpty_nil, Bool.not_true, Bool.not_false, Bool.false_and,
    Bool.and_true, Bool.false_eq_true, if_false, List.foldl_nil]
  cases him : pd.images with
  | none =>
    simp only [Option.isNone_none, if_true]
    rw [hff]
    rw [orphan_csv_exec p (files3Of p pd) [] pd.filelist
      (by rw [getRoms_files3]; exact hsne)]
    rw [getRoms_files3]
    rw [runDir, him]
    rfl
  | some imgs =>
    simp only [Option.isNone_some, Bool.false_eq_true, if_false]
    rw [him, hff]
    rw [orphan_csv_exec p (files3Of p pd) imgs pd.filelist
      (by rw [getRoms_files3]; exact hsne)]
    rw [getRoms_files3]
    rw [runDir, him]
    rfl

theorem loadCsv_mem (flo : Option String) : ∀ pr ∈ loadCsv flo, csvRecOK pr := by
  cases flo with
  | none => intro pr hpr; simp [loadCsv] at hpr
  | some c => exact loadCsvContent_mem c

theorem cleanName_no_comma {n : String} (h : cleanName n = true) : hasComma n = false := by
  rw [hasComma, List.any_eq_false]
  intro c hc
  simpa using ((cleanName_facts h).2.1 c hc).1

/-- Reloading the CSV the script itself just wrote recovers every
remainder, so a second regeneration writes the identical lines. -/
theorem csvLineOf_roundtrip (roms : List FsFile) (old : List (String × String))
    (hold : ∀ pr ∈ old, csvRecOK pr)
    (hclean : ∀ f ∈ roms, cleanName f.name = true)
    (hnodup : (roms.map (fun f => f.name)).Nodup)
    (hne : ¬ roms = []) :
    roms.map (csvLineOf (loadCsvContent (joinNl (roms.map (csvLineOf old)))))
      = roms.map (csvLineOf old) := by
  set pairs := roms.map (fun rom => ((rom.name : String), remOf old rom)) with hpairs
  have hlines : roms.map (csvLineOf old) = pairs.map (fun pr => pr.1 ++ "," ++ pr.2) := by
    rw [hpairs, List.map_map]
    apply List.map_congr_left
    intro rom _
    exact csvLineOf_eq old rom
  have hkeys : pairs.map Prod.fst = roms.map (fun f => f.name) := by
    rw [hpairs, List.map_map]
    rfl
  have hclean2 : ∀ pr ∈ pairs, csvCleanPair pr := by
    intro pr hpr
    rw [hpairs] at hpr
    rcases List.mem_map.mp hpr with ⟨rom, hrom, rfl⟩
    obtain ⟨⟨h10, h1h, h1l⟩, h2, ⟨h30, h3h, h3l⟩, h4⟩ := cleanName_facts (hclean rom hrom)
    have hstemchars : chars (pyStem rom.name ++ "," ++ pyStem rom.name)
        = chars (pyStem rom.name) ++ ',' :: chars (pyStem rom.name) := by
      rw [chars_append3]
      rfl
    refine ⟨h10, fun c hc => (h2 c hc).1, h1h, h1l, ?_,
      fun c hc => ⟨(h2 c hc).2.1, (h2 c hc).2.2.1⟩, ?_⟩
    · show ∀ c, (chars (remOf old rom)).getLast? = some c → isPyWs c = false
      rw [remOf]
      cases hlk : lookupA old rom.name with
      | some rest =>
        intro c hc
        exact (hold _ (lookupA_mem hlk)).2 c hc
      | none =>
        dsimp only
        intro c hc
        rw [hstemchars, getLast?_append_cons,
          getLast?_cons_ne _ _ (show ¬ chars (pyStem rom.name) = [] from h30)] at hc
        exact h3l c hc
    · show ∀ c ∈ chars (remOf old rom), ¬ c = '\n' ∧ ¬ c = '\r'
      rw [remOf]
      cases hlk : lookupA old rom.name with
      | some rest =>
        intro c hc
        exact (hold _ (lookupA_mem hlk)).1 c hc
      | none =>
        dsimp only
        intro c hc
        rw [hstemchars] at hc
        have hstem : c ∈ chars (pyStem rom.name) → ¬ c = '\n' ∧ ¬ c = '\r' := by
          intro h5
          have h6 := h2 c (List.take_subset _ _ h5)
          exact ⟨h6.2.1, h6.2.2.1⟩
        rcases List.mem_append.mp hc with hA | hA
        · exact hstem hA
        · rcases List.mem_cons.mp hA with hB | hB
          · subst hB; exact ⟨by decide, by decide⟩
          · exact hstem hB
  have hpne : ¬ pairs = [] := by
    intro h0
    apply hne
    rw [hpairs] at h0
    cases roms with
    | nil => rfl
    | cons r rest => simp at h0
  have hlu : ∀ rom ∈ roms,
      lookupA (loadCsvContent (joinNl (roms.map (csvLineOf old)))) rom.name
        = some (remOf old rom) := by
    intro rom hrom
    rw [hlines]
    apply lookupA_loadCsv_pairs pairs hpne hclean2 ?_ rom.name (remOf old rom) ?_
    · rw [hkeys]
      exact hnodup
    · rw [hpairs]
      exact List.mem_map_of_mem _ hrom
  apply List.map_congr_left
  intro rom hrom
  have hone : csvLineOf (loadCsvContent (joinNl (roms.map (csvLineOf old)))) rom
      = rom.name ++ "," ++ remOf old rom := by
    rw [csvLineOf, hlu rom hrom]
  rw [hone, ← csvLineOf_eq]

/-- Decidable per-directory input conditions under which execute mode is
idempotent: no loose root images, clean duplicate-free GameFile names,
comma-free `images/` names. -/
def reconciledInput (p : String) (pd : PlatformDir) : Prop :=
  getImages pd = []
  ∧ (∀ f ∈ pd.files, isRomName (romExtMap p) f.name = true → cleanName f.name = true)
  ∧ ((pd.files.filter (fun f => isRomName (romExtMap p) f.name)).map
      (fun f => f.name)).Nodup
  ∧ (∀ f ∈ pd.images.getD [], hasComma f.name = false)

instance (p : String) (pd : PlatformDir) : Decidable (reconciledInput p pd) := by
  unfold reconciledInput
  infer_instance

theorem getRoms_runDir (p : String) (pd : PlatformDir) :
    getRoms (runDir p pd) (romExtMap p) = survivorsOf p pd := by
  rw [runDir]
  exact getRoms_files3 p pd _ _

theorem runDir_files_mem (p : String) (pd : PlatformDir) :
    ∀ f ∈ (runDir p pd).files, f ∈ pd.files := by
  intro f hf
  have hf2 : f ∈ files3Of p pd := hf
  exact ((mem_foldl_removeFile _ _ _).mp hf2).1

theorem survivors_clean (p : String) (pd : PlatformDir) (h : reconciledInput p pd) :
    ∀ f ∈ survivorsOf p pd, cleanName f.name = true := by
  intro f hf
  have hf2 := survivors_sub p pd f hf
  rw [mem_getRoms] at hf2
  exact h.2.1 f hf2.1 hf2.2

theorem survivors_names_nodup (p : String) (pd : PlatformDir) (h : reconciledInput p pd) :
    ((survivorsOf p pd).map (fun f => f.name)).Nodup := by
  apply getRoms_names_nodup
  show (((files3Of p pd).filter (fun f => isRomName (romExtMap p) f.name)).map
    (fun f => f.name)).Nodup
  apply List.Nodup.sublist ?_ h.2.2.1
  exact ((foldl_removeFile_sublist _ _).filter _).map _

theorem step2Dir_exec_idem (p : String) (pd : PlatformDir) (h : reconciledInput p pd) :
    (step2Dir p (step2Dir p pd false).1 false).1 = (step2Dir p pd false).1 := by
  by_cases hr : getRoms pd (romExtMap p) = []
  · have hg : getRoms
        { files := pd.files,
          images := pd.images.map (fun _ => ([] : List FsFile)),
          filelist := pd.filelist.map (fun _ => "") } (romExtMap p) = [] := by
      exact (getRoms_congr_files (romExtMap p) rfl).trans hr
    rw [step2Dir_exec_noroms p pd hr, step2Dir_exec_noroms p _ hg]
    cases pd.images <;> cases pd.filelist <;> rfl
  · have hi := h.1
    rw [step2Dir_exec_out p pd hr hi]
    have hsne := survivorsOf_ne_nil p pd hr
    have hr1 : ¬ getRoms (runDir p pd) (romExtMap p) = [] := by
      rw [getRoms_runDir]
      exact hsne
    have hi1 : getImages (runDir p pd) = [] := by
      rw [getImages, List.filter_eq_nil_iff]
      intro f hf
      have hf2 := runDir_files_mem p pd f hf
      have h3 := hi
      rw [getImages, List.filter_eq_nil_iff] at h3
      exact h3 f hf2
    rw [step2Dir_exec_out p (runDir p pd) hr1 hi1]
    have hdup1 : dupTargets (getRoms (runDir p pd) (romExtMap p)) = [] := by
      rw [getRoms_runDir]
      exact dupTargets_survivors p pd
    have hfiles1 : files3Of p (runDir p pd) = files3Of p pd := by
      rw [files3Of, hdup1]
      rfl
    have hsur1 : survivorsOf p (runDir p pd) = survivorsOf p pd := by
      rw [survivorsOf, hfiles1]
      rfl
    have hext : ∀ (a b : PlatformDir), a.files = b.files → a.images = b.images →
        a.filelist = b.filelist → a = b := by
      intro a b h1 h2 h3
      cases a
      cases b
      cases h1
      cases h2
      cases h3
      rfl
    apply hext
    · show files3Of p (runDir p pd) = (runDir p pd).files
      rw [hfiles1]
      rfl
    · show some (((runDir p pd).images.getD []).filter (fun f =>
          ((survivorsOf p (runDir p pd)).map (fun g => pyStem g.name)).contains
            (pyStem f.name))) = (runDir p pd).images
      rw [hsur1]
      show some (((pd.images.getD []).filter (fun f =>
          ((survivorsOf p pd).map (fun g => pyStem g.name)).contains (pyStem f.name))).filter
            (fun f =>
          ((survivorsOf p pd).map (fun g => pyStem g.name)).contains (pyStem f.name)))
        = some ((pd.images.getD []).filter (fun f =>
          ((survivorsOf p pd).map (fun g => pyStem g.name)).contains (pyStem f.name)))
      congr 1
      apply List.filter_eq_self.mpr
      intro f hf
      exact (List.mem_filter.mp hf).2
    · show some (joinNl ((survivorsOf p (runDir p pd)).map
          (csvLineOf (loadCsv (runDir p pd).filelist)))) = (runDir p pd).filelist
      rw [hsur1]
      show some (joinNl ((survivorsOf p pd).map
          (csvLineOf (loadCsvContent (joinNl ((survivorsOf p pd).map
            (csvLineOf (loadCsv pd.filelist))))))))
        = some (joinNl ((survivorsOf p pd).map (csvLineOf (loadCsv pd.filelist))))
      congr 1
      rw [csvLineOf_roundtrip (survivorsOf p pd) (loadCsv pd.filelist)
        (loadCsv_mem pd.filelist) (survivors_clean p pd h)
        (survivors_names_nodup p pd h) hsne]

/-- The directory a reconciled-input chunk leaves behind still satisfies
the name/duplicate conditions (and has no commas left anywhere). -/
theorem step2Dir_exec_out_facts (p : String) (pd : PlatformDir) (h : reconciledInput p pd) :
    noCommaDir p (step2Dir p pd false).1
    ∧ (∀ f ∈ (step2Dir p pd false).1.files,
        isRomName (romExtMap p) f.name = true → cleanName f.name = true)
    ∧ (((step2Dir p pd false).1.files.filter
        (fun f => isRomName (romExtMap p) f.name)).map (fun f => f.name)).Nodup := by
  by_cases hr : getRoms pd (romExtMap p) = []
  · rw [step2Dir_exec_noroms p pd hr]
    refine ⟨⟨?_, ?_⟩, ?_, ?_⟩
    · intro f hf hrom
      exact cleanName_no_comma (h.2.1 f hf hrom)
    · intro f hf
      cases him2 : pd.images with
      | none => rw [him2] at hf; simp at hf
      | some imgs => rw [him2] at hf; simp at hf
    · exact h.2.1
    · exact h.2.2.1
  · rw [step2Dir_exec_out p pd hr h.1]
    have hfilesub : ∀ f ∈ (runDir p pd).files, f ∈ pd.files := runDir_files_mem p pd
    refine ⟨⟨?_, ?_⟩, ?_, ?_⟩
    · intro f hf hrom
      exact cleanName_no_comma (h.2.1 f (hfilesub f hf) hrom)
    · intro f hf
      have hf2 : f ∈ (pd.images.getD []).filter (fun f =>
          ((survivorsOf p pd).map (fun g => pyStem g.name)).contains (pyStem f.name)) := hf
      exact h.2.2.2 f (List.mem_filter.mp hf2).1
    · intro f hf hrom
      exact h.2.1 f (hfilesub f hf) hrom
    · show (((files3Of p pd).filter (fun f => isRomName (romExtMap p) f.name)).map
        (fun f => f.name)).Nodup
      apply List.Nodup.sublist ?_ h.2.2.1
      exact ((foldl_removeFile_sublist _ _).filter _).map _

/-! ## Phase-level composition for the idempotence argument -/

theorem phase1_nochange_mem (dry : Bool) : ∀ (ps : List String) (s : SdState),
    (∀ p ∈ ps, ∀ pd, getDir s p = some pd → noCommaDir p pd) →
    phase1 dry ps s = (s, [])
  | [], _, _ => rfl
  | p :: rest, s, h => by
    rw [phase1]
    cases hg : getDir s p with
    | none => exact phase1_nochange_mem dry rest s (fun q hq => h q (List.mem_cons_of_mem _ hq))
    | some pd =>
      dsimp only
      rw [step1Dir_nochange p pd dry (h p (List.mem_cons_self _ _) pd hg)]
      dsimp only
      rw [setDir_self s p pd hg,
        phase1_nochange_mem dry rest s (fun q hq => h q (List.mem_cons_of_mem _ hq))]
      rfl

theorem phase2_fix : ∀ (ps : List String) (s : SdState),
    (∀ p ∈ ps, ∀ pd, getDir s p = some pd → (step2Dir p pd false).1 = pd) →
    (phase2 false ps s).1 = s
  | [], _, _ => rfl
  | p :: rest, s, h => by
    rw [phase2]
    cases hg : getDir s p with
    | none => exact phase2_fix rest s (fun q hq => h q (List.mem_cons_of_mem _ hq))
    | some pd =>
      dsimp only
      rcases hsd : step2Dir p pd false with ⟨pd', log⟩
      have hpd : pd' = pd := by
        have h2 := h p (List.mem_cons_self _ _) pd hg
        rw [hsd] at h2
        exact h2
      dsimp only
      rw [hpd, setDir_self s p pd hg]
      rcases hrec : phase2 false rest s with ⟨s', log'⟩
      have h3 := phase2_fix rest s (fun q hq => h q (List.mem_cons_of_mem _ hq))
      rw [hrec] at h3
      exact h3

theorem phase2_getDir_not_mem (dry : Bool) : ∀ (ps : List String) (s : SdState) (q : String),
    ¬ q ∈ ps → getDir (phase2 dry ps s).1 q = getDir s q
  | [], _, _, _ => rfl
  | p :: rest, s, q, hq => by
    have hqp : ¬ q = p := fun h0 => hq (h0 ▸ List.mem_cons_self _ _)
    have hqr : ¬ q ∈ rest := fun h0 => hq (List.mem_cons_of_mem _ h0)
    rw [phase2]
    cases hg : getDir s p with
    | none => exact phase2_getDir_not_mem dry rest s q hqr
    | some pd =>
      dsimp only
      rcases hsd : step2Dir p pd dry with ⟨pd', log⟩
      dsimp only
      rcases hrec : phase2 dry rest (setDir s p pd') with ⟨s', log'⟩
      dsimp only
      have h3 := phase2_getDir_not_mem dry rest (setDir s p pd') q hqr
      rw [hrec] at h3
      rw [h3]
      exact getDir_setDir_ne s p q pd' hqp

theorem phase2_getDir (dry : Bool) : ∀ (ps : List String) (s : SdState) (p : String),
    ps.Nodup → p ∈ ps →
    getDir (phase2 dry ps s).1 p = (getDir s p).map (fun pd => (step2Dir p pd dry).1)
  | [], _, p, _, hp => absurd hp (by simp)
  | q :: rest, s, p, hnd, hp => by
    have hnd' : ¬ q ∈ rest ∧ rest.Nodup := List.nodup_cons.mp hnd
    rw [phase2]
    by_cases hqp : q = p
    · subst hqp
      cases hg : getDir s q with
      | none =>
        dsimp only
        rw [phase2_getDir_not_mem dry rest s q hnd'.1, hg]
        rfl
      | some pd =>
        dsimp only
        rcases hsd : step2Dir q pd dry with ⟨pd', log⟩
        dsimp only
        rcases hrec : phase2 dry rest (setDir s q pd') with ⟨s', log'⟩
        dsimp only
        have h3 := phase2_getDir_not_mem dry rest (setDir s q pd') q hnd'.1
        rw [hrec] at h3
        rw [h3, getDir_setDir_self s q pd pd' hg]
        rw [show Option.map (fun pd => (step2Dir q pd dry).1) (some pd)
          = some (step2Dir q pd dry).1 from rfl]
        rw [hsd]
    · have hp' : p ∈ rest := by
        rcases List.mem_cons.mp hp with h0 | h0
        · exact absurd h0.symm hqp
        · exact h0
      cases hg : getDir s q with
      | none => exact phase2_getDir dry rest s p hnd'.2 hp'
      | some pd =>
        dsimp only
        rcases hsd : step2Dir q pd dry with ⟨pd', log⟩
        dsimp only
        rcases hrec : phase2 dry rest (setDir s q pd') with ⟨s', log'⟩
        dsimp only
        have h3 := phase2_getDir dry rest (setDir s q pd') p hnd'.2 hp'
        rw [hrec] at h3
        rw [h3, getDir_setDir_ne s q p pd' (fun h0 => hqp h0.symm)]

theorem phase4_dirs (s : SdState) (d : Bool) : (phase4 s d).1.dirs = s.dirs := rfl

theorem sd_eta (s : SdState) :
    ({ dirs := s.dirs, allfiles := s.allfiles, favorites := s.favorites,
       recent := s.recent } : SdState) = s := rfl

theorem sd_ext (a b : SdState) (h1 : a.dirs = b.dirs) (h2 : a.allfiles = b.allfiles)
    (h3 : a.favorites = b.favorites) (h4 : a.recent = b.recent) : a = b := by
  cases a
  cases b
  cases h1
  cases h2
  cases h3
  cases h4
  rfl

theorem allfilesLines_nil (s : SdState) (old1 old2 : List (String × String))
    (h : allfilesLines s old1 = []) : allfilesLines s old2 = [] := by
  rw [allfilesLines_eq] at h ⊢
  rw [List.flatten_eq_nil_iff] at h ⊢
  intro l' hl'
  rcases List.mem_map.mp hl' with ⟨p, hp, rfl⟩
  have h2 := h _ (List.mem_map_of_mem (fun p => (romsOfPlatform s p).map (afLine old1 p)) hp)
  rw [List.map_eq_nil_iff] at h2 ⊢
  exact h2

/-- Rewriting `allfiles.lst` with what a previous rewrite produced keeps
the file identical. -/
theorem phase3_exec_fix (s1 : SdState)
    (hclean : ∀ p ∈ PLATFORMS, ∀ rom ∈ romsOfPlatform s1 p, cleanName rom.name = true)
    (hnd : (validRomKeys s1).Nodup)
    (hshape : s1.allfiles = none
      ∨ ∃ old, (∀ pr ∈ old, pipeRecOK pr)
          ∧ s1.allfiles = some (joinNl (allfilesLines s1 old))) :
    (phase3 s1 false).1 = s1 := by
  rcases hshape with hnone | ⟨old, hold, hsome⟩
  · rw [phase3, hnone]
  · rw [phase3, hsome]
    dsimp only
    rw [if_neg (show ¬ (false = true) by simp)]
    by_cases hne : allfilesLines s1 old = []
    · apply sd_ext
      · rfl
      · show some (joinNl (allfilesLines s1
          (loadPipeKeyed (joinNl (allfilesLines s1 old))))) = s1.allfiles
        rw [allfilesLines_nil s1 old _ hne, hsome, hne]
      · rfl
      · rfl
    · apply sd_ext
      · rfl
      · show some (joinNl (allfilesLines s1
          (loadPipeKeyed (joinNl (allfilesLines s1 old))))) = s1.allfiles
        rw [allfilesLines_roundtrip s1 old hold hclean hnd hne, hsome]
      · rfl
      · rfl

/-! ## Favorites/recents round-trip -/

theorem keptLines_facts (c : String) (valid : List String) :
    ∀ l ∈ keptLines c valid,
      pyStrip l = l ∧ ¬ l = "" ∧ (∀ ch ∈ chars l, ¬ ch = '\n' ∧ ¬ ch = '\r')
      ∧ valid.contains (pipeKey l) = true := by
  intro l hl
  rw [keptLines] at hl
  have h2 := List.mem_filter.mp hl
  have h3 := List.mem_filter.mp h2.1
  rcases List.mem_map.mp h3.1 with ⟨l0, hl0, rfl⟩
  exact ⟨pyStrip_idem l0, by simpa using h3.2, readLines_strip_facts c l0 hl0,
    by simpa using h2.2⟩

theorem keptLines_of_clean (lines : List String) (valid : List String)
    (h : ∀ l ∈ lines, pyStrip l = l ∧ ¬ l = ""
      ∧ (∀ ch ∈ chars l, ¬ ch = '\n' ∧ ¬ ch = '\r') ∧ valid.contains (pipeKey l) = true)
    (hne : ¬ lines = []) :
    keptLines (joinNl lines) valid = lines := by
  rw [keptLines, readLines_joinNl lines hne (fun l hl => (h l hl).2.2.1)]
  have hmap : (lines ++ [""]).map pyStrip = lines ++ [""] := by
    rw [List.map_append]
    have h1 : lines.map pyStrip = lines := by
      rw [List.map_congr_left (fun l hl => (h l hl).1)]
      exact List.map_id _
    rw [h1]
    rfl
  rw [hmap]
  have hfil : (lines ++ [""]).filter (fun l => ¬ l = "") = lines := by
    rw [List.filter_append]
    have hx : lines.filter (fun l => ¬ l = "") = lines :=
      List.filter_eq_self.mpr (fun l hl => by simpa using (h l hl).2.1)
    have hy : ([""] : List String).filter (fun l => ¬ l = "") = [] := rfl
    rw [hx, hy, List.append_nil]
  rw [hfil]
  exact List.filter_eq_self.mpr (fun l hl => (h l hl).2.2.2)

theorem keptLines_empty (valid : List String) : keptLines "" valid = [] := rfl

theorem listOutput_roundtrip (c : String) (valid : List String) :
    keptLines (listOutput (keptLines c valid)) valid = keptLines c valid := by
  by_cases hk : (keptLines c valid).isEmpty = true
  · have h0 : keptLines c valid = [] := List.isEmpty_iff.mp hk
    rw [listOutput, if_pos hk, keptLines_empty, h0]
  · rw [listOutput, if_neg hk]
    exact keptLines_of_clean _ valid (keptLines_facts c valid)
      (fun h0 => hk (by rw [h0]; rfl))

theorem phase4_favorites_eq (s : SdState) :
    (phase4 s false).1.favorites
      = match s.favorites with
        | none => none
        | some c => some (listOutput (keptLines c (validRomKeys s))) := by
  rw [phase4]
  cases s.favorites <;> cases s.recent <;> rfl

theorem phase4_recent_eq (s : SdState) :
    (phase4 s false).1.recent
      = match s.recent with
        | none => none
        | some c => some (listOutput (keptLines c (validRomKeys s))) := by
  rw [phase4]
  cases s.favorites <;> cases s.recent <;> rfl

/-- Filtering a favorites/recents file the script itself just wrote keeps
the file identical. -/
theorem phase4_exec_fix (s1 : SdState)
    (hfav : s1.favorites = none
      ∨ ∃ c0, s1.favorites = some (listOutput (keptLines c0 (validRomKeys s1))))
    (hrec : s1.recent = none
      ∨ ∃ c0, s1.recent = some (listOutput (keptLines c0 (validRomKeys s1)))) :
    (phase4 s1 false).1 = s1 := by
  apply sd_ext _ _ (phase4_dirs s1 false) (phase4_allfiles s1 false)
  · rw [phase4_favorites_eq s1]
    rcases hfav with hn | ⟨c0, hc0⟩
    · rw [hn]
    · rw [hc0]
      show some (listOutput (keptLines (listOutput (keptLines c0 (validRomKeys s1)))
        (validRomKeys s1))) = _
      rw [listOutput_roundtrip c0 (validRomKeys s1)]
  · rw [phase4_recent_eq s1]
    rcases hrec with hn | ⟨c0, hc0⟩
    · rw [hn]
    · rw [hc0]
      show some (listOutput (keptLines (listOutput (keptLines c0 (validRomKeys s1)))
        (validRomKeys s1))) = _
      rw [listOutput_roundtrip c0 (validRomKeys s1)]

/-- Per-platform condition packaged over the optional directory. -/
def dirOK (p : String) : Option PlatformDir → Prop
  | none => True
  | some pd => reconciledInput p pd

instance (p : String) (o : Option PlatformDir) : Decidable (dirOK p o) := by
  cases o with
  | none => exact isTrue trivial
  | some pd => exact (inferInstance : Decidable (reconciledInput p pd))

/-- Every existing platform directory satisfies the reconciled-input
conditions. -/
def reconciledState (s : SdState) : Prop :=
  ∀ p ∈ PLATFORMS, dirOK p (getDir s p)

instance (s : SdState) : Decidable (reconciledState s) := by
  unfold reconciledState
  infer_instance

theorem syncSdCard_exec_eq (s : SdState) (hph1 : phase1 false PLATFORMS s = (s, [])) :
    (syncSdCard s false).1
      = (phase4 (phase3 (phase2 false PLATFORMS s).1 false).1 false).1 := by
  rw [syncSdCard, hph1]

/-- Executing the reconciliation on a reconciled-input state and then
executing it again leaves the filesystem of the first run untouched, and
the console summary is computed from that same state. -/
theorem execute_idempotent_core (s : SdState) (h : reconciledState s) :
    (syncSdCard (syncSdCard s false).1 false).1 = (syncSdCard s false).1 := by
  have hrec : ∀ p ∈ PLATFORMS, ∀ pd, getDir s p = some pd → reconciledInput p pd := by
    intro p hp pd hpd
    have h2 := h p hp
    rw [hpd] at h2
    exact h2
  have hnd : PLATFORMS.Nodup := by decide
  have hph1 : phase1 false PLATFORMS s = (s, []) := by
    apply phase1_nochange_mem
    intro p hp pd hpd
    obtain ⟨-, h2, -, h4⟩ := hrec p hp pd hpd
    exact ⟨fun f hf hr => cleanName_no_comma (h2 f hf hr), h4⟩
  have hgd2 : ∀ p ∈ PLATFORMS, getDir (phase2 false PLATFORMS s).1 p
      = (getDir s p).map (fun pd => (step2Dir p pd false).1) :=
    fun p hp => phase2_getDir false PLATFORMS s p hnd hp
  have hfix2 : ∀ p ∈ PLATFORMS, ∀ pd1, getDir (phase2 false PLATFORMS s).1 p = some pd1 →
      (step2Dir p pd1 false).1 = pd1 := by
    intro p hp pd1 hpd1
    rw [hgd2 p hp] at hpd1
    cases hg : getDir s p with
    | none => rw [hg] at hpd1; exact absurd hpd1 (by simp)
    | some pd0 =>
      rw [hg] at hpd1
      rw [show Option.map (fun pd => (step2Dir p pd false).1) (some pd0)
        = some (step2Dir p pd0 false).1 from rfl] at hpd1
      injection hpd1 with hpd1
      rw [← hpd1]
      exact step2Dir_exec_idem p pd0 (hrec p hp pd0 hg)
  have hout2 : ∀ p ∈ PLATFORMS, ∀ pd1, getDir (phase2 false PLATFORMS s).1 p = some pd1 →
      noCommaDir p pd1
      ∧ (∀ f ∈ pd1.files, isRomName (romExtMap p) f.name = true → cleanName f.name = true)
      ∧ ((pd1.files.filter (fun f => isRomName (romExtMap p) f.name)).map
          (fun f => f.name)).Nodup := by
    intro p hp pd1 hpd1
    rw [hgd2 p hp] at hpd1
    cases hg : getDir s p with
    | none => rw [hg] at hpd1; exact absurd hpd1 (by simp)
    | some pd0 =>
      rw [hg] at hpd1
      rw [show Option.map (fun pd => (step2Dir p pd false).1) (some pd0)
        = some (step2Dir p pd0 false).1 from rfl] at hpd1
      injection hpd1 with hpd1
      rw [← hpd1]
      exact step2Dir_exec_out_facts p pd0 (hrec p hp pd0 hg)
  have hclean2 : ∀ p ∈ PLATFORMS, ∀ rom ∈ romsOfPlatform (phase2 false PLATFORMS s).1 p,
      cleanName rom.name = true := by
    intro p hp rom hrom
    rw [romsOfPlatform] at hrom
    cases hg : getDir (phase2 false PLATFORMS s).1 p with
    | none => rw [hg] at hrom; simp at hrom
    | some pd1 =>
      rw [hg] at hrom
      dsimp only at hrom
      rw [mem_getRoms] at hrom
      exact (hout2 p hp pd1 hg).2.1 rom hrom.1 hrom.2
  have hnodup2 : ∀ p ∈ PLATFORMS,
      ((romsOfPlatform (phase2 false PLATFORMS s).1 p).map (fun f => f.name)).Nodup := by
    intro p hp
    rw [romsOfPlatform]
    cases hg : getDir (phase2 false PLATFORMS s).1 p with
    | none => simp
    | some pd1 =>
      dsimp only
      exact getRoms_names_nodup (hout2 p hp pd1 hg).2.2
  set s2 := (phase2 false PLATFORMS s).1 with hs2def
  set s3 := (phase3 s2 false).1 with hs3def
  set s4 := (phase4 s3 false).1 with hs4def
  have hs43 : s4.dirs = s2.dirs := by
    rw [hs4def, phase4_dirs, hs3def, phase3_dirs]
  have hroms43 : ∀ q, romsOfPlatform s4 q = romsOfPlatform s2 q :=
    romsOf_congr_dirs _ _ hs43
  have hgd4 : ∀ q, getDir s4 q = getDir s2 q := by
    intro q
    rw [getDir, getDir, hs43]
  have hrun1 : (syncSdCard s false).1 = s4 := by
    rw [syncSdCard_exec_eq s hph1]
  have hfix4 : ∀ p ∈ PLATFORMS, ∀ pd1, getDir s4 p = some pd1 →
      (step2Dir p pd1 false).1 = pd1 := by
    intro p hp pd1 hpd1
    rw [hgd4 p] at hpd1
    exact hfix2 p hp pd1 hpd1
  have hph1' : phase1 false PLATFORMS s4 = (s4, []) := by
    apply phase1_nochange_mem
    intro p hp pd hpd
    rw [hgd4 p] at hpd
    exact (hout2 p hp pd hpd).1
  have hph2' : (phase2 false PLATFORMS s4).1 = s4 := phase2_fix PLATFORMS s4 hfix4
  have hclean4 : ∀ p ∈ PLATFORMS, ∀ rom ∈ romsOfPlatform s4 p, cleanName rom.name = true := by
    intro p hp rom hrom
    rw [hroms43 p] at hrom
    exact hclean2 p hp rom hrom
  have hnd4 : (validRomKeys s4).Nodup := by
    rw [validRomKeys_congr s4 s2 hroms43]
    exact validRomKeys_nodup s2 hnodup2
  have hshape4 : s4.allfiles = none
      ∨ ∃ old, (∀ pr ∈ old, pipeRecOK pr)
          ∧ s4.allfiles = some (joinNl (allfilesLines s4 old)) := by
    have haf43 : s4.allfiles = s3.allfiles := by rw [hs4def, phase4_allfiles]
    cases haf : s2.allfiles with
    | none =>
      left
      rw [haf43, hs3def, phase3, haf]
      exact haf
    | some c =>
      right
      refine ⟨loadPipeKeyed c, loadPipeKeyed_mem c, ?_⟩
      rw [allfilesLines_congr s4 s2 (loadPipeKeyed c) hroms43]
      rw [haf43, hs3def, phase3, haf]
      dsimp only
      rw [if_neg (show ¬ (false = true) by simp)]
  have hph3' : (phase3 s4 false).1 = s4 := phase3_exec_fix s4 hclean4 hnd4 hshape4
  have hvk43 : validRomKeys (phase4 s3 false).1 = validRomKeys s3 :=
    validRomKeys_congr _ _ (romsOf_congr_dirs _ _ (phase4_dirs s3 false))
  have hfav4 : s4.favorites = none
      ∨ ∃ c0, s4.favorites = some (listOutput (keptLines c0 (validRomKeys s4))) := by
    rw [hs4def, phase4_favorites_eq s3, hvk43]
    cases hf : s3.favorites with
    | none => left; rfl
    | some c =>
      right
      exact ⟨c, rfl⟩
  have hrec4 : s4.recent = none
      ∨ ∃ c0, s4.recent = some (listOutput (keptLines c0 (validRomKeys s4))) := by
    rw [hs4def, phase4_recent_eq s3, hvk43]
    cases hf : s3.recent with
    | none => left; rfl
    | some c =>
      right
      exact ⟨c, rfl⟩
  have hph4' : (phase4 s4 false).1 = s4 := phase4_exec_fix s4 hfav4 hrec4
  have hrun2 : (syncSdCard s4 false).1 = s4 := by
    rw [syncSdCard_exec_eq s4 hph1', hph2', hph3', hph4']
  rw [hrun1]
  exact hrun2

/-- **C3** (corrected).  Execute mode is not idempotent in general — see
`idempotence_counterexample`, where a loose root image left unclaimed by
the first run (its best-matching ROM was already claimed by an earlier
image) is moved by the second run.  On reconciled inputs it is
idempotent: when every existing platform directory has no loose root
image, duplicate-free GameFile names that strip to themselves and are
free of comma, newline and pipe characters (their stems' ends
non-whitespace and their uppercased stems newline-free), and comma-free
`images/` names, the second execute run leaves the filesystem exactly as
the first run left it — no rename, move, deletion or content-changing
write — and reports the same per-platform ROM/CSV/image summary counts
as the first run left behind. -/
theorem execute_idempotent (s : SdState) (h : reconciledState s) :
    (syncSdCard (syncSdCard s false).1 false).1 = (syncSdCard s false).1
    ∧ summaryOf (syncSdCard (syncSdCard s false).1 false).1
      = summaryOf (syncSdCard s false).1 := by
  have h1 := execute_idempotent_core s h
  exact ⟨h1, by rw [h1]⟩

/-- A reconciled input exercising duplicate pruning, orphan deletion,
CSV preservation and synthesis, catalog keep/synthesize/discard, and
favorites filtering. -/
def reconciledOkState : SdState :=
  { dirs := [("GB",
      { files := [⟨"zelda.zip", "Z"⟩, ⟨"zelda.gb", "G"⟩, ⟨"mario.gb", "M"⟩],
        images := some [⟨"zelda.png", "P"⟩, ⟨"ghost.png", "O"⟩],
        filelist := some "zelda.zip,Custom Name,Region\n" })],
    allfiles := some "GB/zelda.zip|Zelda|ZELDA|z|z\nOLD/stale.zip|x|y\n",
    favorites := some "GB/zelda.zip|Zelda\nGBA/gone.gba|Gone\n",
    recent := none }

theorem execute_idempotent_witness :
    reconciledState reconciledOkState
    ∧ ((syncSdCard (syncSdCard reconciledOkState false).1 false).1
        = (syncSdCard reconciledOkState false).1
      ∧ summaryOf (syncSdCard (syncSdCard reconciledOkState false).1 false).1
        = summaryOf (syncSdCard reconciledOkState false).1) :=
  ⟨by decide, execute_idempotent reconciledOkState (by decide)⟩

/-- A state on which executing the sync twice differs from executing it
once: the single ROM `mario.zip` claims only the first of two matching
root images, so the second image survives run 1 and is moved (overwriting
the first) by run 2. -/
def idempotenceBreakState : SdState :=
  { dirs := [("GB",
      { files := [⟨"mario.zip", "R"⟩, ⟨"mario a.png", "A"⟩, ⟨"mario b.png", "B"⟩],
        images := none, filelist := none })],
    allfiles := none, favorites := none, recent := none }

theorem idempotence_counterexample :
    ¬ (syncSdCard (syncSdCard idempotenceBreakState false).1 false).1
      = (syncSdCard idempotenceBreakState false).1 := by decide

end SyncSd
